import Mathlib

/-!
# Verification of the traymap cable-routing engine

Shallow embedding of `src/backend/app/routers/cable_routing.py` (the single
router file of the repository) together with proofs checking the
natural-language specification against it.

Modelling conventions:
* Python `float` values are modelled by the exact fraction type `Frac` below
  (integer numerator, positive natural denominator, no normalisation, exact
  cross-multiplication comparisons).  Every float constant in the source is a
  decimal literal and every claim under study concerns exact piecewise tables
  and exact comparisons; the counterexamples below are robust to float
  rounding.  `Frac.toRat` maps a fraction to the rational it denotes.
* `math.inf` distances are modelled by `Option Nat` / option-shaped values
  with `none` standing for `+∞`.
* Python `dict`s are modelled by update-functions or association lists whose
  lookup returns the most recent write; `set`s are modelled by
  first-insertion-ordered duplicate-free lists.  CPython's set iteration
  order is deterministic for a fixed input but depends on hash-table
  internals; the embedding fixes first-insertion order instead, which only
  affects tie-breaking between equal-cost alternatives.
* `heapq` heaps of `(cost, counter, ...)` tuples are modelled by lists kept
  sorted by `(cost, counter)`; since counters are unique, popping the head of
  the sorted list yields exactly the minimum tuple `heappop` returns.
* Unbounded `while` loops are modelled with an explicit fuel parameter;
  exhausted fuel returns the current partial state.  Theorems about the
  endpoint are quantified over the fuel values.
-/

/-! ## Exact fractions standing for Python floats -/

/-- An exact (unnormalised) fraction: `num / den`.  All operations keep the
denominator positive; `Pos` records that invariant. -/
structure Frac where
  num : Int
  den : Nat
deriving DecidableEq, Repr

/-- The rational number denoted by a fraction. -/
def Frac.toRat (a : Frac) : ℚ := (a.num : ℚ) / (a.den : ℚ)

/-- Positive denominator invariant. -/
def Frac.Pos (a : Frac) : Prop := 0 < a.den

instance (a : Frac) : Decidable a.Pos := by unfold Frac.Pos; infer_instance

def Frac.ofInt (n : Int) : Frac := ⟨n, 1⟩

def Frac.add (a b : Frac) : Frac := ⟨a.num * b.den + b.num * a.den, a.den * b.den⟩

def Frac.sub (a b : Frac) : Frac := ⟨a.num * b.den - b.num * a.den, a.den * b.den⟩

def Frac.mul (a b : Frac) : Frac := ⟨a.num * b.num, a.den * b.den⟩

def Frac.neg (a : Frac) : Frac := ⟨-a.num, a.den⟩

/-- Division, normalising the sign so the denominator stays nonnegative.
Division by a fraction denoting `0` yields denominator `0`, a stand-in for
Python's `ZeroDivisionError`; the embedding guards against it before
dividing. -/
def Frac.div (a b : Frac) : Frac :=
  if 0 ≤ b.num then ⟨a.num * b.den, a.den * b.num.toNat⟩
  else ⟨-(a.num * b.den), a.den * (-b.num).toNat⟩

/-- Exact `a <= b` by cross-multiplication (denominators positive). -/
def Frac.leb (a b : Frac) : Bool := a.num * b.den ≤ b.num * a.den

/-- Exact `a < b`. -/
def Frac.ltb (a b : Frac) : Bool := a.num * b.den < b.num * a.den

/-- Exact `a == b`. -/
def Frac.eqb (a b : Frac) : Bool := a.num * b.den = b.num * a.den

/-- Python's binary `min` (returns the first argument on ties). -/
def Frac.min (a b : Frac) : Frac := if a.leb b then a else b

theorem Frac.Pos.add {a b : Frac} (ha : a.Pos) (hb : b.Pos) : (a.add b).Pos :=
  Nat.mul_pos ha hb

theorem Frac.Pos.sub {a b : Frac} (ha : a.Pos) (hb : b.Pos) : (a.sub b).Pos :=
  Nat.mul_pos ha hb

theorem Frac.Pos.mul {a b : Frac} (ha : a.Pos) (hb : b.Pos) : (a.mul b).Pos :=
  Nat.mul_pos ha hb

theorem Frac.Pos.neg {a : Frac} (ha : a.Pos) : (a.neg).Pos := ha

theorem Frac.Pos.min {a b : Frac} (ha : a.Pos) (hb : b.Pos) : (a.min b).Pos := by
  unfold Frac.min
  split <;> assumption

theorem Frac.Pos.ofInt (n : Int) : (Frac.ofInt n).Pos := Nat.one_pos

theorem Frac.toRat_ofInt (n : Int) : (Frac.ofInt n).toRat = (n : ℚ) := by
  simp [Frac.ofInt, Frac.toRat]

theorem Frac.toRat_add {a b : Frac} (ha : a.Pos) (hb : b.Pos) :
    (a.add b).toRat = a.toRat + b.toRat := by
  have ha' : ((a.den : ℚ)) ≠ 0 := by exact_mod_cast ha.ne'
  have hb' : ((b.den : ℚ)) ≠ 0 := by exact_mod_cast hb.ne'
  field_simp [Frac.add, Frac.toRat]

theorem Frac.toRat_sub {a b : Frac} (ha : a.Pos) (hb : b.Pos) :
    (a.sub b).toRat = a.toRat - b.toRat := by
  have ha' : ((a.den : ℚ)) ≠ 0 := by exact_mod_cast ha.ne'
  have hb' : ((b.den : ℚ)) ≠ 0 := by exact_mod_cast hb.ne'
  field_simp [Frac.sub, Frac.toRat]
  ring_nf

theorem Frac.toRat_mul (a b : Frac) : (a.mul b).toRat = a.toRat * b.toRat := by
  simp only [Frac.mul, Frac.toRat]
  push_cast
  rw [div_mul_div_comm]

theorem Frac.toRat_neg (a : Frac) : (a.neg).toRat = -a.toRat := by
  simp [Frac.neg, Frac.toRat, neg_div]

theorem Frac.leb_iff {a b : Frac} (ha : a.Pos) (hb : b.Pos) :
    a.leb b = true ↔ a.toRat ≤ b.toRat := by
  have ha' : (0 : ℚ) < (a.den : ℚ) := by exact_mod_cast ha
  have hb' : (0 : ℚ) < (b.den : ℚ) := by exact_mod_cast hb
  rw [Frac.leb, decide_eq_true_eq, Frac.toRat, Frac.toRat,
    div_le_div_iff ha' hb']
  constructor
  · intro h; exact_mod_cast h
  · intro h; exact_mod_cast h

theorem Frac.ltb_iff {a b : Frac} (ha : a.Pos) (hb : b.Pos) :
    a.ltb b = true ↔ a.toRat < b.toRat := by
  have ha' : (0 : ℚ) < (a.den : ℚ) := by exact_mod_cast ha
  have hb' : (0 : ℚ) < (b.den : ℚ) := by exact_mod_cast hb
  rw [Frac.ltb, decide_eq_true_eq, Frac.toRat, Frac.toRat,
    div_lt_div_iff ha' hb']
  constructor
  · intro h; exact_mod_cast h
  · intro h; exact_mod_cast h

theorem Frac.eqb_iff {a b : Frac} (ha : a.Pos) (hb : b.Pos) :
    a.eqb b = true ↔ a.toRat = b.toRat := by
  have ha' : ((a.den : ℚ)) ≠ 0 := by exact_mod_cast ha.ne'
  have hb' : ((b.den : ℚ)) ≠ 0 := by exact_mod_cast hb.ne'
  rw [Frac.eqb, decide_eq_true_eq, Frac.toRat, Frac.toRat,
    div_eq_div_iff ha' hb']
  constructor
  · intro h; exact_mod_cast h
  · intro h; exact_mod_cast h

theorem Frac.toRat_min {a b : Frac} (ha : a.Pos) (hb : b.Pos) :
    (a.min b).toRat = Min.min a.toRat b.toRat := by
  unfold Frac.min
  rcases hle : a.leb b with _ | _
  · have : ¬ a.toRat ≤ b.toRat := by
      rw [← Frac.leb_iff ha hb, hle]; simp
    simp [min_eq_right (le_of_not_le this)]
  · have := (Frac.leb_iff ha hb).mp hle
    simp [min_eq_left this]

/-! ## Grid model -/

/-- A grid cell, mirroring the Python `PathPoint` dataclass (integer x, y). -/
structure Cell where
  x : Int
  y : Int
deriving DecidableEq, Repr

/-- Lexicographic comparison mirroring `PathPoint.__lt__`. -/
def Cell.lt (a b : Cell) : Bool :=
  a.x < b.x || (a.x = b.x && a.y < b.y)

/-- Manhattan distance `abs(x1-x2) + abs(y1-y2)` between two cells. -/
def manhattan (a b : Cell) : Nat :=
  (a.x - b.x).natAbs + (a.y - b.y).natAbs

/-- `0 <= x < width and 0 <= y < height`: the cell lies on the grid. -/
def inGrid (width height : Nat) (c : Cell) : Bool :=
  0 ≤ c.x && c.x < (width : Int) && (0 ≤ c.y && c.y < (height : Int))

/-- The 4-neighbours of a cell, in the order the Python source generates
them: `(x-1, y), (x+1, y), (x, y-1), (x, y+1)`. -/
def neighbors4 (c : Cell) : List Cell :=
  [⟨c.x - 1, c.y⟩, ⟨c.x + 1, c.y⟩, ⟨c.x, c.y - 1⟩, ⟨c.x, c.y + 1⟩]

/-- Minimum of an optional accumulator and a value (`min` folded over a
set, with `none` playing the role of the initial `math.inf`). -/
def optMinNat (acc : Option Nat) (v : Nat) : Option Nat :=
  match acc with
  | none => some v
  | some a => some (Nat.min a v)

/-- `min(abs(x - p.x) + abs(y - p.y) for p in pts)` with `none` for the
empty set, as computed by the loops in `calculate_cell_weight`. -/
def minManhattanTo (pts : List Cell) (c : Cell) : Option Nat :=
  pts.foldl (fun acc p => optMinNat acc (manhattan c p)) none

/-! ## Weight functions (§4.2) -/

/-- Embedding of `_compute_weight(dist_wall, dist_tray, redCable)`.
`none` models `math.inf`.  Source constants: base 10.0, multipliers
0.35 / 0.55 / 0.7, and tray cells at `redCable == 1.0` cost 0. -/
def computeWeight (dist_wall dist_tray : Option Nat) (redCable : Frac) : Frac :=
  if dist_tray = some 0 ∧ redCable.eqb (Frac.ofInt 1) = true then Frac.ofInt 0
  else
    let base : Frac := Frac.ofInt 10
    match dist_wall with
    | none => base
    | some 0 => base.mul (Frac.ofInt 10)
    | some 1 => base.mul ⟨35, 100⟩
    | some 2 => (base.mul ⟨55, 100⟩).mul redCable
    | some 3 =>
        (base.mul ⟨7, 10⟩).mul
          (if redCable.eqb (Frac.ofInt 1) = true then redCable
           else redCable.div (Frac.ofInt 2))
    | some _ => base.mul redCable

/-- Embedding of `calculate_cell_weight(x, y, width, height, walls, trays,
redCalble)`: distances are recomputed as exact Manhattan minima over the
wall and tray sets.  Source constants differ from `_compute_weight`: tray
cells at full strength return `-0.40`, the wall multipliers are
0.3 / 0.5 / 0.7, and the far branch (`dist >= 4`) carries no `redCable`
factor.  The `width`/`height` arguments are unused, as in the source. -/
def calculateCellWeight (x y : Int) (width height : Nat)
    (walls trays : List Cell) (redCalble : Frac) : Frac :=
  let c : Cell := ⟨x, y⟩
  let minDistTray := minManhattanTo trays c
  if minDistTray = some 0 ∧ redCalble.eqb (Frac.ofInt 1) = true then ⟨-40, 100⟩
  else
    let baseWeight : Frac := Frac.ofInt 10
    let minDistWall := minManhattanTo walls c
    match minDistWall with
    | none => baseWeight
    | some 0 => baseWeight.mul (Frac.ofInt 10)
    | some 1 => baseWeight.mul ⟨3, 10⟩
    | some 2 => (baseWeight.mul ⟨5, 10⟩).mul redCalble
    | some 3 =>
        (baseWeight.mul ⟨7, 10⟩).mul
          (if redCalble.eqb (Frac.ofInt 1) = true then redCalble
           else redCalble.div (Frac.ofInt 2))
    | some _ => baseWeight

/-- The edge-weight table exactly as the specification's §4.2 states it,
used to compare the source functions against the spec's words. -/
def specTableWeight (dw dt : Option Nat) (redCable : ℚ) : ℚ :=
  if dt = some 0 ∧ redCable = 1 then 0
  else
    match dw with
    | none => 10
    | some 0 => 100
    | some 1 => 3.5
    | some 2 => 5.5 * redCable
    | some 3 => 7.0 * (if redCable ≠ 1 then redCable / 2 else redCable)
    | some _ => 10 * redCable

/-- The per-cell table `calculate_cell_weight` actually implements
(the amended form of the claim's table for gain scoring). -/
def gainCellTable (dw dt : Option Nat) (redCable : ℚ) : ℚ :=
  if dt = some 0 ∧ redCable = 1 then -0.4
  else
    match dw with
    | none => 10
    | some 0 => 100
    | some 1 => 3
    | some 2 => 5 * redCable
    | some 3 => 7 * (if redCable ≠ 1 then redCable / 2 else redCable)
    | some _ => 10

theorem Frac.eqb_one_iff {r : Frac} (hr : r.Pos) :
    r.eqb (Frac.ofInt 1) = true ↔ r.toRat = 1 := by
  rw [Frac.eqb_iff hr (Frac.Pos.ofInt 1), Frac.toRat_ofInt]
  norm_num

theorem Frac.toRat_div_two {r : Frac} (hr : r.Pos) :
    (r.div (Frac.ofInt 2)).toRat = r.toRat / 2 := by
  simp only [Frac.div, Frac.ofInt]
  norm_num
  simp only [Frac.toRat]
  push_cast
  ring

theorem computeWeight_eq_specTable (dw dt : Option Nat) (r : Frac) (hr : r.Pos) :
    (computeWeight dw dt r).toRat = specTableWeight dw dt r.toRat := by
  unfold computeWeight specTableWeight
  by_cases h1 : dt = some 0 ∧ r.toRat = 1
  · rw [if_pos ⟨h1.1, (Frac.eqb_one_iff hr).mpr h1.2⟩, if_pos h1, Frac.toRat_ofInt]
    norm_num
  · have h1' : ¬(dt = some 0 ∧ r.eqb (Frac.ofInt 1) = true) := by
      intro ⟨hdt, he⟩
      exact h1 ⟨hdt, (Frac.eqb_one_iff hr).mp he⟩
    rw [if_neg h1', if_neg h1]
    match dw with
    | none => simp [Frac.toRat_ofInt]
    | some 0 =>
        simp only [Frac.toRat_mul, Frac.toRat_ofInt]
        norm_num
    | some 1 =>
        simp only [Frac.toRat_mul, Frac.toRat_ofInt]
        norm_num [Frac.toRat]
    | some 2 =>
        simp only [Frac.toRat_mul, Frac.toRat_ofInt]
        norm_num [Frac.toRat]
        try ring
    | some 3 =>
        by_cases hone : r.toRat = 1
        · rw [if_pos ((Frac.eqb_one_iff hr).mpr hone)]
          have hif : (if r.toRat ≠ 1 then r.toRat / 2 else r.toRat) = r.toRat := by
            simp [hone]
          rw [hif]
          simp only [Frac.toRat_mul, Frac.toRat_ofInt]
          norm_num [Frac.toRat]
          try ring
        · rw [if_neg (fun he => hone ((Frac.eqb_one_iff hr).mp he))]
          have hif : (if r.toRat ≠ 1 then r.toRat / 2 else r.toRat) = r.toRat / 2 := by
            simp [hone]
          rw [hif]
          simp only [Frac.toRat_mul, Frac.toRat_ofInt, Frac.toRat_div_two hr]
          norm_num [Frac.toRat]
          try ring
    | some (n+4) =>
        simp only [Frac.toRat_mul, Frac.toRat_ofInt]
        norm_num
        try ring

theorem calculateCellWeight_eq_gainTable (x y : Int) (w h : Nat)
    (walls trays : List Cell) (r : Frac) (hr : r.Pos) :
    (calculateCellWeight x y w h walls trays r).toRat =
      gainCellTable (minManhattanTo walls ⟨x, y⟩) (minManhattanTo trays ⟨x, y⟩)
        r.toRat := by
  unfold calculateCellWeight gainCellTable
  by_cases h1 : minManhattanTo trays ⟨x, y⟩ = some 0 ∧ r.toRat = 1
  · rw [if_pos ⟨h1.1, (Frac.eqb_one_iff hr).mpr h1.2⟩, if_pos h1]
    norm_num [Frac.toRat]
  · have h1' : ¬(minManhattanTo trays ⟨x, y⟩ = some 0 ∧
        r.eqb (Frac.ofInt 1) = true) := by
      intro ⟨hdt, he⟩
      exact h1 ⟨hdt, (Frac.eqb_one_iff hr).mp he⟩
    rw [if_neg h1', if_neg h1]
    match hdw : minManhattanTo walls ⟨x, y⟩ with
    | none => simp [Frac.toRat_ofInt]
    | some 0 =>
        simp only [Frac.toRat_mul, Frac.toRat_ofInt]
        norm_num
    | some 1 =>
        simp only [Frac.toRat_mul, Frac.toRat_ofInt]
        norm_num [Frac.toRat]
    | some 2 =>
        simp only [Frac.toRat_mul, Frac.toRat_ofInt]
        norm_num [Frac.toRat]
        try ring
    | some 3 =>
        by_cases hone : r.toRat = 1
        · rw [if_pos ((Frac.eqb_one_iff hr).mpr hone)]
          have hif : (if r.toRat ≠ 1 then r.toRat / 2 else r.toRat) = r.toRat := by
            simp [hone]
          rw [hif]
          simp only [Frac.toRat_mul, Frac.toRat_ofInt]
          norm_num [Frac.toRat]
          try ring
        · rw [if_neg (fun he => hone ((Frac.eqb_one_iff hr).mp he))]
          have hif : (if r.toRat ≠ 1 then r.toRat / 2 else r.toRat) = r.toRat / 2 := by
            simp [hone]
          rw [hif]
          simp only [Frac.toRat_mul, Frac.toRat_ofInt, Frac.toRat_div_two hr]
          norm_num [Frac.toRat]
          try ring
    | some (n+4) =>
        simp only [Frac.toRat_ofInt]
        norm_num

/-! ## Distance transform (`_bfs_distance_map`, §4.1) -/

/-- Working state of the BFS: the distance array (`none` = `math.inf`) and
the FIFO `deque`. -/
structure BfsState where
  dist : Cell → Option Nat
  queue : List Cell

/-- Seeding loop of `_bfs_distance_map`: every in-grid source gets distance
0 and is appended to the queue. -/
def bfsInit (width height : Nat) (sources : List Cell) : BfsState :=
  sources.foldl
    (fun s p =>
      if inGrid width height p then
        { dist := Function.update s.dist p (some 0), queue := s.queue ++ [p] }
      else s)
    ⟨fun _ => none, []⟩

/-- One relaxation of the BFS inner `for` loop: neighbour `n` is updated to
distance `d` iff it is on the grid and its current distance is greater
(`none` counts as `math.inf`). -/
def bfsRelax (width height : Nat) (d : Nat) (s : BfsState) (n : Cell) : BfsState :=
  if inGrid width height n then
    match s.dist n with
    | none => { dist := Function.update s.dist n (some d), queue := s.queue ++ [n] }
    | some dn =>
        if d < dn then
          { dist := Function.update s.dist n (some d), queue := s.queue ++ [n] }
        else s
  else s

/-- The `while q:` loop of `_bfs_distance_map`, with explicit fuel.  Each
iteration pops the queue head and relaxes its four neighbours in source
order. -/
def bfsLoop (width height : Nat) : Nat → BfsState → BfsState
  | 0, s => s
  | fuel + 1, s =>
    match s.queue with
    | [] => s
    | c :: rest =>
      let d := (s.dist c).getD 0 + 1
      bfsLoop width height fuel
        ((neighbors4 c).foldl (bfsRelax width height d) ⟨s.dist, rest⟩)

/-- Fuel that provably suffices for the BFS loop to drain its queue
(see `bfsLoop_drains`). -/
def bfsFuel (width height : Nat) (sources : List Cell) : Nat :=
  width * height * (width * height) + sources.length + 1

/-- Embedding of `_bfs_distance_map(width, height, sources)`: the final
distance array. -/
def bfsDistanceMap (width height : Nat) (sources : List Cell) : Cell → Option Nat :=
  (bfsLoop width height (bfsFuel width height sources)
    (bfsInit width height sources)).dist

/-- Specification-side value: the minimum Manhattan distance from `c` to an
in-grid source, `none` if the seed set contributes no in-grid cell. -/
def minManhattanGrid (width height : Nat) (sources : List Cell) (c : Cell) :
    Option Nat :=
  sources.foldl
    (fun acc p => if inGrid width height p then optMinNat acc (manhattan p c) else acc)
    none

/-! ### Basic facts about `manhattan`, `neighbors4` and `minManhattanGrid` -/

theorem manhattan_self (c : Cell) : manhattan c c = 0 := by
  simp [manhattan]

theorem manhattan_eq_zero {a b : Cell} (h : manhattan a b = 0) : a = b := by
  unfold manhattan at h
  have hx : a.x = b.x := by omega
  have hy : a.y = b.y := by omega
  cases a; cases b; simp_all

theorem manhattan_comm (a b : Cell) : manhattan a b = manhattan b a := by
  unfold manhattan
  omega

theorem manhattan_triangle (a b c : Cell) :
    manhattan a c ≤ manhattan a b + manhattan b c := by
  unfold manhattan
  omega

theorem manhattan_neighbor {c n : Cell} (h : n ∈ neighbors4 c) :
    manhattan c n = 1 := by
  simp only [neighbors4, List.mem_cons, List.not_mem_nil, or_false] at h
  rcases h with h | h | h | h <;> subst h <;> unfold manhattan <;> dsimp only <;>
    omega

theorem neighbors4_ne {c n : Cell} (h : n ∈ neighbors4 c) : n ≠ c := by
  intro he
  have := manhattan_neighbor h
  rw [he, manhattan_self] at this
  omega

theorem neighbors4_symm {c n : Cell} (h : n ∈ neighbors4 c) :
    c ∈ neighbors4 n := by
  simp only [neighbors4, List.mem_cons, List.not_mem_nil, or_false,
    Cell.mk.injEq] at h ⊢
  cases c
  rcases h with h | h | h | h <;> subst h <;> simp <;> omega

theorem minMG_none_iff (width height : Nat) (sources : List Cell) (c : Cell) :
    minManhattanGrid width height sources c = none ↔
      ∀ p ∈ sources, ¬(inGrid width height p = true) := by
  unfold minManhattanGrid
  induction sources with
  | nil => simp
  | cons q qs ih =>
    simp only [List.foldl_cons, List.mem_cons]
    by_cases hq : inGrid width height q = true
    · constructor
      · intro habs
        exfalso
        have : ∀ (acc : Option Nat) (l : List Cell),
            acc.isSome = true →
            (l.foldl (fun acc p =>
              if inGrid width height p then optMinNat acc (manhattan p c) else acc)
              acc).isSome = true := by
          intro acc l
          induction l generalizing acc with
          | nil => simp
          | cons r rs ihr =>
            intro hacc
            simp only [List.foldl_cons]
            apply ihr
            split
            · cases acc <;> simp [optMinNat]
            · exact hacc
        have h2 := this (if inGrid width height q then
            optMinNat none (manhattan q c) else none) qs
          (by simp [hq, optMinNat])
        rw [habs] at h2
        simp at h2
      · intro h
        exact absurd hq (h q (Or.inl rfl)).elim
    · simp only [if_neg hq]
      rw [ih]
      constructor
      · intro h
        rintro p (rfl | hp)
        · exact hq
        · exact h p hp
      · intro h p hp
        exact h p (Or.inr hp)

theorem minMG_fold_le_acc (width height : Nat) (c : Cell) :
    ∀ (l : List Cell) (acc : Option Nat) (a : Nat), acc = some a →
      ∃ r, r ≤ a ∧
        (l.foldl (fun acc p =>
          if inGrid width height p then optMinNat acc (manhattan p c) else acc)
          acc) = some r := by
  intro l
  induction l with
  | nil =>
    intro acc a ha
    exact ⟨a, le_refl a, ha⟩
  | cons q qs ih =>
    intro acc a ha
    simp only [List.foldl_cons]
    by_cases hq : inGrid width height q = true
    · rw [if_pos hq, ha]
      obtain ⟨r, hr, he⟩ := ih (optMinNat (some a) (manhattan q c))
        (Nat.min a (manhattan q c)) rfl
      exact ⟨r, le_trans hr (Nat.min_le_left _ _), he⟩
    · rw [if_neg hq]
      exact ih acc a ha

theorem minMG_fold_le_elem (width height : Nat) (c : Cell) :
    ∀ (l : List Cell) (acc : Option Nat) (p : Cell), p ∈ l →
      inGrid width height p = true →
      ∃ r, r ≤ manhattan p c ∧
        (l.foldl (fun acc p =>
          if inGrid width height p then optMinNat acc (manhattan p c) else acc)
          acc) = some r := by
  intro l
  induction l with
  | nil => intro acc p hp; simp at hp
  | cons q qs ih =>
    intro acc p hp hg
    simp only [List.foldl_cons]
    rcases List.mem_cons.mp hp with rfl | hp'
    · rw [if_pos hg]
      have hacc : optMinNat acc (manhattan p c) =
          some ((optMinNat acc (manhattan p c)).getD 0) ∧
          (optMinNat acc (manhattan p c)).getD 0 ≤ manhattan p c := by
        cases acc <;> simp [optMinNat]
      obtain ⟨r, hr, he⟩ := minMG_fold_le_acc width height c qs _ _ hacc.1
      exact ⟨r, le_trans hr hacc.2, he⟩
    · by_cases hq : inGrid width height q = true
      · rw [if_pos hq]
        exact ih _ p hp' hg
      · rw [if_neg hq]
        exact ih _ p hp' hg

theorem minMG_fold_exists (width height : Nat) (c : Cell) :
    ∀ (l : List Cell) (acc : Option Nat) (v : Nat),
      (l.foldl (fun acc p =>
        if inGrid width height p then optMinNat acc (manhattan p c) else acc)
        acc) = some v →
      acc = some v ∨ ∃ p ∈ l, inGrid width height p = true ∧ manhattan p c = v := by
  intro l
  induction l with
  | nil => intro acc v h; exact Or.inl h
  | cons q qs ih =>
    intro acc v h
    simp only [List.foldl_cons] at h
    by_cases hq : inGrid width height q = true
    · rw [if_pos hq] at h
      rcases ih _ v h with hacc | ⟨p, hp, hpg, hpm⟩
      · cases acc with
        | none =>
          simp [optMinNat] at hacc
          exact Or.inr ⟨q, List.mem_cons_self q qs, hq, hacc⟩
        | some a =>
          simp only [optMinNat, Option.some.injEq] at hacc
          have hacc' : (if a ≤ manhattan q c then a else manhattan q c) = v := by
            rw [← Nat.min_def]
            exact hacc
          by_cases hle : a ≤ manhattan q c
          · left
            rw [if_pos hle] at hacc'
            rw [hacc']
          · right
            rw [if_neg hle] at hacc'
            exact ⟨q, List.mem_cons_self q qs, hq, hacc'⟩
      · exact Or.inr ⟨p, List.mem_cons_of_mem q hp, hpg, hpm⟩
    · rw [if_neg hq] at h
      rcases ih _ v h with hacc | ⟨p, hp, hpg, hpm⟩
      · exact Or.inl hacc
      · exact Or.inr ⟨p, List.mem_cons_of_mem q hp, hpg, hpm⟩

theorem minMG_le_elem {width height : Nat} {sources : List Cell} {c p : Cell}
    (hp : p ∈ sources) (hg : inGrid width height p = true) :
    ∃ r, r ≤ manhattan p c ∧ minManhattanGrid width height sources c = some r :=
  minMG_fold_le_elem width height c sources none p hp hg

theorem minMG_exists {width height : Nat} {sources : List Cell} {c : Cell}
    {v : Nat} (h : minManhattanGrid width height sources c = some v) :
    ∃ p ∈ sources, inGrid width height p = true ∧ manhattan p c = v := by
  rcases minMG_fold_exists width height c sources none v h with hacc | h'
  · cases hacc
  · exact h'

theorem minMG_neighbor {width height : Nat} {sources : List Cell} {c n : Cell}
    {m : Nat} (h : minManhattanGrid width height sources c = some m)
    (hn : n ∈ neighbors4 c) :
    ∃ m' ≤ m + 1, minManhattanGrid width height sources n = some m' := by
  obtain ⟨p, hp, hpg, hpm⟩ := minMG_exists h
  obtain ⟨r, hr, he⟩ := minMG_le_elem (c := n) hp hpg
  refine ⟨r, ?_, he⟩
  calc r ≤ manhattan p n := hr
    _ ≤ manhattan p c + manhattan c n := manhattan_triangle p c n
    _ = m + 1 := by rw [hpm, manhattan_neighbor hn]

/-! ### BFS correctness: invariants -/

/-- The finite set of grid cells. -/
def gridFinset (width height : Nat) : Finset Cell :=
  ((Finset.range width) ×ˢ (Finset.range height)).image
    (fun p => ⟨(p.1 : Int), (p.2 : Int)⟩)

theorem mem_gridFinset {width height : Nat} {c : Cell} :
    c ∈ gridFinset width height ↔ inGrid width height c = true := by
  obtain ⟨cx, cy⟩ := c
  unfold gridFinset inGrid
  simp only [Finset.mem_image, Finset.mem_product, Finset.mem_range,
    Bool.and_eq_true, decide_eq_true_eq, Cell.mk.injEq]
  constructor
  · rintro ⟨⟨a, b⟩, ⟨ha, hb⟩, he1, he2⟩
    refine ⟨⟨?_, ?_⟩, ?_, ?_⟩ <;> omega
  · rintro ⟨⟨hx0, hxw⟩, hy0, hyh⟩
    exact ⟨⟨cx.toNat, cy.toNat⟩, ⟨by omega, by omega⟩, by omega, by omega⟩

theorem card_gridFinset_le (width height : Nat) :
    (gridFinset width height).card ≤ width * height := by
  unfold gridFinset
  calc (((Finset.range width) ×ˢ (Finset.range height)).image
        (fun p : Nat × Nat => (⟨(p.1 : Int), (p.2 : Int)⟩ : Cell))).card
      ≤ ((Finset.range width) ×ˢ (Finset.range height)).card :=
        Finset.card_image_le
    _ = width * height := by
        rw [Finset.card_product, Finset.card_range, Finset.card_range]

/-- Count of grid cells whose BFS distance is already finite. -/
def bfsK (width height : Nat) (s : BfsState) : Nat :=
  ((gridFinset width height).filter (fun c => (s.dist c).isSome)).card

/-- Termination potential for the BFS loop. -/
def bfsPhiF (width height : Nat) : Option Nat → Nat
  | none => width * height
  | some v => v

def bfsPhi (width height : Nat) (s : BfsState) : Nat :=
  (gridFinset width height).sum (fun c => bfsPhiF width height (s.dist c)) +
    s.queue.length

/-- Finite distances live on the grid. -/
def bfsGridI (width height : Nat) (s : BfsState) : Prop :=
  ∀ c v, s.dist c = some v → inGrid width height c = true

/-- Finite distances are bounded below by the true minimum Manhattan
distance. -/
def bfsLowerI (width height : Nat) (sources : List Cell) (s : BfsState) : Prop :=
  ∀ c v, s.dist c = some v →
    ∃ m, minManhattanGrid width height sources c = some m ∧ m ≤ v

/-- Every finite distance is below the number of finite cells. -/
def bfsCardI (width height : Nat) (s : BfsState) : Prop :=
  ∀ c v, s.dist c = some v → v < bfsK width height s

/-- Queue entries have a finite distance. -/
def bfsQueueI (s : BfsState) : Prop :=
  ∀ c ∈ s.queue, (s.dist c).isSome = true

/-- In-grid seeds stay at distance 0. -/
def bfsSeedsI (width height : Nat) (sources : List Cell) (s : BfsState) : Prop :=
  ∀ p ∈ sources, inGrid width height p = true → s.dist p = some 0

/-- Cells not on the queue have settled neighbourhoods: every in-grid
neighbour is at most one further. -/
def bfsStableI (width height : Nat) (s : BfsState) : Prop :=
  ∀ c v, s.dist c = some v → c ∉ s.queue →
    ∀ n ∈ neighbors4 c, inGrid width height n = true →
      ∃ vn, s.dist n = some vn ∧ vn ≤ v + 1

/-- All BFS loop invariants. -/
def BfsInv (width height : Nat) (sources : List Cell) (s : BfsState) : Prop :=
  bfsGridI width height s ∧ bfsLowerI width height sources s ∧
    bfsCardI width height s ∧ bfsQueueI s ∧
    bfsSeedsI width height sources s ∧ bfsStableI width height s

/-- Case analysis for a single relaxation. -/
theorem bfsRelax_spec (width height d : Nat) (t : BfsState) (n : Cell) :
    (¬ inGrid width height n = true ∧ bfsRelax width height d t n = t) ∨
    (inGrid width height n = true ∧ (∃ dn, t.dist n = some dn ∧ ¬ d < dn) ∧
      bfsRelax width height d t n = t) ∨
    (inGrid width height n = true ∧
      (t.dist n = none ∨ ∃ dn, t.dist n = some dn ∧ d < dn) ∧
      bfsRelax width height d t n =
        ⟨Function.update t.dist n (some d), t.queue ++ [n]⟩) := by
  unfold bfsRelax
  by_cases hg : inGrid width height n = true
  · rw [if_pos hg]
    cases hdn : t.dist n with
    | none => exact Or.inr (Or.inr ⟨hg, Or.inl rfl, rfl⟩)
    | some dn =>
      by_cases hlt : d < dn
      · refine Or.inr (Or.inr ⟨hg, Or.inr ⟨dn, rfl, hlt⟩, ?_⟩)
        dsimp only
        rw [if_pos hlt]
      · refine Or.inr (Or.inl ⟨hg, ⟨dn, rfl, hlt⟩, ?_⟩)
        dsimp only
        rw [if_neg hlt]
  · rw [if_neg hg]
    exact Or.inl ⟨hg, rfl⟩

theorem bfsRelax_dist_other {width height d : Nat} {t : BfsState} {n a : Cell}
    (ha : a ≠ n) : (bfsRelax width height d t n).dist a = t.dist a := by
  rcases bfsRelax_spec width height d t n with ⟨_, he⟩ | ⟨_, _, he⟩ | ⟨_, _, he⟩ <;>
    rw [he]
  exact Function.update_noteq ha _ _

theorem bfsRelax_dist_le {width height d : Nat} {t : BfsState} {n a : Cell}
    {v : Nat} (ha : t.dist a = some v) :
    ∃ u, (bfsRelax width height d t n).dist a = some u ∧ u ≤ v := by
  rcases bfsRelax_spec width height d t n with ⟨_, he⟩ | ⟨_, _, he⟩ |
    ⟨_, hcond, he⟩
  · exact ⟨v, by rw [he]; exact ha, le_refl v⟩
  · exact ⟨v, by rw [he]; exact ha, le_refl v⟩
  · by_cases han : a = n
    · subst han
      rcases hcond with hnone | ⟨dn, hdn, hlt⟩
      · rw [hnone] at ha; cases ha
      · rw [hdn] at ha
        injection ha with hv
        subst hv
        exact ⟨d, by rw [he]; exact Function.update_same _ _ _, le_of_lt hlt⟩
    · exact ⟨v, by rw [he]; exact (Function.update_noteq han _ _).trans ha,
        le_refl v⟩

theorem bfsRelax_queue_sub {width height d : Nat} {t : BfsState} {n q : Cell}
    (hq : q ∈ t.queue) : q ∈ (bfsRelax width height d t n).queue := by
  rcases bfsRelax_spec width height d t n with ⟨_, he⟩ | ⟨_, _, he⟩ | ⟨_, _, he⟩ <;>
    rw [he]
  · exact hq
  · exact hq
  · exact List.mem_append_left _ hq

theorem bfsRelax_after {width height d : Nat} {t : BfsState} {n : Cell}
    (hg : inGrid width height n = true) :
    ∃ vn, (bfsRelax width height d t n).dist n = some vn ∧ vn ≤ d := by
  rcases bfsRelax_spec width height d t n with ⟨hng, _⟩ | ⟨_, ⟨dn, hdn, hnlt⟩, he⟩ |
    ⟨_, _, he⟩
  · exact absurd hg hng
  · exact ⟨dn, by rw [he]; exact hdn, le_of_not_lt hnlt⟩
  · exact ⟨d, by rw [he]; exact Function.update_same _ _ _, le_refl d⟩

theorem bfsRelax_enq_or_same {width height d : Nat} {t : BfsState} {n a : Cell} :
    (bfsRelax width height d t n).dist a = t.dist a ∨
      a ∈ (bfsRelax width height d t n).queue := by
  rcases bfsRelax_spec width height d t n with ⟨_, he⟩ | ⟨_, _, he⟩ | ⟨_, _, he⟩
  · rw [he]; exact Or.inl rfl
  · rw [he]; exact Or.inl rfl
  · by_cases han : a = n
    · subst han
      rw [he]
      exact Or.inr (List.mem_append_right _ (List.mem_singleton_self a))
    · rw [he]
      exact Or.inl (Function.update_noteq han _ _)

theorem bfsRelax_grid {width height d : Nat} {t : BfsState} {n : Cell}
    (h : bfsGridI width height t) :
    bfsGridI width height (bfsRelax width height d t n) := by
  intro c v hcv
  rcases bfsRelax_spec width height d t n with ⟨_, he⟩ | ⟨_, _, he⟩ |
    ⟨hg, _, he⟩
  · rw [he] at hcv; exact h c v hcv
  · rw [he] at hcv; exact h c v hcv
  · by_cases hcn : c = n
    · subst hcn; exact hg
    · rw [he] at hcv
      exact h c v ((Function.update_noteq hcn _ _).symm.trans hcv)

theorem bfsRelax_lower {width height d : Nat} {sources : List Cell}
    {t : BfsState} {n : Cell} (h : bfsLowerI width height sources t)
    (hn : inGrid width height n = true →
      ∃ m, minManhattanGrid width height sources n = some m ∧ m ≤ d) :
    bfsLowerI width height sources (bfsRelax width height d t n) := by
  intro c v hcv
  rcases bfsRelax_spec width height d t n with ⟨_, he⟩ | ⟨_, _, he⟩ |
    ⟨hg, _, he⟩
  · rw [he] at hcv; exact h c v hcv
  · rw [he] at hcv; exact h c v hcv
  · by_cases hcn : c = n
    · subst hcn
      rw [he] at hcv
      have hcv' : Function.update t.dist c (some d) c = some v := hcv
      rw [Function.update_same] at hcv'
      injection hcv' with hv
      obtain ⟨m, hm, hmd⟩ := hn hg
      exact ⟨m, hm, hv ▸ hmd⟩
    · rw [he] at hcv
      exact h c v ((Function.update_noteq hcn _ _).symm.trans hcv)

theorem bfsRelax_inQueue {width height d : Nat} {t : BfsState} {n : Cell}
    (h : bfsQueueI t) : bfsQueueI (bfsRelax width height d t n) := by
  intro q hq
  rcases bfsRelax_spec width height d t n with ⟨_, he⟩ | ⟨_, _, he⟩ |
    ⟨_, _, he⟩
  · rw [he] at hq ⊢; exact h q hq
  · rw [he] at hq ⊢; exact h q hq
  · rw [he] at hq ⊢
    by_cases hqn : q = n
    · subst hqn
      show (Function.update t.dist q (some d) q).isSome = true
      rw [Function.update_same]
      rfl
    · show (Function.update t.dist n (some d) q).isSome = true
      rw [Function.update_noteq hqn]
      have hq2 : q ∈ t.queue ++ [n] := hq
      rcases List.mem_append.mp hq2 with hq' | hq'
      · exact h q hq'
      · simp at hq'
        exact absurd hq' hqn

theorem bfsRelax_seeds {width height d : Nat} {sources : List Cell}
    {t : BfsState} {n : Cell} (hd : 1 ≤ d)
    (h : bfsSeedsI width height sources t) :
    bfsSeedsI width height sources (bfsRelax width height d t n) := by
  intro p hp hpg
  have hp0 := h p hp hpg
  rcases bfsRelax_spec width height d t n with ⟨_, he⟩ | ⟨_, _, he⟩ |
    ⟨_, hcond, he⟩
  · rw [he]; exact hp0
  · rw [he]; exact hp0
  · by_cases hpn : p = n
    · subst hpn
      rcases hcond with hnone | ⟨dn, hdn, hlt⟩
      · rw [hnone] at hp0; cases hp0
      · rw [hdn] at hp0
        injection hp0 with hv
        subst hv
        omega
    · rw [he]
      exact (Function.update_noteq hpn _ _).trans hp0

theorem bfsRelax_K_mono {width height d : Nat} {t : BfsState} {n : Cell} :
    bfsK width height t ≤ bfsK width height (bfsRelax width height d t n) := by
  unfold bfsK
  apply Finset.card_le_card
  intro a ha
  rw [Finset.mem_filter] at ha ⊢
  refine ⟨ha.1, ?_⟩
  obtain ⟨v, hv⟩ := Option.isSome_iff_exists.mp ha.2
  obtain ⟨u, hu, _⟩ := @bfsRelax_dist_le width height d t n a v hv
  rw [hu]
  rfl

theorem bfsRelax_card {width height d : Nat} {t : BfsState} {n : Cell}
    (h : bfsCardI width height t) (hdK : d ≤ bfsK width height t) :
    bfsCardI width height (bfsRelax width height d t n) := by
  rcases bfsRelax_spec width height d t n with ⟨_, he⟩ | ⟨_, _, he⟩ |
    ⟨hg, hcond, he⟩
  · rw [he]; exact h
  · rw [he]; exact h
  · have hda : ∀ a, (bfsRelax width height d t n).dist a =
        Function.update t.dist n (some d) a := fun a => by rw [he]
    have hnG : n ∈ gridFinset width height := mem_gridFinset.mpr hg
    rcases hcond with hnone | ⟨dn, hdn, hlt⟩
    · have hfil : (gridFinset width height).filter
          (fun c => ((bfsRelax width height d t n).dist c).isSome) =
          insert n ((gridFinset width height).filter
            (fun c => (t.dist c).isSome)) := by
        ext a
        simp only [Finset.mem_filter, Finset.mem_insert]
        rw [hda a]
        by_cases han : a = n
        · subst han
          rw [Function.update_same]
          simp [hnG]
        · rw [Function.update_noteq han]
          constructor
          · rintro ⟨h1, h2⟩; exact Or.inr ⟨h1, h2⟩
          · rintro (rfl | ⟨h1, h2⟩)
            · exact absurd rfl han
            · exact ⟨h1, h2⟩
      have hKeq : bfsK width height (bfsRelax width height d t n) =
          bfsK width height t + 1 := by
        unfold bfsK
        rw [hfil, Finset.card_insert_of_not_mem]
        intro hmem
        rw [Finset.mem_filter, hnone] at hmem
        simp at hmem
      intro c v hcv
      rw [hKeq]
      rw [hda c] at hcv
      by_cases hcn : c = n
      · subst hcn
        rw [Function.update_same] at hcv
        injection hcv with hv
        omega
      · rw [Function.update_noteq hcn] at hcv
        have := h c v hcv
        omega
    · have hfil : (gridFinset width height).filter
          (fun c => ((bfsRelax width height d t n).dist c).isSome) =
          (gridFinset width height).filter (fun c => (t.dist c).isSome) := by
        ext a
        simp only [Finset.mem_filter]
        rw [hda a]
        by_cases han : a = n
        · subst han
          rw [Function.update_same, hdn]
          simp
        · rw [Function.update_noteq han]
      have hKeq : bfsK width height (bfsRelax width height d t n) =
          bfsK width height t := by
        unfold bfsK; rw [hfil]
      intro c v hcv
      rw [hKeq]
      rw [hda c] at hcv
      by_cases hcn : c = n
      · subst hcn
        rw [Function.update_same] at hcv
        injection hcv with hv
        have := h c dn hdn
        omega
      · rw [Function.update_noteq hcn] at hcv
        exact h c v hcv

theorem bfsRelax_phi {width height d : Nat} {t : BfsState} {n : Cell}
    (h : bfsCardI width height t) (hdK : d ≤ bfsK width height t) :
    bfsPhi width height (bfsRelax width height d t n) ≤ bfsPhi width height t := by
  rcases bfsRelax_spec width height d t n with ⟨_, he⟩ | ⟨_, _, he⟩ |
    ⟨hg, hcond, he⟩
  · rw [he]
  · rw [he]
  · have hda : ∀ a, (bfsRelax width height d t n).dist a =
        Function.update t.dist n (some d) a := fun a => by rw [he]
    have hqe : (bfsRelax width height d t n).queue = t.queue ++ [n] := by rw [he]
    have hnG : n ∈ gridFinset width height := mem_gridFinset.mpr hg
    have hsum1 : (gridFinset width height).sum
        (fun c => bfsPhiF width height ((bfsRelax width height d t n).dist c)) =
        bfsPhiF width height (some d) +
          (gridFinset width height).sum
            (fun c => if c = n then 0 else bfsPhiF width height (t.dist c)) := by
      rw [← Finset.sum_filter_add_sum_filter_not (gridFinset width height)
        (fun c => c = n)]
      rw [← Finset.sum_filter_add_sum_filter_not (gridFinset width height)
        (fun c => c = n)
        (fun c => if c = n then 0 else bfsPhiF width height (t.dist c))]
      have hflt : (gridFinset width height).filter (fun c => c = n) = {n} := by
        ext a
        simp only [Finset.mem_filter, Finset.mem_singleton]
        constructor
        · rintro ⟨_, rfl⟩; rfl
        · rintro rfl; exact ⟨hnG, rfl⟩
      rw [hflt]
      rw [Finset.sum_singleton, Finset.sum_singleton]
      rw [hda n, Function.update_same, if_pos rfl]
      have hrest : ∀ f : Cell → Nat,
          ((gridFinset width height).filter (fun c => ¬ c = n)).sum f =
          ((gridFinset width height).filter (fun c => ¬ c = n)).sum f := fun _ => rfl
      have hcong : ((gridFinset width height).filter (fun c => ¬ c = n)).sum
          (fun c => bfsPhiF width height ((bfsRelax width height d t n).dist c)) =
          ((gridFinset width height).filter (fun c => ¬ c = n)).sum
            (fun c => if c = n then 0 else bfsPhiF width height (t.dist c)) := by
        apply Finset.sum_congr rfl
        intro a ha
        rw [Finset.mem_filter] at ha
        rw [hda a, Function.update_noteq ha.2, if_neg ha.2]
      omega
    have hsum2 : (gridFinset width height).sum
        (fun c => bfsPhiF width height (t.dist c)) =
        bfsPhiF width height (t.dist n) +
          (gridFinset width height).sum
            (fun c => if c = n then 0 else bfsPhiF width height (t.dist c)) := by
      rw [← Finset.sum_filter_add_sum_filter_not (gridFinset width height)
        (fun c => c = n)]
      rw [← Finset.sum_filter_add_sum_filter_not (gridFinset width height)
        (fun c => c = n)
        (fun c => if c = n then 0 else bfsPhiF width height (t.dist c))]
      have hflt : (gridFinset width height).filter (fun c => c = n) = {n} := by
        ext a
        simp only [Finset.mem_filter, Finset.mem_singleton]
        constructor
        · rintro ⟨_, rfl⟩; rfl
        · rintro rfl; exact ⟨hnG, rfl⟩
      rw [hflt, Finset.sum_singleton, Finset.sum_singleton, if_pos rfl]
      have hcong : ((gridFinset width height).filter (fun c => ¬ c = n)).sum
          (fun c => bfsPhiF width height (t.dist c)) =
          ((gridFinset width height).filter (fun c => ¬ c = n)).sum
            (fun c => if c = n then 0 else bfsPhiF width height (t.dist c)) := by
        apply Finset.sum_congr rfl
        intro a ha
        rw [Finset.mem_filter] at ha
        rw [if_neg ha.2]
      omega
    have hlen : (bfsRelax width height d t n).queue.length =
        t.queue.length + 1 := by
      rw [hqe, List.length_append, List.length_singleton]
    unfold bfsPhi
    rw [hsum1, hsum2, hlen]
    rcases hcond with hnone | ⟨dn, hdn, hlt⟩
    · rw [hnone]
      have hsub : (gridFinset width height).filter
          (fun c => (t.dist c).isSome) ⊆ (gridFinset width height).erase n := by
        intro a ha
        rw [Finset.mem_filter] at ha
        rw [Finset.mem_erase]
        refine ⟨?_, ha.1⟩
        intro hrfl
        rw [hrfl, hnone] at ha
        simp at ha
      have hK1 : bfsK width height t ≤ ((gridFinset width height).erase n).card :=
        Finset.card_le_card hsub
      have hK2 : ((gridFinset width height).erase n).card =
          (gridFinset width height).card - 1 := Finset.card_erase_of_mem hnG
      have hG : (gridFinset width height).card ≤ width * height :=
        card_gridFinset_le width height
      have hGpos : 1 ≤ (gridFinset width height).card :=
        Finset.card_pos.mpr ⟨n, hnG⟩
      show bfsPhiF width height (some d) + _ + _ ≤ bfsPhiF width height none + _ + _
      have hφd : bfsPhiF width height (some d) = d := rfl
      have hφn : bfsPhiF width height none = width * height := rfl
      rw [hφd, hφn]
      omega
    · rw [hdn]
      have hφd : bfsPhiF width height (some d) = d := rfl
      have hφn : bfsPhiF width height (some dn) = dn := rfl
      rw [hφd, hφn]
      omega

theorem bfsRelaxFold_inv (width height : Nat) (sources : List Cell) (d : Nat) :
    ∀ (ns : List Cell) (t : BfsState),
      bfsGridI width height t →
      bfsLowerI width height sources t →
      bfsCardI width height t →
      bfsQueueI t →
      bfsSeedsI width height sources t →
      1 ≤ d →
      d ≤ bfsK width height t →
      (∀ n ∈ ns, inGrid width height n = true →
        ∃ m, minManhattanGrid width height sources n = some m ∧ m ≤ d) →
      bfsGridI width height (ns.foldl (bfsRelax width height d) t) ∧
      bfsLowerI width height sources (ns.foldl (bfsRelax width height d) t) ∧
      bfsCardI width height (ns.foldl (bfsRelax width height d) t) ∧
      bfsQueueI (ns.foldl (bfsRelax width height d) t) ∧
      bfsSeedsI width height sources (ns.foldl (bfsRelax width height d) t) ∧
      bfsPhi width height (ns.foldl (bfsRelax width height d) t) ≤
        bfsPhi width height t ∧
      (∀ q ∈ t.queue, q ∈ (ns.foldl (bfsRelax width height d) t).queue) ∧
      (∀ a, (ns.foldl (bfsRelax width height d) t).dist a = t.dist a ∨
        a ∈ (ns.foldl (bfsRelax width height d) t).queue) ∧
      (∀ a v, t.dist a = some v →
        ∃ u, (ns.foldl (bfsRelax width height d) t).dist a = some u ∧ u ≤ v) ∧
      (∀ n ∈ ns, inGrid width height n = true →
        ∃ vn, (ns.foldl (bfsRelax width height d) t).dist n = some vn ∧
          vn ≤ d) := by
  intro ns
  induction ns with
  | nil =>
    intro t hg hl hc hq hs hd hdK hns
    refine ⟨hg, hl, hc, hq, hs, le_refl _, ?_, ?_, ?_, ?_⟩
    · intro q hq'
      exact hq'
    · intro a
      exact Or.inl rfl
    · intro a v hv
      exact ⟨v, hv, le_refl v⟩
    · intro n hn
      exact absurd hn (List.not_mem_nil n)
  | cons n ns ih =>
    intro t hg hl hc hq hs hd hdK hns
    simp only [List.foldl_cons]
    have hg1 := bfsRelax_grid (d := d) (n := n) hg
    have hl1 := bfsRelax_lower (d := d) (n := n) hl
      (hns n (List.mem_cons_self n ns))
    have hc1 := bfsRelax_card (n := n) hc hdK
    have hq1 := @bfsRelax_inQueue width height d t n hq
    have hs1 := bfsRelax_seeds (n := n) hd hs
    have hdK1 : d ≤ bfsK width height (bfsRelax width height d t n) :=
      le_trans hdK bfsRelax_K_mono
    have hns1 : ∀ m ∈ ns, inGrid width height m = true →
        ∃ mm, minManhattanGrid width height sources m = some mm ∧ mm ≤ d :=
      fun m hm => hns m (List.mem_cons_of_mem n hm)
    obtain ⟨rg, rl, rc, rq, rs, rphi, rqsub, rsame, rle, rafter⟩ :=
      ih (bfsRelax width height d t n) hg1 hl1 hc1 hq1 hs1 hd hdK1 hns1
    refine ⟨rg, rl, rc, rq, rs, ?_, ?_, ?_, ?_, ?_⟩
    · exact le_trans rphi (bfsRelax_phi hc hdK)
    · intro q hq'
      exact rqsub q (bfsRelax_queue_sub hq')
    · intro a
      rcases rsame a with hsame | hmem
      · rcases @bfsRelax_enq_or_same width height d t n a with hsame2 | hmem2
        · exact Or.inl (hsame.trans hsame2)
        · exact Or.inr (rqsub a hmem2)
      · exact Or.inr hmem
    · intro a v hv
      obtain ⟨u1, hu1, hu1le⟩ := @bfsRelax_dist_le width height d t n a v hv
      obtain ⟨u2, hu2, hu2le⟩ := rle a u1 hu1
      exact ⟨u2, hu2, le_trans hu2le hu1le⟩
    · intro m hm hgm
      rcases List.mem_cons.mp hm with rfl | hm'
      · obtain ⟨vn, hvn, hvnle⟩ := bfsRelax_after (t := t) (d := d) hgm
        obtain ⟨u, hu, hule⟩ := rle m vn hvn
        exact ⟨u, hu, le_trans hule hvnle⟩
      · exact rafter m hm' hgm

theorem bfsStep_inv (width height : Nat) (sources : List Cell) (s : BfsState)
    (c : Cell) (rest : List Cell) (hq : s.queue = c :: rest)
    (hinv : BfsInv width height sources s) :
    BfsInv width height sources
      ((neighbors4 c).foldl (bfsRelax width height ((s.dist c).getD 0 + 1))
        ⟨s.dist, rest⟩) ∧
    bfsPhi width height
      ((neighbors4 c).foldl (bfsRelax width height ((s.dist c).getD 0 + 1))
        ⟨s.dist, rest⟩) < bfsPhi width height s := by
  obtain ⟨hg, hl, hc, hqi, hs, hst⟩ := hinv
  have hcq : c ∈ s.queue := by rw [hq]; exact List.mem_cons_self c rest
  obtain ⟨vc, hvc⟩ := Option.isSome_iff_exists.mp (hqi c hcq)
  have hdvc : (s.dist c).getD 0 + 1 = vc + 1 := by rw [hvc]; rfl
  have hg0 : bfsGridI width height ⟨s.dist, rest⟩ := hg
  have hl0 : bfsLowerI width height sources ⟨s.dist, rest⟩ := hl
  have hc0 : bfsCardI width height ⟨s.dist, rest⟩ := hc
  have hq0 : bfsQueueI ⟨s.dist, rest⟩ := by
    intro q hq'
    exact hqi q (by rw [hq]; exact List.mem_cons_of_mem c hq')
  have hs0 : bfsSeedsI width height sources ⟨s.dist, rest⟩ := hs
  have hd1 : 1 ≤ (s.dist c).getD 0 + 1 := Nat.le_add_left 1 _
  have hdK : (s.dist c).getD 0 + 1 ≤ bfsK width height ⟨s.dist, rest⟩ := by
    rw [hdvc]
    exact hc c vc hvc
  have hns : ∀ n ∈ neighbors4 c, inGrid width height n = true →
      ∃ m, minManhattanGrid width height sources n = some m ∧
        m ≤ (s.dist c).getD 0 + 1 := by
    intro n hn hgn
    obtain ⟨mc, hmc, hmcle⟩ := hl c vc hvc
    obtain ⟨m', hm'le, hm'⟩ := minMG_neighbor hmc hn
    exact ⟨m', hm', by omega⟩
  obtain ⟨rg, rl, rc, rq, rs, rphi, rqsub, rsame, rle, rafter⟩ :=
    bfsRelaxFold_inv width height sources ((s.dist c).getD 0 + 1)
      (neighbors4 c) ⟨s.dist, rest⟩ hg0 hl0 hc0 hq0 hs0 hd1 hdK hns
  constructor
  · refine ⟨rg, rl, rc, rq, rs, ?_⟩
    intro a va hva hnotq n hn hgn
    by_cases hac : a = c
    · subst hac
      have heq : ((neighbors4 a).foldl
          (bfsRelax width height ((s.dist a).getD 0 + 1))
          ⟨s.dist, rest⟩).dist a = some vc := by
        rcases rsame a with hsame | hmem
        · rw [hsame]; exact hvc
        · exact absurd hmem hnotq
      rw [hva] at heq
      injection heq with hveq
      obtain ⟨vn, hvn, hvnle⟩ := rafter n hn hgn
      exact ⟨vn, hvn, by omega⟩
    · have hsame : ((neighbors4 c).foldl
          (bfsRelax width height ((s.dist c).getD 0 + 1))
          ⟨s.dist, rest⟩).dist a = s.dist a := by
        rcases rsame a with hsame | hmem
        · exact hsame
        · exact absurd hmem hnotq
      have hsa : s.dist a = some va := by rw [← hsame]; exact hva
      have hnotq_s : a ∉ s.queue := by
        rw [hq]
        intro hmem
        rcases List.mem_cons.mp hmem with rfl | hmem'
        · exact hac rfl
        · exact hnotq (rqsub a hmem')
      obtain ⟨vn, hvn, hvnle⟩ := hst a va hsa hnotq_s n hn hgn
      obtain ⟨u, hu, hule⟩ := rle n vn hvn
      exact ⟨u, hu, le_trans hule hvnle⟩
  · have hphi0 : bfsPhi width height (⟨s.dist, rest⟩ : BfsState) + 1 =
        bfsPhi width height s := by
      unfold bfsPhi
      have hlen : s.queue.length = rest.length + 1 := by rw [hq]; rfl
      have hsum : (gridFinset width height).sum
          (fun c => bfsPhiF width height ((⟨s.dist, rest⟩ : BfsState).dist c)) =
          (gridFinset width height).sum
            (fun c => bfsPhiF width height (s.dist c)) := rfl
      have hlen2 : ((⟨s.dist, rest⟩ : BfsState)).queue.length = rest.length := rfl
      rw [hsum, hlen2, hlen]
      omega
    omega

theorem bfsLoop_drains (width height : Nat) (sources : List Cell) :
    ∀ (fuel : Nat) (s : BfsState), BfsInv width height sources s →
      bfsPhi width height s ≤ fuel →
      (bfsLoop width height fuel s).queue = [] ∧
        BfsInv width height sources (bfsLoop width height fuel s) := by
  intro fuel
  induction fuel with
  | zero =>
    intro s hinv hphi
    have hq : s.queue = [] := by
      have hlen : s.queue.length = 0 := by unfold bfsPhi at hphi; omega
      exact List.length_eq_zero.mp hlen
    exact ⟨hq, hinv⟩
  | succ f ih =>
    intro s hinv hphi
    cases hq : s.queue with
    | nil =>
      have heq : bfsLoop width height (f + 1) s = s := by
        simp only [bfsLoop]
        rw [hq]
      rw [heq]
      exact ⟨hq, hinv⟩
    | cons c rest =>
      have hstep := bfsStep_inv width height sources s c rest hq hinv
      have heq : bfsLoop width height (f + 1) s =
          bfsLoop width height f ((neighbors4 c).foldl
            (bfsRelax width height ((s.dist c).getD 0 + 1)) ⟨s.dist, rest⟩) := by
        simp only [bfsLoop]
        rw [hq]
      rw [heq]
      exact ih _ hstep.1 (by have := hstep.2; omega)

theorem bfsInitFold_queue_mono (width height : Nat) :
    ∀ (l : List Cell) (t : BfsState) (q : Cell), q ∈ t.queue →
      q ∈ (l.foldl (fun s p =>
        if inGrid width height p then
          { dist := Function.update s.dist p (some 0), queue := s.queue ++ [p] }
        else s) t).queue := by
  intro l
  induction l with
  | nil => intro t q hq; exact hq
  | cons p ps ih =>
    intro t q hq
    simp only [List.foldl_cons]
    apply ih
    by_cases hg : inGrid width height p = true
    · rw [if_pos hg]
      exact List.mem_append_left _ hq
    · rw [if_neg hg]
      exact hq

theorem bfsInitFold_zero_persists (width height : Nat) :
    ∀ (l : List Cell) (t : BfsState) (a : Cell), t.dist a = some 0 →
      (l.foldl (fun s p =>
        if inGrid width height p then
          { dist := Function.update s.dist p (some 0), queue := s.queue ++ [p] }
        else s) t).dist a = some 0 := by
  intro l
  induction l with
  | nil => intro t a ha; exact ha
  | cons p ps ih =>
    intro t a ha
    simp only [List.foldl_cons]
    apply ih
    by_cases hg : inGrid width height p = true
    · rw [if_pos hg]
      by_cases hap : a = p
      · subst hap
        exact Function.update_same _ _ _
      · exact (Function.update_noteq hap _ _).trans ha
    · rw [if_neg hg]
      exact ha

theorem bfsInitFold_seeds (width height : Nat) :
    ∀ (l : List Cell) (t : BfsState) (p : Cell), p ∈ l →
      inGrid width height p = true →
      (l.foldl (fun s p =>
        if inGrid width height p then
          { dist := Function.update s.dist p (some 0), queue := s.queue ++ [p] }
        else s) t).dist p = some 0 := by
  intro l
  induction l with
  | nil => intro t p hp; exact absurd hp (List.not_mem_nil p)
  | cons q qs ih =>
    intro t p hp hpg
    simp only [List.foldl_cons]
    rcases List.mem_cons.mp hp with rfl | hp'
    · apply bfsInitFold_zero_persists
      rw [if_pos hpg]
      exact Function.update_same _ _ _
    · exact ih _ p hp' hpg

theorem bfsInitFold_shape (width height : Nat) (L : List Cell) :
    ∀ (l : List Cell) (t : BfsState),
      l ⊆ L →
      (∀ a v, t.dist a = some v → v = 0 ∧ inGrid width height a = true ∧ a ∈ L) →
      (∀ a, (t.dist a).isSome = true → a ∈ t.queue) →
      (∀ q ∈ t.queue, t.dist q = some 0) →
      (∀ a v, (l.foldl (fun s p =>
          if inGrid width height p then
            { dist := Function.update s.dist p (some 0), queue := s.queue ++ [p] }
          else s) t).dist a = some v →
        v = 0 ∧ inGrid width height a = true ∧ a ∈ L) ∧
      (∀ a, ((l.foldl (fun s p =>
          if inGrid width height p then
            { dist := Function.update s.dist p (some 0), queue := s.queue ++ [p] }
          else s) t).dist a).isSome = true →
        a ∈ (l.foldl (fun s p =>
          if inGrid width height p then
            { dist := Function.update s.dist p (some 0), queue := s.queue ++ [p] }
          else s) t).queue) ∧
      (∀ q ∈ (l.foldl (fun s p =>
          if inGrid width height p then
            { dist := Function.update s.dist p (some 0), queue := s.queue ++ [p] }
          else s) t).queue,
        (l.foldl (fun s p =>
          if inGrid width height p then
            { dist := Function.update s.dist p (some 0), queue := s.queue ++ [p] }
          else s) t).dist q = some 0) ∧
      (l.foldl (fun s p =>
          if inGrid width height p then
            { dist := Function.update s.dist p (some 0), queue := s.queue ++ [p] }
          else s) t).queue.length ≤ t.queue.length + l.length := by
  intro l
  induction l with
  | nil =>
    intro t _ h1 h2 h3
    exact ⟨h1, h2, h3, Nat.le_add_right _ _⟩
  | cons p ps ih =>
    intro t hsub h1 h2 h3
    simp only [List.foldl_cons]
    by_cases hg : inGrid width height p = true
    · rw [if_pos hg]
      have hp_in_L : p ∈ L := hsub (List.mem_cons_self p ps)
      have h1' : ∀ a v, (Function.update t.dist p (some 0)) a = some v →
          v = 0 ∧ inGrid width height a = true ∧ a ∈ L := by
        intro a v ha
        by_cases hap : a = p
        · subst hap
          rw [Function.update_same] at ha
          injection ha with hv
          exact ⟨hv.symm, hg, hp_in_L⟩
        · rw [Function.update_noteq hap] at ha
          exact h1 a v ha
      have h2' : ∀ a, ((Function.update t.dist p (some 0)) a).isSome = true →
          a ∈ t.queue ++ [p] := by
        intro a ha
        by_cases hap : a = p
        · subst hap
          exact List.mem_append_right _ (List.mem_singleton_self a)
        · rw [Function.update_noteq hap] at ha
          exact List.mem_append_left _ (h2 a ha)
      have h3' : ∀ q ∈ t.queue ++ [p],
          (Function.update t.dist p (some 0)) q = some 0 := by
        intro q hq
        by_cases hqp : q = p
        · subst hqp
          exact Function.update_same _ _ _
        · rw [Function.update_noteq hqp]
          rcases List.mem_append.mp hq with hq' | hq'
          · exact h3 q hq'
          · simp at hq'
            exact absurd hq' hqp
      have hsub' : ps ⊆ L := fun x hx => hsub (List.mem_cons_of_mem p hx)
      obtain ⟨r1, r2, r3, r4⟩ := ih ⟨Function.update t.dist p (some 0),
        t.queue ++ [p]⟩ hsub' h1' h2' h3'
      refine ⟨r1, r2, r3, ?_⟩
      have hlen : ((⟨Function.update t.dist p (some 0),
          t.queue ++ [p]⟩ : BfsState)).queue.length = t.queue.length + 1 := by
        simp
      simp only [List.length_cons]
      omega
    · rw [if_neg hg]
      have hsub' : ps ⊆ L := fun x hx => hsub (List.mem_cons_of_mem p hx)
      obtain ⟨r1, r2, r3, r4⟩ := ih t hsub' h1 h2 h3
      refine ⟨r1, r2, r3, ?_⟩
      simp only [List.length_cons]
      omega

theorem bfsInit_inv (width height : Nat) (sources : List Cell) :
    BfsInv width height sources (bfsInit width height sources) ∧
      bfsPhi width height (bfsInit width height sources) ≤
        bfsFuel width height sources := by
  obtain ⟨h1, h2, h3, h4⟩ := bfsInitFold_shape width height sources sources
    ⟨fun _ => none, []⟩ (fun x hx => hx)
    (fun a v ha => by cases ha)
    (fun a ha => by simp at ha)
    (fun q hq => absurd hq (List.not_mem_nil q))
  have h1' : ∀ a v, (bfsInit width height sources).dist a = some v →
      v = 0 ∧ inGrid width height a = true ∧ a ∈ sources := h1
  have h2' : ∀ a, ((bfsInit width height sources).dist a).isSome = true →
      a ∈ (bfsInit width height sources).queue := h2
  have h3' : ∀ q ∈ (bfsInit width height sources).queue,
      (bfsInit width height sources).dist q = some 0 := h3
  have h4' : (bfsInit width height sources).queue.length ≤
      ([] : List Cell).length + sources.length := h4
  constructor
  · refine ⟨?_, ?_, ?_, ?_, ?_, ?_⟩
    · intro a v ha
      exact (h1' a v ha).2.1
    · intro a v ha
      obtain ⟨hv0, hga, haL⟩ := h1' a v ha
      obtain ⟨r, hr, hre⟩ := minMG_le_elem (c := a) haL hga
      rw [manhattan_self] at hr
      exact ⟨r, hre, by omega⟩
    · intro a v ha
      obtain ⟨hv0, hga, _⟩ := h1' a v ha
      have hmem : a ∈ (gridFinset width height).filter
          (fun c => ((bfsInit width height sources).dist c).isSome) := by
        rw [Finset.mem_filter]
        exact ⟨mem_gridFinset.mpr hga, by rw [ha]; rfl⟩
      have hpos : 0 < bfsK width height (bfsInit width height sources) :=
        Finset.card_pos.mpr ⟨a, hmem⟩
      omega
    · intro q hq
      rw [h3' q hq]
      rfl
    · intro p hp hpg
      exact bfsInitFold_seeds width height sources _ p hp hpg
    · intro a v ha hnotq n hn hgn
      exact absurd (h2' a (by rw [ha]; rfl)) hnotq
  · unfold bfsPhi bfsFuel
    have hsum : (gridFinset width height).sum
        (fun c => bfsPhiF width height ((bfsInit width height sources).dist c)) ≤
        (gridFinset width height).card * (width * height) := by
      have hb : ∀ x ∈ gridFinset width height,
          bfsPhiF width height ((bfsInit width height sources).dist x) ≤
            width * height := by
        intro x _
        cases hx : (bfsInit width height sources).dist x with
        | none => exact le_refl _
        | some v =>
          have hv := (h1' x v hx).1
          subst hv
          exact Nat.zero_le _
      have hle := Finset.sum_le_card_nsmul (gridFinset width height)
        (fun c => bfsPhiF width height ((bfsInit width height sources).dist c))
        (width * height) hb
      simpa using hle
    have hcard := card_gridFinset_le width height
    have hmul : (gridFinset width height).card * (width * height) ≤
        width * height * (width * height) := Nat.mul_le_mul_right _ hcard
    have h0 : ([] : List Cell).length = 0 := rfl
    omega

theorem step_toward {width height : Nat} {a p : Cell}
    (hga : inGrid width height a = true) (hgp : inGrid width height p = true)
    {k : Nat} (hm : manhattan p a = k + 1) :
    ∃ n, n ∈ neighbors4 a ∧ inGrid width height n = true ∧
      manhattan p n = k := by
  unfold inGrid at hga hgp
  simp only [Bool.and_eq_true, decide_eq_true_eq] at hga hgp
  obtain ⟨⟨hax0, haxw⟩, hay0, hayh⟩ := hga
  obtain ⟨⟨hpx0, hpxw⟩, hpy0, hpyh⟩ := hgp
  unfold manhattan at hm
  by_cases hxlt : p.x < a.x
  · refine ⟨⟨a.x - 1, a.y⟩, by simp [neighbors4], ?_, ?_⟩
    · unfold inGrid
      simp only [Bool.and_eq_true, decide_eq_true_eq]
      refine ⟨⟨?_, ?_⟩, ?_, ?_⟩ <;> omega
    · unfold manhattan
      dsimp only
      omega
  · by_cases hxgt : a.x < p.x
    · refine ⟨⟨a.x + 1, a.y⟩, by simp [neighbors4], ?_, ?_⟩
      · unfold inGrid
        simp only [Bool.and_eq_true, decide_eq_true_eq]
        refine ⟨⟨?_, ?_⟩, ?_, ?_⟩ <;> omega
      · unfold manhattan
        dsimp only
        omega
    · by_cases hylt : p.y < a.y
      · refine ⟨⟨a.x, a.y - 1⟩, by simp [neighbors4], ?_, ?_⟩
        · unfold inGrid
          simp only [Bool.and_eq_true, decide_eq_true_eq]
          refine ⟨⟨?_, ?_⟩, ?_, ?_⟩ <;> omega
        · unfold manhattan
          dsimp only
          omega
      · refine ⟨⟨a.x, a.y + 1⟩, by simp [neighbors4], ?_, ?_⟩
        · unfold inGrid
          simp only [Bool.and_eq_true, decide_eq_true_eq]
          refine ⟨⟨?_, ?_⟩, ?_, ?_⟩ <;> omega
        · unfold manhattan
          dsimp only
          omega

/-- The BFS distance transform computes exactly the minimum Manhattan
distance to an in-grid seed (`none` for `+∞`), for every in-grid cell. -/
theorem bfsDistanceMap_correct (width height : Nat) (sources : List Cell)
    (c : Cell) (hc : inGrid width height c = true) :
    bfsDistanceMap width height sources c =
      minManhattanGrid width height sources c := by
  obtain ⟨hinv, hphi⟩ := bfsInit_inv width height sources
  obtain ⟨hqe, hfin⟩ := bfsLoop_drains width height sources
    (bfsFuel width height sources) (bfsInit width height sources) hinv hphi
  obtain ⟨rg, rl, rc, rq, rs, rst⟩ := hfin
  have upper : ∀ k a, inGrid width height a = true →
      (∃ p, p ∈ sources ∧ inGrid width height p = true ∧ manhattan p a ≤ k) →
      ∃ v, (bfsLoop width height (bfsFuel width height sources)
        (bfsInit width height sources)).dist a = some v ∧ v ≤ k := by
    intro k
    induction k with
    | zero =>
      rintro a hga ⟨p, hp, hpg, hpm⟩
      have hpa : p = a := manhattan_eq_zero (Nat.le_zero.mp hpm)
      subst hpa
      exact ⟨0, rs p hp hpg, le_refl 0⟩
    | succ k ihk =>
      rintro a hga ⟨p, hp, hpg, hpm⟩
      by_cases hple : manhattan p a ≤ k
      · obtain ⟨v, hv, hvle⟩ := ihk a hga ⟨p, hp, hpg, hple⟩
        exact ⟨v, hv, le_trans hvle (Nat.le_succ k)⟩
      · have hpm' : manhattan p a = k + 1 := le_antisymm hpm (by omega)
        obtain ⟨n, hn, hgn, hmn⟩ := step_toward hga hpg hpm'
        obtain ⟨vn, hvn, hvnle⟩ := ihk n hgn ⟨p, hp, hpg, le_of_eq hmn⟩
        have hnq : n ∉ (bfsLoop width height (bfsFuel width height sources)
            (bfsInit width height sources)).queue := by
          rw [hqe]
          exact List.not_mem_nil n
        obtain ⟨va, hva, hvale⟩ := rst n vn hvn hnq a (neighbors4_symm hn) hga
        exact ⟨va, hva, by omega⟩
  cases hmg : minManhattanGrid width height sources c with
  | none =>
    cases hrd : (bfsLoop width height (bfsFuel width height sources)
        (bfsInit width height sources)).dist c with
    | none => exact hrd
    | some v =>
      obtain ⟨m, hm, _⟩ := rl c v hrd
      rw [hmg] at hm
      cases hm
  | some m =>
    obtain ⟨p, hp, hpg, hpm⟩ := minMG_exists hmg
    obtain ⟨v, hv, hvle⟩ := upper m c hc ⟨p, hp, hpg, le_of_eq hpm⟩
    obtain ⟨m', hm', hm'le⟩ := rl c v hv
    rw [hmg] at hm'
    injection hm' with hmm
    have hvm : v = m := by omega
    rw [← hvm]
    exact hv

/-! ## Containers: insertion-ordered sets, association lists, sorted heaps -/

/-- `set.add`: append iff absent (models CPython set insertion with
first-insertion iteration order). -/
def insertNew {α : Type} [DecidableEq α] (l : List α) (a : α) : List α :=
  if a ∈ l then l else l ++ [a]

/-- Deduplicate keeping first occurrences (models `set(iterable)`). -/
def dedupKeepOrder {α : Type} [DecidableEq α] (l : List α) : List α :=
  l.foldl insertNew []

/-- `dict[k] = v`: overwrite in place or append (CPython dicts keep the
original key position on overwrite). -/
def assocUpdate {α β : Type} [DecidableEq α] (l : List (α × β)) (k : α) (v : β) :
    List (α × β) :=
  if l.any (fun p => p.1 = k) then
    l.map (fun p => if p.1 = k then (k, v) else p)
  else l ++ [(k, v)]

/-- `dict.get(k)`: value of the entry with key `k`. -/
def assocLookup {α β : Type} [DecidableEq α] (l : List (α × β)) (k : α) :
    Option β :=
  (l.find? (fun p => p.1 = k)).map (fun p => p.2)

/-- Cached pair routes: `pair_routes[(u, v)] = (cost, path)`. -/
def PairRoutes : Type := (Cell × Cell) → Option (Frac × List Cell)

def prUpdate (pr : PairRoutes) (k : Cell × Cell) (v : Frac × List Cell) :
    PairRoutes :=
  Function.update pr k (some v)

/-- A `heapq` heap of `(cost, counter, payload)` tuples, kept as a list
sorted by `(cost, counter)`.  Counters are unique, so popping the head is
exactly `heappop`'s minimum. -/
def heapPush {α : Type} (heap : List (Frac × Nat × α)) (e : Frac × Nat × α) :
    List (Frac × Nat × α) :=
  match heap with
  | [] => [e]
  | x :: xs =>
    if e.1.ltb x.1 || (e.1.eqb x.1 && decide (e.2.1 < x.2.1)) then e :: x :: xs
    else x :: heapPush xs e

/-! ## Shortest-path engine (`dijkstra_path`, `_dijkstra_to_targets`) -/

/-- Path reconstruction: follow `came_from` until the root (stored as
`some none`), collecting nodes; the caller reverses. -/
def reconstructAux : Nat → (Cell → Option (Option Cell)) → Cell → List Cell
  | 0, _, _ => []
  | fuel + 1, cameFrom, node =>
    node ::
      (match cameFrom node with
       | some (some p) => reconstructAux fuel cameFrom p
       | _ => [])

/-- Mutable state threaded through a Dijkstra relaxation sweep. -/
structure DijState where
  heap : List (Frac × Nat × Cell)
  counter : Nat
  distances : Cell → Option Frac
  cameFrom : Cell → Option (Option Cell)

/-- One neighbour relaxation of `dijkstra_path` (the callee has already
added `current` to `visited`). -/
def dijRelax (visited : Cell → Bool) (currentCost : Frac) (current : Cell)
    (st : DijState) (nbw : Cell × Frac) : DijState :=
  if visited nbw.1 then st
  else
    if (match st.distances nbw.1 with
        | none => true
        | some dOld => (currentCost.add nbw.2).ltb dOld) then
      { heap := heapPush st.heap (currentCost.add nbw.2, st.counter, nbw.1),
        counter := st.counter + 1,
        distances := Function.update st.distances nbw.1
          (some (currentCost.add nbw.2)),
        cameFrom := Function.update st.cameFrom nbw.1 (some (some current)) }
    else st

/-- Main loop of `dijkstra_path`. -/
def dijkstraLoop (graph : Cell → Option (List (Cell × Frac))) (endp : Cell) :
    Nat → List (Frac × Nat × Cell) → Nat → (Cell → Option Frac) →
    (Cell → Option (Option Cell)) → (Cell → Bool) → Option (Frac × List Cell)
  | 0, _, _, _, _, _ => none
  | fuel + 1, heap, counter, distances, cameFrom, visited =>
    match heap with
    | [] => none
    | (cost, _, current) :: rest =>
      if visited current then
        dijkstraLoop graph endp fuel rest counter distances cameFrom visited
      else
        let visited' := Function.update visited current true
        if current = endp then
          some (cost, (reconstructAux (fuel + 1) cameFrom current).reverse)
        else
          let st := ((graph current).getD []).foldl
            (dijRelax visited' cost current) ⟨rest, counter, distances, cameFrom⟩
          dijkstraLoop graph endp fuel st.heap st.counter st.distances
            st.cameFrom visited'

/-- Embedding of `dijkstra_path(start, end, graph)`. -/
def dijkstraPath (fuel : Nat) (start endp : Cell)
    (graph : Cell → Option (List (Cell × Frac))) : Option (Frac × List Cell) :=
  if (graph start).isNone ∨ (graph endp).isNone then none
  else
    dijkstraLoop graph endp fuel [(Frac.ofInt 0, 0, start)] 1
      (Function.update (fun _ => none) start (some (Frac.ofInt 0)))
      (Function.update (fun _ => none) start (some none))
      (fun _ => false)

/-- One neighbour relaxation of `_dijkstra_to_targets` (no `visited` set;
stale entries are skipped via the cost check). -/
def dijRelaxNoVis (currentCost : Frac) (current : Cell)
    (st : DijState) (nbw : Cell × Frac) : DijState :=
  if (match st.distances nbw.1 with
      | none => true
      | some dOld => (currentCost.add nbw.2).ltb dOld) then
    { heap := heapPush st.heap (currentCost.add nbw.2, st.counter, nbw.1),
      counter := st.counter + 1,
      distances := Function.update st.distances nbw.1
        (some (currentCost.add nbw.2)),
      cameFrom := Function.update st.cameFrom nbw.1 (some (some current)) }
  else st

/-- Main loop of `_dijkstra_to_targets`; results accumulate in pop order,
which determines the order of `.items()` at the call sites.  The raw
`graph[current]` access of the neighbour scan has no fallback: a popped
node that is not a graph key raises `KeyError`, modelled as `none` (the
exception propagates out of the endpoint as HTTP 500).  This is reachable
exactly when the Dijkstra source itself is off-graph: every pushed
neighbour is a graph key. -/
def dijkstraToTargetsLoop (graph : Cell → Option (List (Cell × Frac))) :
    Nat → List (Frac × Nat × Cell) → Nat → (Cell → Option Frac) →
    (Cell → Option (Option Cell)) → List Cell →
    List (Cell × Frac × List Cell) → Option (List (Cell × Frac × List Cell))
  | 0, _, _, _, _, _, results => some results
  | fuel + 1, heap, counter, distances, cameFrom, remaining, results =>
    if remaining.isEmpty then some results
    else
      match heap with
      | [] => some results
      | (cost, _, current) :: rest =>
        match distances current with
        | none =>
          dijkstraToTargetsLoop graph fuel rest counter distances cameFrom
            remaining results
        | some dc =>
          if ¬ cost.eqb dc then
            dijkstraToTargetsLoop graph fuel rest counter distances cameFrom
              remaining results
          else
            if current ∈ remaining then
              let results' := results ++
                [(current, cost, (reconstructAux (fuel + 1) cameFrom current).reverse)]
              let remaining' := remaining.erase current
              if remaining'.isEmpty then some results'
              else
                match graph current with
                | none => none
                | some nbrs =>
                  let st := nbrs.foldl
                    (dijRelaxNoVis cost current) ⟨rest, counter, distances, cameFrom⟩
                  dijkstraToTargetsLoop graph fuel st.heap st.counter st.distances
                    st.cameFrom remaining' results'
            else
              match graph current with
              | none => none
              | some nbrs =>
                let st := nbrs.foldl
                  (dijRelaxNoVis cost current) ⟨rest, counter, distances, cameFrom⟩
                dijkstraToTargetsLoop graph fuel st.heap st.counter st.distances
                  st.cameFrom remaining results

/-- Embedding of `_dijkstra_to_targets(source, target_set, graph)`:
`none` models the uncaught `KeyError` of `graph[current]` (the source
off-graph while targets remain). -/
def dijkstraToTargets (fuel : Nat) (source : Cell) (targets : List Cell)
    (graph : Cell → Option (List (Cell × Frac))) :
    Option (List (Cell × Frac × List Cell)) :=
  if targets.isEmpty then some []
  else
    dijkstraToTargetsLoop graph fuel [(Frac.ofInt 0, 0, source)] 1
      (Function.update (fun _ => none) source (some (Frac.ofInt 0)))
      (Function.update (fun _ => none) source (some none))
      targets []

/-! ## Weighted graph builder (`build_weighted_graph`) -/

/-- Embedding of `build_weighted_graph`: the Python dict over passable cells
is modelled as a function returning `none` for absent keys (walls and
off-grid cells).  Neighbour order follows the source:
`(x-1, y), (x+1, y), (x, y-1), (x, y+1)`. -/
def buildWeightedGraph (width height : Nat) (walls trays : List Cell)
    (redCable : Frac) (distWall distTray : Cell → Option Nat) :
    Cell → Option (List (Cell × Frac)) :=
  fun c =>
    if inGrid width height c ∧ c ∉ walls then
      some ((neighbors4 c).filterMap (fun n =>
        if inGrid width height n ∧ n ∉ walls then
          some (n, computeWeight (distWall n) (distTray n) redCable)
        else none))
    else none

/-! ## Lazy MST (`build_mst_lazy`) and Prim on cached routes
(`find_wall_aware_mst`, `mst_total_length`) -/

/-- `mst_total_length`: sum of cached pair-route costs, `(0.0, [])` as the
default for missing edges. -/
def mstTotalLength (mstEdges : List (Cell × Cell)) (pr : PairRoutes) : Frac :=
  mstEdges.foldl (fun total e => total.add ((pr e).getD (Frac.ofInt 0, [])).1)
    (Frac.ofInt 0)

structure MstState where
  visited : List Cell
  pairRoutes : PairRoutes
  mstEdges : List (Cell × Cell)
  edgeHeap : List (Frac × Nat × Cell × Cell)
  counter : Nat

/-- The inner `while edge_heap and …` cleanup of `build_mst_lazy`: drop heap
entries whose both endpoints are already visited. -/
def dropBothVisited (visited : List Cell) :
    List (Frac × Nat × Cell × Cell) → List (Frac × Nat × Cell × Cell)
  | [] => []
  | e :: rest =>
    if e.2.2.1 ∈ visited ∧ e.2.2.2 ∈ visited then dropBothVisited visited rest
    else e :: rest

/-- Record multi-target Dijkstra results: cache both route directions and
push one candidate edge per found target. -/
def mstAddResults (v : Cell) (st : MstState)
    (results : List (Cell × Frac × List Cell)) : MstState :=
  results.foldl
    (fun st r =>
      { st with
        pairRoutes := prUpdate (prUpdate st.pairRoutes (v, r.1) (r.2.1, r.2.2))
          (r.1, v) (r.2.1, r.2.2.reverse),
        edgeHeap := heapPush st.edgeHeap (r.2.1, st.counter, v, r.1),
        counter := st.counter + 1 })
    st

/-- Main loop of `build_mst_lazy`; a `KeyError` of a nested
`_dijkstra_to_targets` run (`none`) propagates. -/
def buildMstLazyLoop (dijFuel : Nat) (terminals : List Cell)
    (graph : Cell → Option (List (Cell × Frac))) :
    Nat → MstState → Option MstState
  | 0, st => some st
  | fuel + 1, st =>
    if st.visited.length < terminals.length then
      match dropBothVisited st.visited st.edgeHeap with
      | [] => some st
      | (_, _, u, v) :: rest =>
        if v ∈ st.visited then
          buildMstLazyLoop dijFuel terminals graph fuel
            { st with edgeHeap := rest }
        else
          let st1 := { st with
            mstEdges := st.mstEdges ++ [(u, v)]
            visited := st.visited ++ [v]
            edgeHeap := rest }
          let remaining := dedupKeepOrder
            (terminals.filter (fun t => ¬ t ∈ st1.visited))
          if remaining.isEmpty then
            buildMstLazyLoop dijFuel terminals graph fuel st1
          else
            match dijkstraToTargets dijFuel v remaining graph with
            | none => none
            | some results =>
              buildMstLazyLoop dijFuel terminals graph fuel
                (mstAddResults v st1 results)
    else some st

/-- Embedding of `build_mst_lazy(terminals, graph)`: `none` models the
uncaught `KeyError` of the initial `_dijkstra_to_targets` run from
`terminals[0]` (the only reachable one: every later source was reached
through the graph). -/
def buildMstLazy (fuel dijFuel : Nat) (terminals : List Cell)
    (graph : Cell → Option (List (Cell × Frac))) :
    Option (List (Cell × Cell) × PairRoutes) :=
  match terminals with
  | [] => some ([], fun _ => none)
  | start :: restTs =>
    match dijkstraToTargets dijFuel start (dedupKeepOrder restTs) graph with
    | none => none
    | some results =>
      match buildMstLazyLoop dijFuel terminals graph fuel
          (mstAddResults start ⟨[start], fun _ => none, [], [], 0⟩ results)
        with
      | none => none
      | some stF => some (stF.mstEdges, stF.pairRoutes)

/-- Main loop of `find_wall_aware_mst`. -/
def findWallAwareMstLoop (terminals : List Cell) (pr : PairRoutes) :
    Nat → List Cell → List (Cell × Cell) →
    List (Frac × Nat × Cell × Cell) → Nat → List (Cell × Cell)
  | 0, _, mstEdges, _, _ => mstEdges
  | fuel + 1, visited, mstEdges, heap, counter =>
    if visited.length < terminals.length ∧ ¬ heap.isEmpty then
      match heap with
      | [] => mstEdges
      | (_, _, u, v) :: rest =>
        if v ∈ visited then
          findWallAwareMstLoop terminals pr fuel visited mstEdges rest counter
        else
          let visited' := visited ++ [v]
          let hc := terminals.foldl
            (fun (acc : List (Frac × Nat × Cell × Cell) × Nat) w =>
              if ¬ w ∈ visited' then
                match pr (v, w) with
                | some dwp => (heapPush acc.1 (dwp.1, acc.2, v, w), acc.2 + 1)
                | none => acc
              else acc)
            (rest, counter)
          findWallAwareMstLoop terminals pr fuel visited'
            (mstEdges ++ [(u, v)]) hc.1 hc.2
    else mstEdges

/-- Embedding of `find_wall_aware_mst(terminals, pair_routes)`. -/
def findWallAwareMst (fuel : Nat) (terminals : List Cell) (pr : PairRoutes) :
    List (Cell × Cell) :=
  match terminals with
  | [] => []
  | t0 :: rest =>
    let init := rest.foldl
      (fun (acc : List (Frac × Nat × Cell × Cell) × Nat) t =>
        match pr (t0, t) with
        | some cp => (heapPush acc.1 (cp.1, acc.2, t0, t), acc.2 + 1)
        | none => acc)
      ([], 0)
    findWallAwareMstLoop terminals pr fuel [t0] [] init.1 init.2

/-! ## MST adjacency, T-junctions, per-cable routes -/

/-- `adjacency.setdefault(a, set()).add(b)` with first-insertion order. -/
def adjInsert (adj : List (Cell × List Cell)) (a b : Cell) :
    List (Cell × List Cell) :=
  if adj.any (fun p => p.1 = a) then
    adj.map (fun p => if p.1 = a then (a, insertNew p.2 b) else p)
  else adj ++ [(a, [b])]

/-- Embedding of `build_mst_adjacency`. -/
def buildMstAdjacency (mstEdges : List (Cell × Cell)) (pr : PairRoutes) :
    List (Cell × List Cell) :=
  mstEdges.foldl
    (fun adj e =>
      let path := ((pr e).getD (Frac.ofInt 0, [])).2
      (path.zip path.tail).foldl
        (fun adj pq => adjInsert (adjInsert adj pq.1 pq.2) pq.2 pq.1) adj)
    []

/-- Embedding of `detect_steiner_points`: nodes of degree ≥ 3. -/
def detectSteinerPoints (adj : List (Cell × List Cell)) : List Cell :=
  (adj.filter (fun p => 3 ≤ p.2.length)).map (fun p => p.1)

/-- Embedding of `split_path_at_steiner_points`. -/
def splitPathAtSteinerPoints (path : List Cell) (sps : List Cell) :
    List (List Cell) :=
  let n := path.length
  (path.foldl
    (fun (acc : List (List Cell) × List Cell × Nat) p =>
      let segments := acc.1
      let current := acc.2.1 ++ [p]
      let i := acc.2.2
      if i < n - 1 then
        if p ∈ sps ∧ i ≠ 0 then (segments ++ [current], [p], i + 1)
        else (segments, current, i + 1)
      else (segments ++ [current], current, i + 1))
    ([], [], 0)).1

/-- BFS over the MST adjacency, as in `find_cable_route`. -/
def bfsRouteLoop (adjacency : List (Cell × List Cell)) (dst : Cell) :
    Nat → List Cell → (Cell → Option (Option Cell)) → List Cell
  | 0, _, _ => []
  | fuel + 1, queue, cameFrom =>
    match queue with
    | [] => []
    | current :: rest =>
      if current = dst then (reconstructAux (fuel + 1) cameFrom current).reverse
      else
        let s := ((assocLookup adjacency current).getD []).foldl
          (fun (acc : List Cell × (Cell → Option (Option Cell))) nbr =>
            if (acc.2 nbr).isSome then acc
            else (acc.1 ++ [nbr], Function.update acc.2 nbr (some (some current))))
          (rest, cameFrom)
        bfsRouteLoop adjacency dst fuel s.1 s.2

/-- Embedding of `find_cable_route(src, dst, mst_edges, pair_routes)`. -/
def findCableRoute (fuel : Nat) (src dst : Cell)
    (mstEdges : List (Cell × Cell)) (pr : PairRoutes) : List Cell :=
  let adjacency := buildMstAdjacency mstEdges pr
  if (assocLookup adjacency src).isNone ∨ (assocLookup adjacency dst).isNone
  then []
  else
    bfsRouteLoop adjacency dst fuel [src]
      (Function.update (fun _ => none) src (some none))

/-! ## Request / response data model -/

structure Machine where
  x : Int
  y : Int
deriving DecidableEq, Repr

structure Cable where
  cableLabel : Option String
  source : String
  target : String
  originalSource : Option String
  originalTarget : Option String
  diameter : Option Frac
  cableFunction : Option String
  network : Option String
  cableType : Option String
  length : Option String
deriving DecidableEq, Repr

/-- A network entry `{name, functions}`. -/
structure Network where
  name : String
  functions : List String
deriving DecidableEq, Repr

structure GridConfig where
  gridResolution : Frac
  width : Nat
  height : Nat
  walls : List Cell
  trays : List Cell
  perforations : List Cell
  machines : List (String × Machine)
  cables : List Cable
  networks : List Network
deriving Repr

structure CableDetail where
  cableLabel : Option String
  source : String
  target : String
  originalSource : Option String
  originalTarget : Option String
  diameter : Option Frac
  cableFunction : Option String
  network : Option String
  cableType : Option String
  routeLength : Option Frac
  length : Option String
deriving DecidableEq, Repr

structure Section where
  points : List Cell
  cables : List String
  network : Option String
  details : List (String × CableDetail)
  strokeWidth : Frac
deriving DecidableEq, Repr

structure ProblematicCable where
  cableLabel : Option String
  source : String
  target : String
  specifiedLength : Frac
  routeLength : Frac
  theoreticalMinLength : Frac
  excessLength : Frac
  excessPercentage : Frac
deriving DecidableEq, Repr

structure DebugInfo where
  initial_mst_length : Frac
  final_length : Frac
  improvement_percentage : Frac
  num_steiner_points : Nat
  num_sections : Nat
  num_components_tried : Nat
  num_components_used : Nat
  passes_used : Nat
deriving DecidableEq, Repr

structure RoutingResponse where
  sections : List Section
  cableRoutes : List (String × List Cell)
  hananX : List Int
  hananY : List Int
  steinerPoints : List Cell
  debug_info : DebugInfo
  problematicCables : List ProblematicCable
deriving DecidableEq, Repr

/-- `cb.cableLabel or f"{cb.source}-{cb.target}"`. -/
def cableId (cb : Cable) : String :=
  match cb.cableLabel with
  | some l => l
  | none => cb.source ++ "-" ++ cb.target

def machinePt (m : Machine) : Cell := ⟨m.x, m.y⟩

/-! ## Length parsing (`_parse_length`) -/

def digitsToNat (cs : List Char) : Option Nat :=
  if cs.all Char.isDigit then
    some (cs.foldl (fun acc c => acc * 10 + (c.toNat - 48)) 0)
  else none

/-- Plain decimal literal parser standing for Python `float(txt)`.
Exotic accepted forms of `float` (exponents, `inf`, `nan`, underscores)
are mapped to `none`; the claims under study only involve plain decimal
length strings. -/
def parseFloat (s : String) : Option Frac :=
  let cs := s.data
  let sgncs : Int × List Char :=
    match cs with
    | '-' :: r => (-1, r)
    | '+' :: r => (1, r)
    | _ => (1, cs)
  match sgncs.2.splitOn '.' with
  | [ip] =>
    if ip.isEmpty then none
    else (digitsToNat ip).map (fun n => ⟨sgncs.1 * n, 1⟩)
  | [ip, fp] =>
    if ip.isEmpty ∧ fp.isEmpty then none
    else
      match digitsToNat ip, digitsToNat fp with
      | some i, some f =>
        some ⟨sgncs.1 * ((i : Int) * (10 : Int) ^ fp.length + f), 10 ^ fp.length⟩
      | _, _ => none
  | _ => none

def isSpaceChar (c : Char) : Bool :=
  c = ' ' || c = '\t' || c = '\n' || c = '\r'

def trimChars (cs : List Char) : List Char :=
  ((cs.dropWhile isSpaceChar).reverse.dropWhile isSpaceChar).reverse

/-- `txt = val.strip().lower().replace("m", "").replace(",", ".")`.
Lower-casing only matters for the letter `m` here: any other remaining
letter makes `float` fail either way, so both `m` and `M` are removed. -/
def normalizeLengthStr (s : String) : String :=
  String.mk (((trimChars s.data).filter (fun c => c ≠ 'm' ∧ c ≠ 'M')).map
    (fun c => if c = ',' then '.' else c))

/-- Embedding of `_parse_length`. -/
def parseLength (val : Option String) : Option Frac :=
  match val with
  | none => none
  | some s => if s = "" then none else parseFloat (normalizeLengthStr s)

/-! ## Section extraction (`convert_to_sections`, `calculate_hanan_grid`) -/

/-- `calc_length`: `(len(points)-1) * grid_resolution` for ≥ 2 points. -/
def calcLength (points : List Cell) (res : Frac) : Frac :=
  if 1 < points.length then
    (Frac.ofInt ((points.length - 1 : Nat) : Int)).mul res
  else Frac.ofInt 0

/-- `len(seg_set & route_set)`: number of distinct shared cells. -/
def overlapCount (seg route : List Cell) : Nat :=
  (seg.dedup.filter (fun c => c ∈ route)).length

/-- The `network_lookup` table: function name → network name, later
networks overwriting earlier ones. -/
def networkLookupOf (networks : List Network) : String → Option String :=
  networks.foldl
    (fun lk net => net.functions.foldl
      (fun lk f => Function.update lk f (some net.name)) lk)
    (fun _ => none)

def cableDetailOf (c : Cable) (netName : String) (routeLen : Frac) :
    CableDetail :=
  ⟨c.cableLabel, c.source, c.target, c.originalSource, c.originalTarget,
    c.diameter, c.cableFunction, some netName, c.cableType, some routeLen,
    c.length⟩

/-- The stroke width formula of grouped sections:
`4 + min(len(used_cables) * 0.75, 15)`. -/
def strokeWidthOf (numCables : Nat) : Frac :=
  (Frac.ofInt 4).add
    (Frac.min ((Frac.ofInt (numCables : Int)).mul ⟨75, 100⟩) (Frac.ofInt 15))

/-- Per-cable routes over the final tree, as computed at the top of
`convert_to_sections` (and identically at step 8 of the endpoint). -/
def cableRoutesOf (routeFuel : Nat) (cables : List Cable)
    (machines : List (String × Machine)) (finalMst : List (Cell × Cell))
    (pr : PairRoutes) : List (String × List Cell) :=
  cables.foldl
    (fun acc cb =>
      let spt := machinePt ((assocLookup machines cb.source).getD ⟨0, 0⟩)
      let tpt := machinePt ((assocLookup machines cb.target).getD ⟨0, 0⟩)
      assocUpdate acc (cableId cb) (findCableRoute routeFuel spt tpt finalMst pr))
    []

/-- The cables of a network group that share at least two cells with a
segment, with their details: `(used_cables, details)` accumulated in
group order. -/
def segUsedCables (netName : String) (grp : List Cable)
    (cableRoutes : List (String × List Cell)) (gridResolution : Frac)
    (seg : List Cell) : List String × List (String × CableDetail) :=
  grp.foldl
    (fun (acc : List String × List (String × CableDetail)) c =>
      if 2 ≤ overlapCount seg ((assocLookup cableRoutes (cableId c)).getD [])
      then
        (insertNew acc.1 (cableId c),
          assocUpdate acc.2 (cableId c)
            (cableDetailOf c netName
              (calcLength ((assocLookup cableRoutes (cableId c)).getD [])
                gridResolution)))
      else acc)
    ([], [])

/-- The cable-function → network grouping at the top of
`convert_to_sections`. -/
def groupedCables (networkLookup : String → Option String)
    (cables : List Cable) : List (String × List Cable) :=
  cables.foldl
    (fun acc c =>
      match c.cableFunction.bind networkLookup with
      | none => acc
      | some nm => assocUpdate acc nm ((assocLookup acc nm).getD [] ++ [c]))
    []

/-- Embedding of `convert_to_sections`. -/
def convertToSections (routeFuel : Nat) (gridResolution : Frac)
    (finalMst : List (Cell × Cell)) (cables : List Cable)
    (machines : List (String × Machine)) (networks : List Network)
    (pr : PairRoutes) : List Section :=
  let steinerPointsSet := detectSteinerPoints (buildMstAdjacency finalMst pr)
  let cableRoutes := cableRoutesOf routeFuel cables machines finalMst pr
  (groupedCables (networkLookupOf networks) cables).foldl
    (fun sections pair =>
      finalMst.foldl
        (fun sections e =>
          if (((pr e).getD (Frac.ofInt 0, [])).2).isEmpty then sections
          else
            (splitPathAtSteinerPoints ((pr e).getD (Frac.ofInt 0, [])).2
                steinerPointsSet).foldl
              (fun sections seg =>
                if seg.length < 2 then sections
                else
                  if (segUsedCables pair.1 pair.2 cableRoutes gridResolution
                      seg).1.isEmpty then sections
                  else sections ++ [⟨seg,
                    (segUsedCables pair.1 pair.2 cableRoutes gridResolution
                      seg).1,
                    some pair.1,
                    (segUsedCables pair.1 pair.2 cableRoutes gridResolution
                      seg).2,
                    strokeWidthOf (segUsedCables pair.1 pair.2 cableRoutes
                      gridResolution seg).1.length⟩])
              sections)
        sections)
    []

/-- Insert into a sorted list, after all elements that compare `le` to it
(preserves the relative order of equal elements, as Python sorts do). -/
def insSorted {α : Type} (le : α → α → Bool) (a : α) : List α → List α
  | [] => [a]
  | b :: bs => if le b a then b :: insSorted le a bs else a :: b :: bs

/-- Stable insertion sort modelling Python `sorted` / `list.sort`. -/
def stableSort {α : Type} (le : α → α → Bool) : List α → List α
  | [] => []
  | a :: as => insSorted le a (stableSort le as)

/-- Embedding of `calculate_hanan_grid`: sorted unique coordinates. -/
def sortedUniqueInts (l : List Int) : List Int :=
  stableSort (fun a b => decide (a ≤ b)) (dedupKeepOrder l)

def calculateHananGrid (allPoints : List Cell) : List Int × List Int :=
  (sortedUniqueInts (allPoints.map (fun p => p.x)),
   sortedUniqueInts (allPoints.map (fun p => p.y)))

/-! ## Candidate terminal groups (`find_promising_terminal_groups`) -/

def sortedCoordKey (g : List Cell) : List (Int × Int) :=
  stableSort (fun a b => decide (a.1 < b.1 ∨ (a.1 = b.1 ∧ a.2 ≤ b.2)))
    (g.map (fun t => (t.x, t.y)))

/-- Deduplicate groups by sorted coordinate tuple, stopping once
`max_groups` unique groups are collected (the `break` in the source). -/
def dedupGroupsCap (maxGroups : Nat) :
    List (List Cell) → List (List (Int × Int)) → List (List Cell) →
    List (List Cell)
  | [], _, unique => unique
  | g :: gs, seen, unique =>
    let key := sortedCoordKey g
    if key ∈ seen then dedupGroupsCap maxGroups gs seen unique
    else
      let unique' := unique ++ [g]
      if maxGroups ≤ unique'.length then unique'
      else dedupGroupsCap maxGroups gs (seen ++ [key]) unique'

/-- Embedding of `find_promising_terminal_groups`.  Network groups are
keyed by `cable.network or "default"` (note: the `network` field, not the
function→network lookup). -/
def findPromisingTerminalGroups (pr : PairRoutes)
    (cables : List Cable) (machines : List (String × Machine))
    (maxGroups : Nat) : List (List Cell) :=
  let networkGroups : List (String × List Cell) := cables.foldl
    (fun acc cable =>
      let srcPt := machinePt ((assocLookup machines cable.source).getD ⟨0, 0⟩)
      let dstPt := machinePt ((assocLookup machines cable.target).getD ⟨0, 0⟩)
      let net := cable.network.getD "default"
      let cur := (assocLookup acc net).getD []
      assocUpdate acc net (insertNew (insertNew cur srcPt) dstPt))
    []
  let promising := networkGroups.foldl
    (fun groups pair =>
      let netTs := pair.2
      if netTs.length < 3 then groups
      else
        netTs.foldl
          (fun groups t1 =>
            let nearby0 := netTs.foldl
              (fun nb t2 =>
                if t2 = t1 then nb
                else
                  match pr (t1, t2) with
                  | some dp => nb ++ [(dp.1, t2)]
                  | none => nb)
              ([] : List (Frac × Cell))
            let nearby := (stableSort (fun a b => a.1.leb b.1) nearby0).take 5
            nearby.foldl
              (fun groups p2 =>
                nearby.foldl
                  (fun groups p3 =>
                    let t2 := p2.2
                    let t3 := p3.2
                    if t2 = t3 then groups
                    else
                      let groups1 :=
                        if (t1.x - t2.x).natAbs + (t2.y - t3.y).natAbs <
                            (t1.x - t3.x).natAbs + (t2.y - t1.y).natAbs then
                          groups ++ [[t1, t2, t3]]
                        else groups
                      nearby.foldl
                        (fun groups p4 =>
                          let t4 := p4.2
                          if t4 = t1 ∨ t4 = t2 ∨ t4 = t3 then groups
                          else if (t3.x - t4.x).natAbs < (t1.x - t2.x).natAbs ∧
                              (t1.y - t2.y).natAbs < (t3.y - t4.y).natAbs then
                            groups ++ [[t1, t2, t3, t4]]
                          else groups)
                        groups1)
                  groups)
              groups)
          groups)
    []
  dedupGroupsCap maxGroups promising [] []

/-- `itertools.combinations(l, 2)` in iteration order. -/
def combinations2 {α : Type} : List α → List (List α)
  | [] => []
  | x :: xs => xs.map (fun y => [x, y]) ++ combinations2 xs

/-- `itertools.combinations(l, 3)` in iteration order. -/
def combinations3 {α : Type} : List α → List (List α)
  | [] => []
  | x :: xs => (combinations2 xs).map (fun p => x :: p) ++ combinations3 xs

/-- `itertools.combinations(l, 4)` in iteration order. -/
def combinations4 {α : Type} : List α → List (List α)
  | [] => []
  | x :: xs => (combinations3 xs).map (fun p => x :: p) ++ combinations4 xs

/-! ## Steiner components (`generate_all_components`,
`update_mst_with_components`) -/

structure FullComponent where
  terminals : List Cell
  steiner_points : List Cell
  connections : List (Cell × Cell)
  gain : Frac
deriving Repr

/-- `get_path(u, v)`: cached pair route, or a fresh Dijkstra cached in both
directions.  A failed Dijkstra yields `none` (the source's high-cost
`(inf, [])` placeholder, which callers detect by the empty path). -/
def getPath (dijFuel : Nat) (graph : Cell → Option (List (Cell × Frac)))
    (pr : PairRoutes) (u v : Cell) :
    Option (Frac × List Cell) × PairRoutes :=
  match pr (u, v) with
  | some r => (some r, pr)
  | none =>
    match dijkstraPath dijFuel u v graph with
    | some cp =>
      (some cp, prUpdate (prUpdate pr (u, v) cp) (v, u) (cp.1, cp.2.reverse))
    | none => (none, pr)

/-- Merged weighted cost of a family of paths: each cell (skipping each
path's first point) is counted once, weighted by `calculate_cell_weight`
at the default `redCable = 1.0`. -/
def mergedCellWeight (width height : Nat) (walls trays : List Cell)
    (paths : List (List Cell)) : Frac :=
  (paths.foldl
    (fun (acc : List Cell × Frac) path =>
      (path.drop 1).foldl
        (fun (acc : List Cell × Frac) p =>
          if p ∈ acc.1 then acc
          else (acc.1 ++ [p],
            acc.2.add (calculateCellWeight p.x p.y width height walls trays
              (Frac.ofInt 1))))
        acc)
    ([], Frac.ofInt 0)).2

/-- One connection of `component_gain`: route it (cache-first) and
append its path; a failed or empty route poisons the accumulator. -/
def cgConnStep (dijFuel : Nat) (graph : Cell → Option (List (Cell × Frac)))
    (acc : Option (List (List Cell)) × PairRoutes) (conn : Cell × Cell) :
    Option (List (List Cell)) × PairRoutes :=
  match acc.1 with
  | none => acc
  | some paths =>
    match getPath dijFuel graph acc.2 conn.1 conn.2 with
    | (gp1, gp2) =>
      match gp1 with
      | none => (none, gp2)
      | some cp =>
        if cp.2.isEmpty then (none, gp2)
        else (some (paths ++ [cp.2]), gp2)

/-- The merged weighted cost of the group's current tree paths (the
`removed` term of `component_gain`). -/
def cgRemoved (width height : Nat) (walls trays : List Cell)
    (mstEdges : List (Cell × Cell)) (pr : PairRoutes)
    (groupSet : List Cell) : Frac :=
  mergedCellWeight width height walls trays
    ((mstEdges.filter (fun e => e.1 ∈ groupSet ∧ e.2 ∈ groupSet)).map
      (fun e => ((pr e).getD (Frac.ofInt 0, [])).2))

def componentGain (dijFuel : Nat) (graph : Cell → Option (List (Cell × Frac)))
    (width height : Nat) (walls trays : List Cell)
    (mstEdges : List (Cell × Cell)) (pr : PairRoutes)
    (connections : List (Cell × Cell)) (groupSet : List Cell) :
    Frac × Option Frac × PairRoutes :=
  match connections.foldl (cgConnStep dijFuel graph) (some [], pr) with
  | (np1, np2) =>
    match np1 with
    | none => (cgRemoved width height walls trays mstEdges pr groupSet,
        none, np2)
    | some newPaths =>
      (cgRemoved width height walls trays mstEdges pr groupSet,
        some ((cgRemoved width height walls trays mstEdges pr groupSet).sub
          (mergedCellWeight width height walls trays newPaths)), np2)

def sortedInts (l : List Int) : List Int :=
  stableSort (fun a b => decide (a ≤ b)) l

/-- One pairing attempt of a 4-terminal candidate (the inner
`pair_groups` loop of `generate_all_components`). -/
def genQuadStep (dijFuel : Nat) (graph : Cell → Option (List (Cell × Frac)))
    (width height : Nat) (walls trays : List Cell)
    (mstEdges : List (Cell × Cell)) (t1 t2 t3 t4 : Cell)
    (acc : List FullComponent × PairRoutes)
    (pairs : (Cell × Cell) × (Cell × Cell)) :
    List FullComponent × PairRoutes :=
  let pA := pairs.1.1
  let pB := pairs.1.2
  let pC := pairs.2.1
  let pD := pairs.2.2
  let spA : Cell := ⟨pA.x, pB.y⟩
  let spB : Cell := ⟨pC.x, pD.y⟩
  let rA1 := dijkstraPath dijFuel spA pA graph
  let rA2 := dijkstraPath dijFuel spA pB graph
  let rB1 := dijkstraPath dijFuel spB pC graph
  let rB2 := dijkstraPath dijFuel spB pD graph
  if rA1.isNone ∨ rA2.isNone ∨ rB1.isNone ∨ rB2.isNone then acc
  else if (dijkstraPath dijFuel spA spB graph).isNone then acc
  else
    let connections :=
      [(spA, pA), (spA, pB), (spB, pC), (spB, pD), (spA, spB)]
    let cg := componentGain dijFuel graph width height walls
      trays mstEdges acc.2 connections [t1, t2, t3, t4]
    match cg.2.1 with
    | none => (acc.1, cg.2.2)
    | some gain =>
      if (Frac.ofInt 0).ltb gain then
        (acc.1 ++ [⟨[t1, t2, t3, t4], [spA, spB], connections,
          gain⟩], cg.2.2)
      else (acc.1, cg.2.2)

/-- One candidate group of `generate_all_components`: the 3-terminal
(L-shape, one Steiner point at the median) and 4-terminal (two Steiner
points) cases with their lower-bound early exits. -/
def genCompStep (dijFuel : Nat) (graph : Cell → Option (List (Cell × Frac)))
    (width height : Nat) (walls trays : List Cell)
    (mstEdges : List (Cell × Cell)) (acc : List FullComponent × PairRoutes)
    (group : List Cell) : List FullComponent × PairRoutes :=
  match group with
  | [t1, t2, t3] =>
    let groupSet := [t1, t2, t3]
    let pr := acc.2
    let removedLb := mstEdges.foldl
      (fun s e =>
        if e.1 ∈ groupSet ∧ e.2 ∈ groupSet then
          s.add ((pr e).getD (Frac.ofInt 0, [])).1
        else s)
      (Frac.ofInt 0)
    let spanLb : Int :=
      ((sortedInts [t1.x, t2.x, t3.x]).getLastD 0 -
        (sortedInts [t1.x, t2.x, t3.x]).headD 0) +
      ((sortedInts [t1.y, t2.y, t3.y]).getLastD 0 -
        (sortedInts [t1.y, t2.y, t3.y]).headD 0)
    if (removedLb.sub (Frac.ofInt spanLb)).leb (Frac.ofInt 0) then acc
    else
      let sx := ((sortedInts [t1.x, t2.x, t3.x]).drop 1).headD 0
      let sy := ((sortedInts [t1.y, t2.y, t3.y]).drop 1).headD 0
      let lbCost : Nat :=
        (sx - t1.x).natAbs + (sy - t1.y).natAbs +
        ((sx - t2.x).natAbs + (sy - t2.y).natAbs) +
        ((sx - t3.x).natAbs + (sy - t3.y).natAbs)
      if (removedLb.sub (Frac.ofInt (lbCost : Int))).leb (Frac.ofInt 0) then
        acc
      else
        let sp : Cell := ⟨sx, sy⟩
        let r1 := dijkstraPath dijFuel sp t1 graph
        let r2 := dijkstraPath dijFuel sp t2 graph
        let r3 := dijkstraPath dijFuel sp t3 graph
        if r1.isNone ∨ r2.isNone ∨ r3.isNone then acc
        else
          let cg := componentGain dijFuel graph width height walls trays
            mstEdges pr [(sp, t1), (sp, t2), (sp, t3)] groupSet
          match cg.2.1 with
          | none => (acc.1, cg.2.2)
          | some gain =>
            if (Frac.ofInt 0).ltb gain then
              (acc.1 ++ [⟨[t1, t2, t3], [sp],
                [(sp, t1), (sp, t2), (sp, t3)], gain⟩], cg.2.2)
            else (acc.1, cg.2.2)
  | [t1, t2, t3, t4] =>
    let groupSet := [t1, t2, t3, t4]
    let pr := acc.2
    let removedLb := mstEdges.foldl
      (fun s e =>
        if e.1 ∈ groupSet ∧ e.2 ∈ groupSet then
          s.add ((pr e).getD (Frac.ofInt 0, [])).1
        else s)
      (Frac.ofInt 0)
    let xs := sortedInts [t1.x, t2.x, t3.x, t4.x]
    let ys := sortedInts [t1.y, t2.y, t3.y, t4.y]
    let spanLb : Int :=
      (xs.getLastD 0 - xs.headD 0) + (ys.getLastD 0 - ys.headD 0)
    if (removedLb.sub (Frac.ofInt spanLb)).leb (Frac.ofInt 0) then acc
    else
      let cx := (xs.headD 0 + xs.getLastD 0).fdiv 2
      let cy := (ys.headD 0 + ys.getLastD 0).fdiv 2
      let lbCost : Nat := groupSet.foldl
        (fun s p => s + (p.x - cx).natAbs + (p.y - cy).natAbs) 0
      if (removedLb.sub (Frac.ofInt (lbCost : Int))).leb (Frac.ofInt 0) then
        acc
      else
        let pairGroups :=
          if (t1.x - t2.x).natAbs < (t1.y - t2.y).natAbs then
            [((t1, t2), (t3, t4))]
          else [((t1, t3), (t2, t4))]
        let pairGroups := match pairGroups with
          | [pg] => [pg, (pg.2, pg.1)]
          | l => l
        pairGroups.foldl
          (genQuadStep dijFuel graph width height walls trays mstEdges
            t1 t2 t3 t4)
          acc
  | _ => acc

/-- Embedding of `generate_all_components`: candidate 3- and 4-terminal
Steiner components with positive gain, sorted by gain (descending,
stable).  The Python function mutates `pair_routes` through `get_path`;
the updated cache is returned alongside.  The source repeats the
3-terminal median lower-bound check three times verbatim; the repeats are
pure recomputation and are folded into one here. -/
def generateAllComponents (dijFuel : Nat) (terminals : List Cell)
    (mstEdges : List (Cell × Cell)) (pr0 : PairRoutes)
    (graph : Cell → Option (List (Cell × Frac))) (width height : Nat)
    (walls trays : List Cell) (cables : List Cable)
    (machines : List (String × Machine)) : List FullComponent × PairRoutes :=
  match (if ¬ cables.isEmpty ∧ ¬ machines.isEmpty then
      findPromisingTerminalGroups pr0 cables machines 50
    else
      combinations3 terminals ++ combinations4 terminals).foldl
    (genCompStep dijFuel graph width height walls trays mstEdges)
    ([], pr0) with
  | (comps, prF) => (stableSort (fun a b => b.gain.leb a.gain) comps, prF)

/-- Embedding of `update_mst_with_components`.  `list(points)` iterates a
CPython set; the embedding fixes first-insertion order (edges in order,
then Steiner points), which only affects tie-breaking between equal-cost
MST edges. -/
def updateMstWithComponents (mstFuel dijFuel : Nat)
    (mstEdges : List (Cell × Cell)) (comps : List FullComponent)
    (pr : PairRoutes) (graph : Cell → Option (List (Cell × Frac))) :
    List (Cell × Cell) × PairRoutes :=
  let points0 := mstEdges.foldl (fun ps e => insertNew (insertNew ps e.1) e.2) []
  let pp := comps.foldl
    (fun (acc : List Cell × PairRoutes) comp =>
      let ps := comp.steiner_points.foldl insertNew acc.1
      let pr2 := comp.connections.foldl
        (fun pr c =>
          match pr c with
          | some _ => pr
          | none =>
            match dijkstraPath dijFuel c.1 c.2 graph with
            | some cp =>
              prUpdate (prUpdate pr c cp) (c.2, c.1) (cp.1, cp.2.reverse)
            | none => pr)
        acc.2
      (ps, pr2))
    (points0, pr)
  (findWallAwareMst mstFuel pp.1 pp.2, pp.2)

/-! ## The optimize-paths endpoint (`optimize_cable_paths`) -/

structure OptState where
  mstEdges : List (Cell × Cell)
  pairRoutes : PairRoutes
  currentLength : Frac
  usedSteinerPoints : List Cell
  terminals : List Cell
  passesUsed : Nat
  totalCompsUsed : Nat

/-- One candidate evaluation of the inner loop: rebuild the tree with the
component, measure the improvement, keep the best (strictly better than
the best so far — first best wins ties). -/
def optEvalStep (dijFuel mstFuel : Nat)
    (graph : Cell → Option (List (Cell × Frac))) (st1 : OptState)
    (acc : PairRoutes × Frac × Option (FullComponent × List (Cell × Cell)))
    (comp : FullComponent) :
    PairRoutes × Frac × Option (FullComponent × List (Cell × Cell)) :=
  match updateMstWithComponents mstFuel dijFuel st1.mstEdges [comp] acc.1
    graph with
  | (newEdges, newPr) =>
    if acc.2.1.ltb (st1.currentLength.sub (mstTotalLength newEdges newPr))
    then
      (newPr, st1.currentLength.sub (mstTotalLength newEdges newPr),
        some (comp, newEdges))
    else (newPr, acc.2.1, acc.2.2)

/-- Adopt the best component: new tree, subtracted length, recorded
Steiner points and extended terminal list. -/
def optAdopt (st1 : OptState)
    (ev : PairRoutes × Frac × Option (FullComponent × List (Cell × Cell)))
    (best : FullComponent × List (Cell × Cell)) : OptState :=
  { st1 with
    pairRoutes := ev.1
    mstEdges := best.2
    currentLength := st1.currentLength.sub ev.2.1
    usedSteinerPoints := best.1.steiner_points.foldl insertNew
      st1.usedSteinerPoints
    terminals := st1.terminals ++
      best.1.steiner_points.filter (fun sp => ¬ sp ∈ st1.terminals)
    totalCompsUsed := st1.totalCompsUsed + 1 }

/-- The inner `while True` improvement loop of a pass.  Returns the final
state together with `improved_any`. -/
def optInnerLoop (dijFuel mstFuel : Nat)
    (graph : Cell → Option (List (Cell × Frac))) (width height : Nat)
    (walls trays : List Cell) (cables : List Cable)
    (machines : List (String × Machine)) :
    Nat → OptState → OptState × Bool
  | 0, st => (st, false)
  | fuel + 1, st =>
    match generateAllComponents dijFuel st.terminals st.mstEdges
      st.pairRoutes graph width height walls trays cables machines with
    | (comps, pr2) =>
      if comps.isEmpty then ({ st with pairRoutes := pr2 }, false)
      else
        match comps.foldl
          (optEvalStep dijFuel mstFuel graph { st with pairRoutes := pr2 })
          (pr2, Frac.ofInt 0, none) with
        | (prF, imp, bestOpt) =>
          match bestOpt with
          | some best =>
            ((optInnerLoop dijFuel mstFuel graph width height walls trays
              cables machines fuel
              (optAdopt { st with pairRoutes := pr2 } (prF, imp, some best)
                best)).1, true)
          | none => ({ st with pairRoutes := prF }, false)

/-- The outer `for pass_id in range(1, max_passes+1)` loop. -/
def optPasses (dijFuel mstFuel innerFuel : Nat)
    (graph : Cell → Option (List (Cell × Frac))) (width height : Nat)
    (walls trays : List Cell) (cables : List Cable)
    (machines : List (String × Machine)) :
    Nat → Nat → OptState → OptState
  | 0, _, st => st
  | passes + 1, passId, st =>
    match optInnerLoop dijFuel mstFuel graph width height walls trays
      cables machines innerFuel st with
    | (st2, improved) =>
      if improved then
        optPasses dijFuel mstFuel innerFuel graph width height walls trays
          cables machines passes (passId + 1)
          { st2 with passesUsed := passId }
      else st2

/-- `net_name = network_lookup.get(cb.cableFunction) or cb.network or
"default"` (Python `or` treats the empty string as false). -/
def fallbackNetName (networkLookup : String → Option String) (cb : Cable) :
    String :=
  let fromNet : String :=
    match cb.network with
    | some nw => if nw = "" then "default" else nw
    | none => "default"
  match cb.cableFunction.bind networkLookup with
  | some nm => if nm = "" then fromNet else nm
  | none => fromNet

/-- The valid-cable filter: both endpoint machine ids must exist. -/
def validCablesOf (config : GridConfig) : List Cable :=
  config.cables.filter
    (fun cb => (assocLookup config.machines cb.source).isSome ∧
      (assocLookup config.machines cb.target).isSome)

def optTrays (config : GridConfig) : List Cell :=
  dedupKeepOrder config.trays

/-- The blocked cells of the request: deduplicated walls minus
perforations (perforations override walls). -/
def optWalls (config : GridConfig) : List Cell :=
  (dedupKeepOrder config.walls).filter
    (fun w => ¬ w ∈ dedupKeepOrder config.perforations)

/-- The weighted graph of the endpoint (only `red_cable = 1.0` is ever
requested from the graph cache). -/
def optGraph (config : GridConfig) : Cell → Option (List (Cell × Frac)) :=
  buildWeightedGraph config.width config.height (optWalls config)
    (optTrays config) (Frac.ofInt 1)
    (bfsDistanceMap config.width config.height (optWalls config))
    (bfsDistanceMap config.width config.height (optTrays config))

def optTerminals (config : GridConfig) : List Cell :=
  config.machines.map (fun m => machinePt m.2)

def optMst (dijFuel mstFuel : Nat) (config : GridConfig) :
    Option (List (Cell × Cell) × PairRoutes) :=
  buildMstLazy mstFuel dijFuel (optTerminals config) (optGraph config)

/-- The successful lazy-MST value.  The default is never exposed: the
endpoint returns `none` (HTTP 500) without touching the rest of the
pipeline when `optMst` fails. -/
def optMstD (dijFuel mstFuel : Nat) (config : GridConfig) :
    List (Cell × Cell) × PairRoutes :=
  (optMst dijFuel mstFuel config).getD ([], fun _ => none)

def optInitLength (dijFuel mstFuel : Nat) (config : GridConfig) : Frac :=
  mstTotalLength (optMstD dijFuel mstFuel config).1
    (optMstD dijFuel mstFuel config).2

def optSt0 (dijFuel mstFuel : Nat) (config : GridConfig) : OptState :=
  ⟨(optMstD dijFuel mstFuel config).1, (optMstD dijFuel mstFuel config).2,
    optInitLength dijFuel mstFuel config, [], optTerminals config, 0, 0⟩

/-- The optimiser state after the (up to five) improvement passes. -/
def optStF (dijFuel mstFuel innerFuel : Nat) (config : GridConfig) :
    OptState :=
  optPasses dijFuel mstFuel innerFuel (optGraph config) config.width
    config.height (optWalls config) (optTrays config) (validCablesOf config)
    config.machines 5 1 (optSt0 dijFuel mstFuel config)

def cableSrcPt (config : GridConfig) (cb : Cable) : Cell :=
  machinePt ((assocLookup config.machines cb.source).getD ⟨0, 0⟩)

def cableTgtPt (config : GridConfig) (cb : Cable) : Cell :=
  machinePt ((assocLookup config.machines cb.target).getD ⟨0, 0⟩)

/-- The per-cable end-to-end route of the final tree. -/
def step8Route (routeFuel : Nat) (config : GridConfig) (st : OptState)
    (cb : Cable) : List Cell :=
  findCableRoute routeFuel (cableSrcPt config cb) (cableTgtPt config cb)
    st.mstEdges st.pairRoutes

/-- `actual_length = (len(route) - 1) * grid_resolution`. -/
def step8Actual (routeFuel : Nat) (config : GridConfig) (st : OptState)
    (cb : Cable) : Frac :=
  (Frac.ofInt (((step8Route routeFuel config st cb).length - 1 : Nat) :
    Int)).mul config.gridResolution

/-- The problematic-cable record built in the length-check step. -/
def step8Record (routeFuel : Nat) (config : GridConfig) (st : OptState)
    (cb : Cable) (expected : Frac) : ProblematicCable :=
  ⟨cb.cableLabel, cb.source, cb.target, expected,
    step8Actual routeFuel config st cb,
    (Frac.ofInt ((manhattan (cableSrcPt config cb) (cableTgtPt config cb) :
      Nat) : Int)).mul config.gridResolution,
    (step8Actual routeFuel config st cb).sub expected,
    ((Frac.ofInt 100).mul ((step8Actual routeFuel config st cb).sub
      expected)).div expected⟩

/-- One cable of the route-collection / length-check step (step 8).
`none` models the `ZeroDivisionError` raised when the excess percentage
is computed against a declared length of 0. -/
def step8Cable (routeFuel : Nat) (config : GridConfig) (st : OptState)
    (acc : List (String × List Cell) × List ProblematicCable) (cb : Cable) :
    Option (List (String × List Cell) × List ProblematicCable) :=
  match parseLength cb.length with
  | none =>
    some (assocUpdate acc.1 (cableId cb) (step8Route routeFuel config st cb),
      acc.2)
  | some expected =>
    if (step8Actual routeFuel config st cb).leb expected ∧
        (cb.source ≠ "CUS" ∨ cb.target ≠ "CUS") then
      some (assocUpdate acc.1 (cableId cb)
        (step8Route routeFuel config st cb), acc.2)
    else
      if expected.eqb (Frac.ofInt 0) then none
      else
        some (assocUpdate acc.1 (cableId cb)
          (step8Route routeFuel config st cb),
          acc.2 ++ [step8Record routeFuel config st cb expected])

/-- The step-8 fold over a cable list, short-circuiting on failure. -/
def step8Fold (routeFuel : Nat) (config : GridConfig) (st : OptState)
    (l : List Cable)
    (acc0 : Option (List (String × List Cell) × List ProblematicCable)) :
    Option (List (String × List Cell) × List ProblematicCable) :=
  l.foldl
    (fun acc cb =>
      match acc with
      | none => none
      | some rp => step8Cable routeFuel config st rp cb)
    acc0

/-- Step 8 of the endpoint over all valid cables. -/
def optStep8 (dijFuel mstFuel routeFuel innerFuel : Nat)
    (config : GridConfig) :
    Option (List (String × List Cell) × List ProblematicCable) :=
  step8Fold routeFuel config (optStF dijFuel mstFuel innerFuel config)
    (validCablesOf config) (some ([], []))

/-- The grouped sections produced by `convert_to_sections`. -/
def optSections0 (dijFuel mstFuel routeFuel innerFuel : Nat)
    (config : GridConfig) : List Section :=
  convertToSections routeFuel config.gridResolution
    (optStF dijFuel mstFuel innerFuel config).mstEdges (validCablesOf config)
    config.machines config.networks
    (optStF dijFuel mstFuel innerFuel config).pairRoutes

/-- Steiner points reported to the client: the optimiser's adopted points
plus the T-junctions detected in the final tree. -/
def optAllSteiner (dijFuel mstFuel innerFuel : Nat) (config : GridConfig) :
    List Cell :=
  (detectSteinerPoints
    (buildMstAdjacency (optStF dijFuel mstFuel innerFuel config).mstEdges
      (optStF dijFuel mstFuel innerFuel config).pairRoutes)).foldl insertNew
    (optStF dijFuel mstFuel innerFuel config).usedSteinerPoints

/-- The fallback section appended for a cable absent from every grouped
section: its points are the cable route itself and its stroke width is
the constant 4. -/
def fallbackSection (config : GridConfig)
    (cb : Cable) (cid : String) (route : List Cell) : Section :=
  ⟨route, [cid], some (fallbackNetName (networkLookupOf config.networks) cb),
    [(cid, ⟨cb.cableLabel, cb.source, cb.target,
      cb.originalSource, cb.originalTarget, cb.diameter,
      cb.cableFunction,
      some (fallbackNetName (networkLookupOf config.networks) cb),
      cb.cableType,
      some ((Frac.ofInt ((route.length - 1 : Nat) : Int)).mul
        config.gridResolution), cb.length⟩)],
    Frac.ofInt 4⟩

/-- The fallback pass: append a single-cable section for every collected
route whose cable appears in no grouped section. -/
def optFallbackFold (config : GridConfig) (cablesInSections : List String)
    (routes : List (String × List Cell)) (sections0 : List Section) :
    List Section :=
  routes.foldl
    (fun secs pair =>
      if pair.1 ∈ cablesInSections then secs
      else
        match (validCablesOf config).find? (fun c => cableId c = pair.1) with
        | none => secs
        | some cb => secs ++ [fallbackSection config cb pair.1 pair.2])
    sections0

/-- The cable ids already covered by some grouped section. -/
def optCablesInSections (dijFuel mstFuel routeFuel innerFuel : Nat)
    (config : GridConfig) : List String :=
  (optSections0 dijFuel mstFuel routeFuel innerFuel config).foldl
    (fun s sec => sec.cables.foldl insertNew s) ([] : List String)

/-- Final per-cable routes: the `for i in (0, 5)` loop near the end of
the source recomputes every cable route with identical results; it is
embedded as one recomputation on top of the step-8 routes. -/
def optCableRoutes (dijFuel mstFuel routeFuel innerFuel : Nat)
    (config : GridConfig) (routes0 : List (String × List Cell)) :
    List (String × List Cell) :=
  (validCablesOf config).foldl
    (fun routes cb =>
      assocUpdate routes (cableId cb)
        (step8Route routeFuel config (optStF dijFuel mstFuel innerFuel config)
          cb))
    routes0

/-- Assembly of the response from the step-8 result: fallback sections,
final routes, Hanan grid, debug info. -/
def optAssemble (dijFuel mstFuel routeFuel innerFuel : Nat)
    (config : GridConfig)
    (rp : List (String × List Cell) × List ProblematicCable) :
    RoutingResponse :=
  let stF := optStF dijFuel mstFuel innerFuel config
  let initLength := optInitLength dijFuel mstFuel config
  let improvementPct :=
    if (Frac.ofInt 0).ltb initLength then
      ((Frac.ofInt 100).mul (initLength.sub stF.currentLength)).div initLength
    else Frac.ofInt 0
  let allSteiner := optAllSteiner dijFuel mstFuel innerFuel config
  let hanan := calculateHananGrid (stF.terminals ++ allSteiner)
  let sections1 := optFallbackFold config
    (optCablesInSections dijFuel mstFuel routeFuel innerFuel config) rp.1
    (optSections0 dijFuel mstFuel routeFuel innerFuel config)
  let sections2 := sections1.filter (fun sec => ¬ sec.cables.isEmpty)
  ⟨sections2, optCableRoutes dijFuel mstFuel routeFuel innerFuel config rp.1,
    hanan.1, hanan.2, allSteiner,
    ⟨initLength, stF.currentLength, improvementPct, allSteiner.length,
      sections2.length, 0, stF.totalCompsUsed, stF.passesUsed⟩,
    rp.2⟩

/-- Embedding of the `optimize_cable_paths` endpoint.  `none` models an
uncaught exception re-raised as HTTP 500: the `KeyError` of
`_dijkstra_to_targets` when the first terminal sits on a blocked cell
(then `build_mst_lazy` raises before anything else runs), and the
`ZeroDivisionError` in the excess-percentage computation when a declared
length parses to 0.  On the `some` branch `optMstD` is the successful
MST value. -/
def optimizeCablePaths (dijFuel mstFuel routeFuel innerFuel : Nat)
    (config : GridConfig) : Option RoutingResponse :=
  match optMst dijFuel mstFuel config with
  | none => none
  | some _ => (optStep8 dijFuel mstFuel routeFuel innerFuel config).map
      (optAssemble dijFuel mstFuel routeFuel innerFuel config)

/-! ## Concrete request configurations exercising the endpoint -/

/-- A cable between machines `A` and `B` declared at 0.5 m. -/
def trayCable : Cable :=
  ⟨some "T1", "A", "B", none, none, none, none, some "red", none, some "0,5m"⟩

/-- A 5×3 grid with a cable-tray row that makes the cheapest route longer
than the direct one: the route found for `T1` has 8 edges (0.8 m) against
a declared ceiling of 0.5 m, while a direct 4-edge (0.4 m) path exists. -/
def cfgTray : GridConfig :=
  { gridResolution := ⟨1, 10⟩
    width := 5
    height := 3
    walls := []
    trays := [⟨0, 2⟩, ⟨1, 2⟩, ⟨2, 2⟩, ⟨3, 2⟩, ⟨4, 2⟩]
    perforations := []
    machines := [("A", ⟨0, 0⟩), ("B", ⟨4, 0⟩)]
    cables := [trayCable]
    networks := [⟨"red", []⟩] }

/-- A cable whose endpoints a wall disconnects. -/
def islandCable : Cable :=
  ⟨some "K1", "A", "B", none, none, none, none, none, none, none⟩

/-- A 3×1 grid split by a wall: machine `B` sits on a fully walled-off
island, so `K1` cannot be routed. -/
def cfgIsland : GridConfig :=
  { gridResolution := ⟨1, 10⟩
    width := 3
    height := 1
    walls := [⟨1, 0⟩]
    trays := []
    perforations := []
    machines := [("A", ⟨0, 0⟩), ("B", ⟨2, 0⟩)]
    cables := [islandCable]
    networks := [] }

/-- A 2×1 grid whose first machine `A` sits on a wall cell: the initial
`_dijkstra_to_targets` run pops `A` and `graph[A]` raises `KeyError`. -/
def cfgBlocked : GridConfig :=
  { gridResolution := ⟨1, 10⟩
    width := 2
    height := 1
    walls := [⟨0, 0⟩]
    trays := []
    perforations := []
    machines := [("A", ⟨0, 0⟩), ("B", ⟨1, 0⟩)]
    cables := [islandCable]
    networks := [] }

/-- A customer-to-customer cable with a declared length of 1 m. -/
def cusCable : Cable :=
  ⟨some "C1", "CUS", "CUS", none, none, none, none, none, none, some "1m"⟩

/-- A 1×1 grid whose only machine is named `CUS`, with a `CUS → CUS`
cable declared at 1 m (its route, 0 m, is within the ceiling). -/
def cfgCus : GridConfig :=
  { gridResolution := ⟨1, 10⟩
    width := 1
    height := 1
    walls := []
    trays := []
    perforations := []
    machines := [("CUS", ⟨0, 0⟩)]
    cables := [cusCable]
    networks := [] }

/-- The same `CUS → CUS` cable with a declared length of 0 m. -/
def cusCable0 : Cable :=
  ⟨some "C1", "CUS", "CUS", none, none, none, none, none, none, some "0m"⟩

/-- `cfgCus` with the cable declared at 0 m. -/
def cfgCus0 : GridConfig :=
  { cfgCus with cables := [cusCable0] }

/-- The all-empty response, used as a `getD` default below. -/
def emptyResponse : RoutingResponse :=
  ⟨[], [], [], [], [],
    ⟨Frac.ofInt 0, Frac.ofInt 0, Frac.ofInt 0, 0, 0, 0, 0, 0⟩, []⟩

/-- The response computed for `cfgTray`. -/
def rTray : RoutingResponse :=
  (optimizeCablePaths 50 20 50 5 cfgTray).getD emptyResponse

/-- The response computed for `cfgIsland`. -/
def rIsland : RoutingResponse :=
  (optimizeCablePaths 50 20 50 5 cfgIsland).getD emptyResponse

/-- The response computed for `cfgCus`. -/
def rCus : RoutingResponse :=
  (optimizeCablePaths 50 20 50 5 cfgCus).getD emptyResponse

/-! ## Claim C2: the weight tables -/

/-- C2 counterexample: at `distWall = 1` (and no trays, `redCable = 1`)
the per-cell weight used in gain scoring, `calculate_cell_weight`, yields
3, not the 3.5 of the spec table. -/
theorem C2_cell_weight_counterexample :
    (calculateCellWeight 0 0 3 1 [⟨1, 0⟩] [] (Frac.ofInt 1)).toRat ≠
      specTableWeight (minManhattanTo [⟨1, 0⟩] ⟨0, 0⟩)
        (minManhattanTo [] ⟨0, 0⟩) (Frac.ofInt 1).toRat := by
  have hcode : calculateCellWeight 0 0 3 1 [⟨1, 0⟩] [] (Frac.ofInt 1) =
      ⟨30, 10⟩ := by decide
  have hdw : minManhattanTo [(⟨1, 0⟩ : Cell)] ⟨0, 0⟩ = some 1 := by decide
  have hdt : minManhattanTo ([] : List Cell) ⟨0, 0⟩ = none := rfl
  rw [hcode, hdw, hdt]
  have hone : (Frac.ofInt 1).toRat = 1 := by norm_num [Frac.ofInt, Frac.toRat]
  rw [hone]
  have hspec : specTableWeight (some 1) none 1 = 3.5 := by
    simp [specTableWeight]
  rw [hspec]
  norm_num [Frac.toRat]

/-- C2 (amended): the edge weight used to build the routing graph,
`_compute_weight`, matches the spec table exactly; the per-cell weight
used in candidate gain scoring, `calculate_cell_weight`, instead follows
a table with tray value −0.4, multipliers 0.3 / 0.5 / 0.7 and no
`redCable` factor in the far branch. -/
theorem C2_weight_tables (dw dt : Option Nat) (r : Frac) (hr : r.Pos)
    (x y : Int) (w h : Nat) (walls trays : List Cell) :
    (computeWeight dw dt r).toRat = specTableWeight dw dt r.toRat ∧
    (calculateCellWeight x y w h walls trays r).toRat =
      gainCellTable (minManhattanTo walls ⟨x, y⟩)
        (minManhattanTo trays ⟨x, y⟩) r.toRat :=
  ⟨computeWeight_eq_specTable dw dt r hr,
   calculateCellWeight_eq_gainTable x y w h walls trays r hr⟩

/-- Witness for `C2_weight_tables` at `redCable = 1/2`, `distWall = 2`. -/
theorem C2_weight_tables_witness :
    (⟨1, 2⟩ : Frac).Pos ∧
    ((computeWeight (some 2) none ⟨1, 2⟩).toRat =
        specTableWeight (some 2) none (Frac.toRat ⟨1, 2⟩) ∧
      (calculateCellWeight 0 0 3 1 [⟨1, 0⟩] [] ⟨1, 2⟩).toRat =
        gainCellTable (minManhattanTo [⟨1, 0⟩] ⟨0, 0⟩)
          (minManhattanTo [] ⟨0, 0⟩) (Frac.toRat ⟨1, 2⟩)) :=
  ⟨by decide,
   C2_weight_tables (some 2) none ⟨1, 2⟩ (by decide) 0 0 3 1 [⟨1, 0⟩] []⟩

/-! ## Claim C5: the BFS distance transform -/

/-- C5: on every in-grid cell the BFS distance transform equals the
minimum Manhattan distance to an in-grid seed, `none` (+∞) when the seed
set contributes no in-grid cell; blocked cells are traversed and assigned
like any other cell. -/
theorem C5_bfs_distance_map (width height : Nat) (sources : List Cell)
    (c : Cell) (hc : inGrid width height c = true) :
    bfsDistanceMap width height sources c =
      minManhattanGrid width height sources c :=
  bfsDistanceMap_correct width height sources c hc

/-- Witness for `C5_bfs_distance_map` on a 5×3 grid with two seeds. -/
theorem C5_bfs_distance_map_witness :
    inGrid 5 3 ⟨1, 1⟩ = true ∧
    bfsDistanceMap 5 3 [⟨0, 0⟩, ⟨4, 2⟩] ⟨1, 1⟩ =
      minManhattanGrid 5 3 [⟨0, 0⟩, ⟨4, 2⟩] ⟨1, 1⟩ :=
  ⟨by decide, C5_bfs_distance_map 5 3 [⟨0, 0⟩, ⟨4, 2⟩] ⟨1, 1⟩ (by decide)⟩

/-! ## Claim C8: determinism of the endpoint -/

/-- C8: the endpoint is deterministic — two runs on identical
`GridConfig` inputs return identical responses.  The embedding is a pure
function of the request: every iteration order the source leaves to
CPython runtime state (set and dict orders) is fixed by it, so this holds
by congruence. -/
theorem C8_deterministic (dijFuel mstFuel routeFuel innerFuel : Nat)
    (cfg1 cfg2 : GridConfig) (h : cfg1 = cfg2) :
    optimizeCablePaths dijFuel mstFuel routeFuel innerFuel cfg1 =
      optimizeCablePaths dijFuel mstFuel routeFuel innerFuel cfg2 := by
  rw [h]

/-- Witness for `C8_deterministic` on `cfgTray`. -/
theorem C8_deterministic_witness :
    cfgTray = cfgTray ∧
    optimizeCablePaths 50 20 50 5 cfgTray =
      optimizeCablePaths 50 20 50 5 cfgTray :=
  ⟨rfl, C8_deterministic 50 20 50 5 cfgTray cfgTray rfl⟩

/-! ## Counterexample parts of claims C4, C9 and C10 -/

/-- C4 counterexample: the unreachable cable `K1` of `cfgIsland` is not
omitted from `cableRoutes` — its key is present, mapped to the empty
route (and the request does succeed). -/
theorem C4_cableRoutes_counterexample :
    (optimizeCablePaths 50 20 50 5 cfgIsland).map
      (fun r => assocLookup r.cableRoutes "K1") = some (some []) := by
  decide

/-- C9 counterexample: `cfgIsland`'s only returned section lists one
cable but has stroke width 4, while `4 + min(1 · 0.75, 15) = 4.75`. -/
theorem C9_strokeWidth_counterexample :
    (optimizeCablePaths 50 20 50 5 cfgIsland).map
      (fun r => r.sections.map (fun s => (s.cables.length, s.strokeWidth))) =
      some [(1, Frac.ofInt 4)] ∧
    (strokeWidthOf 1).eqb (Frac.ofInt 4) = false :=
  ⟨by decide, by decide⟩

/-- C10 counterexample: the declared length `"0m"` parses to a number,
yet the endpoint does not record the `CUS → CUS` cable — it fails with
an uncaught `ZeroDivisionError` (HTTP 500) instead. -/
theorem C10_zero_length_counterexample :
    parseLength cusCable0.length = some ⟨0, 1⟩ ∧
    optimizeCablePaths 50 20 50 5 cfgCus0 = none :=
  ⟨by decide, by decide⟩

/-! ## Dictionary lemmas -/

theorem assocLookup_cons {α β : Type} [DecidableEq α] (p : α × β)
    (t : List (α × β)) (k : α) :
    assocLookup (p :: t) k =
      if p.1 = k then some p.2 else assocLookup t k := by
  by_cases hp : p.1 = k
  · simp [assocLookup, List.find?_cons, hp]
  · simp [assocLookup, List.find?_cons, hp]

theorem assocLookup_append_right {α β : Type} [DecidableEq α]
    (l l' : List (α × β)) (k : α) (hl : l.all (fun p => ¬ p.1 = k)) :
    assocLookup (l ++ l') k = assocLookup l' k := by
  induction l with
  | nil => rfl
  | cons p t ih =>
    simp only [List.all_cons, Bool.and_eq_true, decide_eq_true_eq] at hl
    rw [List.cons_append, assocLookup_cons, if_neg hl.1]
    exact ih hl.2

theorem assocLookup_update_self {α β : Type} [DecidableEq α]
    (l : List (α × β)) (k : α) (v : β) :
    assocLookup (assocUpdate l k v) k = some v := by
  induction l with
  | nil => simp [assocUpdate, assocLookup_cons]
  | cons p t ih =>
    by_cases hp : p.1 = k
    · simp [assocUpdate, List.any_cons, hp, assocLookup_cons]
    · by_cases ht : t.any (fun q => q.1 = k) = true
      · have h1 : assocUpdate (p :: t) k v =
            p :: t.map (fun q => if q.1 = k then (k, v) else q) := by
          simp [assocUpdate, List.any_cons, hp, ht]
        have h2 : assocUpdate t k v =
            t.map (fun q => if q.1 = k then (k, v) else q) := by
          simp [assocUpdate, ht]
        rw [h1, assocLookup_cons, if_neg hp, ← h2, ih]
      · have h1 : assocUpdate (p :: t) k v = p :: (t ++ [(k, v)]) := by
          simp [assocUpdate, List.any_cons, hp, ht]
        have h2 : assocUpdate t k v = t ++ [(k, v)] := by
          simp [assocUpdate, ht]
        rw [h1, assocLookup_cons, if_neg hp, ← h2, ih]

theorem assocLookup_map_update_ne {α β : Type} [DecidableEq α]
    (l : List (α × β)) (k' k : α) (v : β) (hk : k' ≠ k) :
    assocLookup (l.map (fun q => if q.1 = k' then (k', v) else q)) k =
      assocLookup l k := by
  induction l with
  | nil => rfl
  | cons p t ih =>
    rw [List.map_cons]
    by_cases hp : p.1 = k'
    · rw [if_pos hp, assocLookup_cons, assocLookup_cons, if_neg hk,
        if_neg (fun h => hk (hp.symm.trans h))]
      exact ih
    · rw [if_neg hp, assocLookup_cons, assocLookup_cons]
      by_cases hpk : p.1 = k
      · rw [if_pos hpk, if_pos hpk]
      · rw [if_neg hpk, if_neg hpk]
        exact ih

theorem assocLookup_append {α β : Type} [DecidableEq α]
    (l l' : List (α × β)) (k : α) :
    assocLookup (l ++ l') k =
      match assocLookup l k with
      | some v => some v
      | none => assocLookup l' k := by
  induction l with
  | nil => rfl
  | cons p t ih =>
    rw [List.cons_append, assocLookup_cons, assocLookup_cons]
    by_cases hp : p.1 = k
    · rw [if_pos hp, if_pos hp]
    · rw [if_neg hp, if_neg hp]
      exact ih

theorem assocLookup_update_ne {α β : Type} [DecidableEq α]
    (l : List (α × β)) (k' k : α) (v : β) (hk : k' ≠ k) :
    assocLookup (assocUpdate l k' v) k = assocLookup l k := by
  unfold assocUpdate
  split
  · exact assocLookup_map_update_ne l k' k v hk
  · rw [assocLookup_append]
    have h1 : assocLookup [(k', v)] k = none := by
      rw [assocLookup_cons, if_neg hk]
      rfl
    rw [h1]
    cases assocLookup l k <;> rfl

theorem assocLookup_foldl_update_isSome_mono {α β γ : Type} [DecidableEq α]
    (g : γ → α) (v : γ → β) (l : List γ) :
    ∀ (init : List (α × β)) (k : α), (assocLookup init k).isSome = true →
      (assocLookup (l.foldl (fun acc x => assocUpdate acc (g x) (v x)) init)
        k).isSome = true := by
  induction l with
  | nil => intro init k h; exact h
  | cons hd tl ih =>
    intro init k h
    rw [List.foldl_cons]
    apply ih
    by_cases hg : g hd = k
    · rw [hg, assocLookup_update_self]
      rfl
    · rw [assocLookup_update_ne _ _ _ _ hg]
      exact h

theorem assocLookup_foldl_update_key {α β γ : Type} [DecidableEq α]
    (g : γ → α) (v : γ → β) (l : List γ) :
    ∀ (init : List (α × β)) (c : γ), c ∈ l →
      (assocLookup (l.foldl (fun acc x => assocUpdate acc (g x) (v x)) init)
        (g c)).isSome = true := by
  induction l with
  | nil => intro init c hc; simp at hc
  | cons hd tl ih =>
    intro init c hc
    rw [List.foldl_cons]
    rcases List.mem_cons.mp hc with h | h
    · apply assocLookup_foldl_update_isSome_mono
      rw [h, assocLookup_update_self]
      rfl
    · exact ih _ c h

/-! ## Step-8 characterisation lemmas -/

theorem step8Cable_routes {rf : Nat} {cfg : GridConfig} {st : OptState}
    {acc rp' : List (String × List Cell) × List ProblematicCable}
    {cb : Cable} (h : step8Cable rf cfg st acc cb = some rp') :
    rp'.1 = assocUpdate acc.1 (cableId cb) (step8Route rf cfg st cb) := by
  unfold step8Cable at h
  cases hp : parseLength cb.length with
  | none =>
    simp only [hp] at h
    injection h with h2
    rw [← h2]
  | some L =>
    simp only [hp] at h
    split at h
    · injection h with h2
      rw [← h2]
    · split at h
      · exact Option.noConfusion h
      · injection h with h2
        rw [← h2]

theorem step8Cable_pc_mono {rf : Nat} {cfg : GridConfig} {st : OptState}
    {acc rp' : List (String × List Cell) × List ProblematicCable}
    {cb : Cable} (h : step8Cable rf cfg st acc cb = some rp') :
    ∀ pc ∈ acc.2, pc ∈ rp'.2 := by
  intro pc hpc
  unfold step8Cable at h
  cases hp : parseLength cb.length with
  | none =>
    simp only [hp] at h
    injection h with h2
    rw [← h2]
    exact hpc
  | some L =>
    simp only [hp] at h
    split at h
    · injection h with h2
      rw [← h2]
      exact hpc
    · split at h
      · exact Option.noConfusion h
      · injection h with h2
        rw [← h2]
        exact List.mem_append_left _ hpc

theorem step8Cable_records {rf : Nat} {cfg : GridConfig} {st : OptState}
    {acc rp' : List (String × List Cell) × List ProblematicCable}
    {cb : Cable} {L : Frac} (hL : parseLength cb.length = some L)
    (hcond : ¬((step8Actual rf cfg st cb).leb L = true ∧
      (cb.source ≠ "CUS" ∨ cb.target ≠ "CUS")))
    (h : step8Cable rf cfg st acc cb = some rp') :
    rp'.2 = acc.2 ++ [step8Record rf cfg st cb L] := by
  unfold step8Cable at h
  simp only [hL] at h
  split at h
  · next hc => exact absurd hc hcond
  · split at h
    · exact Option.noConfusion h
    · injection h with h2
      rw [← h2]

theorem step8Fold_none (rf : Nat) (cfg : GridConfig) (st : OptState)
    (l : List Cable) : step8Fold rf cfg st l none = none := by
  induction l with
  | nil => rfl
  | cons hd tl ih =>
    unfold step8Fold at ih ⊢
    rw [List.foldl_cons]
    exact ih

theorem step8Fold_cons (rf : Nat) (cfg : GridConfig) (st : OptState)
    (hd : Cable) (tl : List Cable)
    (acc0 : List (String × List Cell) × List ProblematicCable) :
    step8Fold rf cfg st (hd :: tl) (some acc0) =
      step8Fold rf cfg st tl (step8Cable rf cfg st acc0 hd) := rfl

theorem step8Fold_pc_mono (rf : Nat) (cfg : GridConfig) (st : OptState)
    (l : List Cable) :
    ∀ (acc0 rp : List (String × List Cell) × List ProblematicCable),
      step8Fold rf cfg st l (some acc0) = some rp →
      ∀ pc ∈ acc0.2, pc ∈ rp.2 := by
  induction l with
  | nil =>
    intro acc0 rp h pc hpc
    injection h with h2
    rw [← h2]
    exact hpc
  | cons hd tl ih =>
    intro acc0 rp h pc hpc
    rw [step8Fold_cons] at h
    cases hc : step8Cable rf cfg st acc0 hd with
    | none =>
      rw [hc, step8Fold_none] at h
      exact Option.noConfusion h
    | some acc1 =>
      rw [hc] at h
      exact ih acc1 rp h pc (step8Cable_pc_mono hc pc hpc)

theorem step8Fold_record_mem (rf : Nat) (cfg : GridConfig) (st : OptState)
    (cb : Cable) (L : Frac) (hL : parseLength cb.length = some L)
    (hcond : ¬((step8Actual rf cfg st cb).leb L = true ∧
      (cb.source ≠ "CUS" ∨ cb.target ≠ "CUS")))
    (l : List Cable) :
    ∀ (acc0 rp : List (String × List Cell) × List ProblematicCable),
      cb ∈ l → step8Fold rf cfg st l (some acc0) = some rp →
      step8Record rf cfg st cb L ∈ rp.2 := by
  induction l with
  | nil =>
    intro acc0 rp hmem
    exact absurd hmem (List.not_mem_nil cb)
  | cons hd tl ih =>
    intro acc0 rp hmem h
    rw [step8Fold_cons] at h
    cases hc : step8Cable rf cfg st acc0 hd with
    | none =>
      rw [hc, step8Fold_none] at h
      exact Option.noConfusion h
    | some acc1 =>
      rw [hc] at h
      rcases List.mem_cons.mp hmem with he | he
      · rw [← he] at hc
        have hrec := step8Cable_records hL hcond hc
        apply step8Fold_pc_mono rf cfg st tl acc1 rp h
        rw [hrec]
        exact List.mem_append_right _ (List.mem_singleton.mpr rfl)
      · exact ih acc1 rp he h

/-! ## Eliminating a successful endpoint run -/

theorem optAssemble_problematicCables (d m rf i : Nat) (cfg : GridConfig)
    (rp : List (String × List Cell) × List ProblematicCable) :
    (optAssemble d m rf i cfg rp).problematicCables = rp.2 := rfl

theorem optAssemble_cableRoutes (d m rf i : Nat) (cfg : GridConfig)
    (rp : List (String × List Cell) × List ProblematicCable) :
    (optAssemble d m rf i cfg rp).cableRoutes =
      optCableRoutes d m rf i cfg rp.1 := rfl

theorem optAssemble_sections (d m rf i : Nat) (cfg : GridConfig)
    (rp : List (String × List Cell) × List ProblematicCable) :
    (optAssemble d m rf i cfg rp).sections =
      (optFallbackFold cfg (optCablesInSections d m rf i cfg) rp.1
        (optSections0 d m rf i cfg)).filter
        (fun sec => ¬ sec.cables.isEmpty) := rfl

theorem optimizeCablePaths_some_elim {d m rf i : Nat} {cfg : GridConfig}
    {r : RoutingResponse}
    (h : optimizeCablePaths d m rf i cfg = some r) :
    ∃ rp, optStep8 d m rf i cfg = some rp ∧
      r = optAssemble d m rf i cfg rp := by
  unfold optimizeCablePaths at h
  cases hm : optMst d m cfg with
  | none =>
    rw [hm] at h
    exact Option.noConfusion h
  | some p =>
    simp only [hm] at h
    cases hs : optStep8 d m rf i cfg with
    | none =>
      rw [hs] at h
      exact Option.noConfusion h
    | some rp =>
      rw [hs] at h
      injection h with h2
      exact ⟨rp, rfl, h2.symm⟩

/-! ## Claim C1: the (absent) reroute-retry loop -/

/-- Modelled from the spec: the §4.6 retry loop for an over-length cable.
`redCable` starts at 0.55 and shrinks by 0.1 per attempt (five attempts);
each attempt builds the weighted graph at that `redCable`, runs Dijkstra
from the cable's source to its target, and the first path whose metric
length `(len(path) − 1) · gridResolution` is at most the ceiling `L` is
accepted.  `none` means every attempt failed. -/
def specReroute (dijFuel : Nat) (config : GridConfig) (cb : Cable)
    (L : Frac) : Option (List Cell) :=
  [(⟨55, 100⟩ : Frac), ⟨45, 100⟩, ⟨35, 100⟩, ⟨25, 100⟩, ⟨15, 100⟩].foldl
    (fun (acc : Option (List Cell)) (red : Frac) =>
      match acc with
      | some p => some p
      | none =>
        match dijkstraPath dijFuel (cableSrcPt config cb)
          (cableTgtPt config cb)
          (buildWeightedGraph config.width config.height (optWalls config)
            (optTrays config) red
            (bfsDistanceMap config.width config.height (optWalls config))
            (bfsDistanceMap config.width config.height (optTrays config)))
          with
        | none => none
        | some cp =>
          if ((Frac.ofInt ((cp.2.length - 1 : Nat) : Int)).mul
              config.gridResolution).leb L then some cp.2
          else none)
    none

/-- C1 counterexample: on `cfgTray` the spec's retry procedure accepts a
path on its very first attempt (`redCable = 0.55` already yields a
0.4 m ≤ 0.5 m path), so per the claim `T1` would not be recorded as
problematic — yet the engine records it: no retry loop exists in the
code. -/
theorem C1_reroute_counterexample :
    (specReroute 50 cfgTray trayCable ⟨5, 10⟩).isSome = true ∧
    (optimizeCablePaths 50 20 50 5 cfgTray).map
      (fun r => r.problematicCables.map (fun p => p.cableLabel)) =
      some [some "T1"] :=
  ⟨by decide, by decide⟩

/-- C1 (amended): there is no retry loop — a valid cable whose declared
length parses to `L` and whose computed route exceeds `L` is immediately
recorded in `problematicCables`, with the computed fields
`{specifiedLength = L, routeLength, theoreticalMinLength = Manhattan ·
gridResolution, excessLength, excessPercentage}` of `step8Record`. -/
theorem C1_over_length_recorded (d m rf i : Nat) (cfg : GridConfig)
    (r : RoutingResponse)
    (h : optimizeCablePaths d m rf i cfg = some r)
    (cb : Cable) (hcb : cb ∈ validCablesOf cfg) (L : Frac)
    (hL : parseLength cb.length = some L)
    (hover : (step8Actual rf cfg (optStF d m i cfg) cb).leb L = false) :
    step8Record rf cfg (optStF d m i cfg) cb L ∈ r.problematicCables := by
  obtain ⟨rp, hs, hr⟩ := optimizeCablePaths_some_elim h
  rw [hr, optAssemble_problematicCables]
  unfold optStep8 at hs
  exact step8Fold_record_mem rf cfg (optStF d m i cfg) cb L hL
    (fun hc => by rw [hover] at hc; exact Bool.noConfusion hc.1)
    (validCablesOf cfg) ([], []) rp hcb hs

/-- Witness for `C1_over_length_recorded` on `cfgTray` (route 0.8 m,
ceiling 0.5 m). -/
theorem C1_over_length_recorded_witness :
    optimizeCablePaths 50 20 50 5 cfgTray = some rTray ∧
    trayCable ∈ validCablesOf cfgTray ∧
    parseLength trayCable.length = some ⟨5, 10⟩ ∧
    (step8Actual 50 cfgTray (optStF 50 20 5 cfgTray) trayCable).leb
      ⟨5, 10⟩ = false ∧
    step8Record 50 cfgTray (optStF 50 20 5 cfgTray) trayCable ⟨5, 10⟩ ∈
      rTray.problematicCables :=
  ⟨by decide, by decide, by decide, by decide,
   C1_over_length_recorded 50 20 50 5 cfgTray rTray (by decide) trayCable
     (by decide) ⟨5, 10⟩ (by decide) (by decide)⟩

/-! ## Claim C10: `CUS → CUS` cables -/

/-- C10 (amended): a valid cable between machines both named `"CUS"`
whose declared length parses to `L` is recorded in `problematicCables`
even when its route is within the ceiling (the acceptance branch
requires an endpoint not named `"CUS"`) — provided `L ≠ 0`; at `L = 0`
the endpoint instead fails with a `ZeroDivisionError` (see the
counterexample). -/
theorem C10_cus_cable_recorded (d m rf i : Nat) (cfg : GridConfig)
    (r : RoutingResponse)
    (h : optimizeCablePaths d m rf i cfg = some r)
    (cb : Cable) (hcb : cb ∈ validCablesOf cfg) (L : Frac)
    (hL : parseLength cb.length = some L)
    (hsrc : cb.source = "CUS") (htgt : cb.target = "CUS") :
    step8Record rf cfg (optStF d m i cfg) cb L ∈ r.problematicCables := by
  obtain ⟨rp, hs, hr⟩ := optimizeCablePaths_some_elim h
  rw [hr, optAssemble_problematicCables]
  unfold optStep8 at hs
  exact step8Fold_record_mem rf cfg (optStF d m i cfg) cb L hL
    (fun hc => by
      rcases hc.2 with hne | hne
      · exact hne hsrc
      · exact hne htgt)
    (validCablesOf cfg) ([], []) rp hcb hs

/-- Witness for `C10_cus_cable_recorded` on `cfgCus` (route 0 m within
the 1 m ceiling, still recorded, with negative excess). -/
theorem C10_cus_cable_recorded_witness :
    optimizeCablePaths 50 20 50 5 cfgCus = some rCus ∧
    cusCable ∈ validCablesOf cfgCus ∧
    parseLength cusCable.length = some ⟨1, 1⟩ ∧
    step8Record 50 cfgCus (optStF 50 20 5 cfgCus) cusCable ⟨1, 1⟩ ∈
      rCus.problematicCables :=
  ⟨by decide, by decide, by decide,
   C10_cus_cable_recorded 50 20 50 5 cfgCus rCus (by decide) cusCable
     (by decide) ⟨1, 1⟩ (by decide) rfl rfl⟩


/-! ## Membership in the produced section lists -/

theorem mem_foldl_or {α β : Type} (f : List β → α → List β) (Q : β → Prop)
    (hf : ∀ acc a s, s ∈ f acc a → s ∈ acc ∨ Q s) (l : List α) :
    ∀ (init : List β) (s : β), s ∈ l.foldl f init → s ∈ init ∨ Q s := by
  induction l with
  | nil => intro init s h; exact Or.inl h
  | cons hd tl ih =>
    intro init s h
    rw [List.foldl_cons] at h
    rcases ih (f init hd) s h with h2 | h2
    · exact hf init hd s h2
    · exact Or.inr h2

theorem mem_foldl_or_mem {α β : Type} (f : List β → α → List β)
    (Q : α → β → Prop) :
    ∀ (l : List α), (∀ acc a s, a ∈ l → s ∈ f acc a → s ∈ acc ∨ Q a s) →
      ∀ (init : List β) (s : β), s ∈ l.foldl f init →
        s ∈ init ∨ ∃ a ∈ l, Q a s := by
  intro l
  induction l with
  | nil => intro _ init s h; exact Or.inl h
  | cons hd tl ih =>
    intro hf init s h
    rw [List.foldl_cons] at h
    rcases ih (fun acc a s ha hs => hf acc a s (List.mem_cons_of_mem hd ha) hs)
        (f init hd) s h with h2 | h2
    · rcases hf init hd s (List.mem_cons_self hd tl) h2 with h3 | h3
      · exact Or.inl h3
      · exact Or.inr ⟨hd, List.mem_cons_self hd tl, h3⟩
    · obtain ⟨a, ha, hq⟩ := h2
      exact Or.inr ⟨a, List.mem_cons_of_mem hd ha, hq⟩

/-- A grouped section for network group `grp`: some segment together
with the overlap-filtered cable list, details and grouped stroke width. -/
def IsGroupedSection (routeFuel : Nat) (gridResolution : Frac)
    (finalMst : List (Cell × Cell)) (cables : List Cable)
    (machines : List (String × Machine)) (pr : PairRoutes)
    (grp : String × List Cable) (s : Section) : Prop :=
  ∃ seg, s = Section.mk seg
    (segUsedCables grp.1 grp.2
      (cableRoutesOf routeFuel cables machines finalMst pr)
      gridResolution seg).1
    (some grp.1)
    (segUsedCables grp.1 grp.2
      (cableRoutesOf routeFuel cables machines finalMst pr)
      gridResolution seg).2
    (strokeWidthOf (segUsedCables grp.1 grp.2
      (cableRoutesOf routeFuel cables machines finalMst pr)
      gridResolution seg).1.length)

/-- Every section produced by `convert_to_sections` is built from a
network group and a segment, with the grouped stroke width and the
overlap-filtered cable list. -/
theorem convertToSections_shape (routeFuel : Nat) (gridResolution : Frac)
    (finalMst : List (Cell × Cell)) (cables : List Cable)
    (machines : List (String × Machine)) (networks : List Network)
    (pr : PairRoutes) :
    ∀ sec ∈ convertToSections routeFuel gridResolution finalMst cables
        machines networks pr,
      ∃ grp ∈ groupedCables (networkLookupOf networks) cables,
        IsGroupedSection routeFuel gridResolution finalMst cables machines
          pr grp sec := by
  intro sec hsec
  unfold convertToSections at hsec
  refine (mem_foldl_or_mem _
    (IsGroupedSection routeFuel gridResolution finalMst cables machines pr)
    (groupedCables (networkLookupOf networks) cables)
    ?_ [] sec hsec).resolve_left (List.not_mem_nil sec)
  intro acc pair s hp hs
  refine (mem_foldl_or _
    (IsGroupedSection routeFuel gridResolution finalMst cables machines pr
      pair) ?_ _ _ s hs).imp_left id
  intro acc2 e s2 hs2
  split at hs2
  · exact Or.inl hs2
  · refine (mem_foldl_or _
      (IsGroupedSection routeFuel gridResolution finalMst cables machines pr
        pair) ?_ _ _ s2 hs2).imp_left id
    intro acc3 seg s3 hs3
    split at hs3
    · exact Or.inl hs3
    · split at hs3
      · exact Or.inl hs3
      · rcases List.mem_append.mp hs3 with h4 | h4
        · exact Or.inl h4
        · exact Or.inr ⟨seg, List.mem_singleton.mp h4⟩

/-- Every section of the fallback pass is either a grouped section of
`sections0` or a single-cable fallback section (stroke width 4). -/
theorem optFallbackFold_mem (cfg : GridConfig) (cis : List String)
    (routes : List (String × List Cell)) (s0 : List Section) :
    ∀ sec ∈ optFallbackFold cfg cis routes s0,
      sec ∈ s0 ∨ ∃ cb cid rt, sec = fallbackSection cfg cb cid rt := by
  intro sec h
  unfold optFallbackFold at h
  refine mem_foldl_or _
    (fun s => ∃ cb cid rt, s = fallbackSection cfg cb cid rt) ?_ _ _ sec h
  intro acc pair s hs
  split at hs
  · exact Or.inl hs
  · split at hs
    · exact Or.inl hs
    · next cb hfind =>
      rcases List.mem_append.mp hs with h4 | h4
      · exact Or.inl h4
      · exact Or.inr ⟨cb, pair.1, pair.2, List.mem_singleton.mp h4⟩

/-! ## Claim C9: section stroke widths -/

/-- C9 (amended): every returned section either carries the grouped
stroke width `4 + min(|cables| · 0.75, 15)`, or is a fallback section
with exactly one cable and the constant stroke width 4. -/
theorem C9_strokeWidth_formula (d m rf i : Nat) (cfg : GridConfig)
    (r : RoutingResponse)
    (h : optimizeCablePaths d m rf i cfg = some r)
    (sec : Section) (hs : sec ∈ r.sections) :
    sec.strokeWidth = strokeWidthOf sec.cables.length ∨
      (sec.strokeWidth = Frac.ofInt 4 ∧ sec.cables.length = 1) := by
  obtain ⟨rp, _, hr⟩ := optimizeCablePaths_some_elim h
  rw [hr, optAssemble_sections] at hs
  have hs1 := (List.mem_filter.mp hs).1
  rcases optFallbackFold_mem cfg _ rp.1 _ sec hs1 with h0 | ⟨cb, cid, rt, he⟩
  · left
    unfold optSections0 at h0
    obtain ⟨grp, _, seg, hseg⟩ :=
      convertToSections_shape _ _ _ _ _ _ _ sec h0
    rw [hseg]
  · right
    rw [he]
    exact ⟨rfl, rfl⟩

/-- An empty section, used as a `headD` default. -/
def emptySection : Section := ⟨[], [], none, [], Frac.ofInt 0⟩

/-- Witness for `C9_strokeWidth_formula` on `cfgIsland`. -/
theorem C9_strokeWidth_formula_witness :
    optimizeCablePaths 50 20 50 5 cfgIsland = some rIsland ∧
    (rIsland.sections.headD emptySection) ∈ rIsland.sections ∧
    ((rIsland.sections.headD emptySection).strokeWidth =
        strokeWidthOf (rIsland.sections.headD emptySection).cables.length ∨
      ((rIsland.sections.headD emptySection).strokeWidth = Frac.ofInt 4 ∧
        (rIsland.sections.headD emptySection).cables.length = 1)) :=
  ⟨by decide, by decide,
   C9_strokeWidth_formula 50 20 50 5 cfgIsland rIsland (by decide)
     (rIsland.sections.headD emptySection) (by decide)⟩

/-! ## Key/membership lemmas for `assocUpdate` folds -/

theorem mem_insertNew {α : Type} [DecidableEq α] {l : List α} {a x : α}
    (h : x ∈ insertNew l a) : x ∈ l ∨ x = a := by
  unfold insertNew at h
  split at h
  · exact Or.inl h
  · rcases List.mem_append.mp h with h2 | h2
    · exact Or.inl h2
    · exact Or.inr (List.mem_singleton.mp h2)

theorem mem_assocUpdate {α β : Type} [DecidableEq α]
    {l : List (α × β)} {k : α} {v : β} {x : α × β}
    (h : x ∈ assocUpdate l k v) : x = (k, v) ∨ x ∈ l := by
  unfold assocUpdate at h
  split at h
  · obtain ⟨y, hy, hxy⟩ := List.mem_map.mp h
    by_cases hk : y.1 = k
    · rw [if_pos hk] at hxy
      exact Or.inl hxy.symm
    · rw [if_neg hk] at hxy
      exact Or.inr (hxy ▸ hy)
  · rcases List.mem_append.mp h with h2 | h2
    · exact Or.inr h2
    · exact Or.inl (List.mem_singleton.mp h2)

theorem assocLookup_mem {α β : Type} [DecidableEq α]
    {l : List (α × β)} {k : α} {v : β} (h : assocLookup l k = some v) :
    (k, v) ∈ l := by
  unfold assocLookup at h
  cases hf : l.find? (fun p => p.1 = k) with
  | none => rw [hf] at h; exact Option.noConfusion h
  | some p =>
    rw [hf] at h
    injection h with h2
    have hp := List.find?_some hf
    simp only [decide_eq_true_eq] at hp
    have := List.mem_of_find?_eq_some hf
    rw [← h2, ← hp]
    exact this

theorem assocLookup_foldl_update_no_match {α β γ : Type} [DecidableEq α]
    (g : γ → α) (v : γ → β) (l : List γ) :
    ∀ (init : List (α × β)) (k : α), (∀ c ∈ l, g c ≠ k) →
      assocLookup (l.foldl (fun acc x => assocUpdate acc (g x) (v x)) init) k
        = assocLookup init k := by
  induction l with
  | nil => intro init k _; rfl
  | cons hd tl ih =>
    intro init k hno
    rw [List.foldl_cons, ih _ k (fun c hc => hno c (List.mem_cons_of_mem hd hc)),
      assocLookup_update_ne _ _ _ _ (hno hd (List.mem_cons_self hd tl))]

theorem assocLookup_foldl_update_agree {α β γ : Type} [DecidableEq α]
    (g : γ → α) (v : γ → β) (l : List γ) :
    ∀ (init1 init2 : List (α × β)) (k : α), (∃ c ∈ l, g c = k) →
      assocLookup (l.foldl (fun acc x => assocUpdate acc (g x) (v x)) init1) k
        = assocLookup
            (l.foldl (fun acc x => assocUpdate acc (g x) (v x)) init2) k := by
  induction l with
  | nil =>
    intro init1 init2 k hex
    obtain ⟨c, hc, _⟩ := hex
    exact absurd hc (List.not_mem_nil c)
  | cons hd tl ih =>
    intro init1 init2 k hex
    rw [List.foldl_cons, List.foldl_cons]
    by_cases hex2 : ∃ c ∈ tl, g c = k
    · exact ih _ _ k hex2
    · obtain ⟨c, hc, hgc⟩ := hex
      have hhd : g hd = k := by
        rcases List.mem_cons.mp hc with he | he
        · rw [← he]; exact hgc
        · exact absurd ⟨c, he, hgc⟩ hex2
      have hno : ∀ c ∈ tl, g c ≠ k := by
        intro c2 hc2 hg2
        exact hex2 ⟨c2, hc2, hg2⟩
      rw [assocLookup_foldl_update_no_match g v tl _ k hno,
        assocLookup_foldl_update_no_match g v tl _ k hno, ← hhd,
        assocLookup_update_self, assocLookup_update_self]

theorem mem_foldl_update {α β γ : Type} [DecidableEq α]
    (g : γ → α) (v : γ → β) (l : List γ) :
    ∀ (init : List (α × β)) (p : α × β),
      p ∈ l.foldl (fun acc x => assocUpdate acc (g x) (v x)) init →
      p ∈ init ∨ ∃ c ∈ l, p.1 = g c := by
  intro init p h
  refine mem_foldl_or_mem _ (fun c p => p.1 = g c) l ?_ init p h
  intro acc a s _ hs
  rcases mem_assocUpdate hs with h2 | h2
  · exact Or.inr (by rw [h2])
  · exact Or.inl h2

theorem assocUpdate_keys_nodup {α β : Type} [DecidableEq α]
    {l : List (α × β)} (k : α) (v : β)
    (h : (l.map Prod.fst).Nodup) :
    ((assocUpdate l k v).map Prod.fst).Nodup := by
  unfold assocUpdate
  split
  · have hkeys : (l.map (fun p => if p.1 = k then (k, v) else p)).map Prod.fst
        = l.map Prod.fst := by
      rw [List.map_map]
      apply List.map_congr_left
      intro p _
      by_cases hp : p.1 = k
      · simp [hp]
      · simp [hp]
    rw [hkeys]
    exact h
  · next hany =>
    rw [List.map_append]
    refine List.Nodup.append h (by simp) ?_
    intro a ha hb
    simp only [List.map_cons, List.map_nil, List.mem_singleton] at hb
    obtain ⟨p, hp, hpa⟩ := List.mem_map.mp ha
    apply hany
    rw [List.any_eq_true]
    exact ⟨p, hp, decide_eq_true (by rw [hpa, hb])⟩

theorem foldl_update_keys_nodup {α β γ : Type} [DecidableEq α]
    (g : γ → α) (v : γ → β) (l : List γ) :
    ∀ (init : List (α × β)), ((init.map Prod.fst).Nodup) →
      (((l.foldl (fun acc x => assocUpdate acc (g x) (v x)) init).map
        Prod.fst).Nodup) := by
  induction l with
  | nil => intro init h; exact h
  | cons hd tl ih =>
    intro init h
    rw [List.foldl_cons]
    exact ih _ (assocUpdate_keys_nodup _ _ h)

theorem assocLookup_of_mem_nodup {α β : Type} [DecidableEq α]
    {l : List (α × β)} (h : (l.map Prod.fst).Nodup) {p : α × β}
    (hp : p ∈ l) : assocLookup l p.1 = some p.2 := by
  induction l with
  | nil => exact absurd hp (List.not_mem_nil p)
  | cons q t ih =>
    rw [List.map_cons, List.nodup_cons] at h
    rcases List.mem_cons.mp hp with he | he
    · rw [assocLookup_cons, ← he, if_pos rfl]
    · rw [assocLookup_cons]
      have hq : ¬ q.1 = p.1 := by
        intro hqe
        exact h.1 (hqe ▸ List.mem_map_of_mem Prod.fst he)
      rw [if_neg hq]
      exact ih h.2 he

/-! ## Contents of grouped and fallback sections -/

/-- Every cable id listed by `segUsedCables` comes from a group cable
whose route shares at least two distinct cells with the segment. -/
theorem segUsedCables_mem (netName : String) (grp : List Cable)
    (CR : List (String × List Cell)) (res : Frac) (seg : List Cell) :
    ∀ cid ∈ (segUsedCables netName grp CR res seg).1,
      ∃ c ∈ grp, cableId c = cid ∧
        2 ≤ overlapCount seg ((assocLookup CR cid).getD []) := by
  have key : ∀ (l : List Cable)
      (acc : List String × List (String × CableDetail)),
      (∀ x ∈ l, x ∈ grp) →
      (∀ cid ∈ acc.1, ∃ c ∈ grp, cableId c = cid ∧
        2 ≤ overlapCount seg ((assocLookup CR cid).getD [])) →
      ∀ cid ∈ (l.foldl
        (fun (acc : List String × List (String × CableDetail)) c =>
          if 2 ≤ overlapCount seg ((assocLookup CR (cableId c)).getD [])
          then
            (insertNew acc.1 (cableId c),
              assocUpdate acc.2 (cableId c)
                (cableDetailOf c netName
                  (calcLength ((assocLookup CR (cableId c)).getD []) res)))
          else acc) acc).1,
        ∃ c ∈ grp, cableId c = cid ∧
          2 ≤ overlapCount seg ((assocLookup CR cid).getD []) := by
    intro l
    induction l with
    | nil => intro acc _ hacc cid hcid; exact hacc cid hcid
    | cons hd tl ih =>
      intro acc hsub hacc cid hcid
      rw [List.foldl_cons] at hcid
      refine ih _ (fun x hx => hsub x (List.mem_cons_of_mem hd hx)) ?_ cid hcid
      intro cid2 hcid2
      split at hcid2
      · next hcnd =>
        rcases mem_insertNew hcid2 with h2 | h2
        · exact hacc cid2 h2
        · exact ⟨hd, hsub hd (List.mem_cons_self hd tl), h2.symm, h2 ▸ hcnd⟩
      · exact hacc cid2 hcid2
  intro cid hcid
  exact key grp ([], []) (fun x hx => hx) (fun cid2 hcid2 => absurd hcid2
    (List.not_mem_nil cid2)) cid hcid

/-- Every cable of a `groupedCables` group comes from the cable list. -/
theorem groupedCables_sub (networkLookup : String → Option String)
    (cables : List Cable) :
    ∀ grp ∈ groupedCables networkLookup cables, ∀ c ∈ grp.2, c ∈ cables := by
  have key : ∀ (l : List Cable) (acc : List (String × List Cable)),
      (∀ x ∈ l, x ∈ cables) →
      (∀ grp ∈ acc, ∀ c ∈ grp.2, c ∈ cables) →
      ∀ grp ∈ l.foldl
        (fun acc c =>
          match c.cableFunction.bind networkLookup with
          | none => acc
          | some nm =>
            assocUpdate acc nm ((assocLookup acc nm).getD [] ++ [c])) acc,
        ∀ c ∈ grp.2, c ∈ cables := by
    intro l
    induction l with
    | nil => intro acc _ hacc; exact hacc
    | cons hd tl ih =>
      intro acc hsub hacc
      rw [List.foldl_cons]
      refine ih _ (fun x hx => hsub x (List.mem_cons_of_mem hd hx)) ?_
      cases hb : hd.cableFunction.bind networkLookup with
      | none =>
        simp only [hb]
        exact hacc
      | some nm =>
        simp only [hb]
        intro grp hgrp c hc
        rcases mem_assocUpdate hgrp with h2 | h2
        · rw [h2] at hc
          rcases List.mem_append.mp hc with h3 | h3
          · cases hl : assocLookup acc nm with
            | none =>
              rw [hl] at h3
              exact absurd h3 (List.not_mem_nil c)
            | some old =>
              rw [hl] at h3
              exact hacc (nm, old) (assocLookup_mem hl) c h3
          · rw [List.mem_singleton.mp h3]
            exact hsub hd (List.mem_cons_self hd tl)
        · exact hacc grp h2 c hc
  intro grp hgrp
  unfold groupedCables at hgrp
  exact key cables [] (fun x hx => hx)
    (fun grp2 hgrp2 => absurd hgrp2 (List.not_mem_nil grp2)) grp hgrp

/-- The routes component of a successful step-8 run is the plain
per-cable `assocUpdate` fold. -/
theorem step8Fold_routes (rf : Nat) (cfg : GridConfig) (st : OptState)
    (l : List Cable) :
    ∀ (acc0 rp : List (String × List Cell) × List ProblematicCable),
      step8Fold rf cfg st l (some acc0) = some rp →
      rp.1 = l.foldl
        (fun acc cb => assocUpdate acc (cableId cb) (step8Route rf cfg st cb))
        acc0.1 := by
  induction l with
  | nil =>
    intro acc0 rp h
    injection h with h2
    rw [← h2, List.foldl_nil]
  | cons hd tl ih =>
    intro acc0 rp h
    rw [step8Fold_cons] at h
    cases hc : step8Cable rf cfg st acc0 hd with
    | none =>
      rw [hc, step8Fold_none] at h
      exact Option.noConfusion h
    | some acc1 =>
      rw [hc] at h
      rw [List.foldl_cons, ← step8Cable_routes hc]
      exact ih acc1 rp h

/-- Fallback sections remember their origin: the appended section is the
fallback section of a route entry whose cable id resolves in the valid
cable list. -/
theorem optFallbackFold_mem_strong (cfg : GridConfig) (cis : List String)
    (routes : List (String × List Cell)) (s0 : List Section) :
    ∀ sec ∈ optFallbackFold cfg cis routes s0,
      sec ∈ s0 ∨ ∃ pair ∈ routes, ∃ cb,
        (validCablesOf cfg).find? (fun c => cableId c = pair.1) = some cb ∧
        sec = fallbackSection cfg cb pair.1 pair.2 := by
  intro sec h
  unfold optFallbackFold at h
  refine mem_foldl_or_mem _
    (fun pair s => ∃ cb,
      (validCablesOf cfg).find? (fun c => cableId c = pair.1) = some cb ∧
      s = fallbackSection cfg cb pair.1 pair.2) routes ?_ s0 sec h
  intro acc pair s hp hs
  split at hs
  · exact Or.inl hs
  · split at hs
    · exact Or.inl hs
    · next cb hfind =>
      rcases List.mem_append.mp hs with h4 | h4
      · exact Or.inl h4
      · exact Or.inr ⟨cb, hfind, List.mem_singleton.mp h4⟩

/-! ## Claim C3: cable/section overlap -/

/-- C3 counterexample: `cfgIsland` returns a section listing cable `K1`
whose points list is empty — the cable's (empty) route does not visit
two cells of it. -/
theorem C3_overlap_counterexample :
    (optimizeCablePaths 50 20 50 5 cfgIsland).map
      (fun r => (r.sections.map (fun s => (s.cables, s.points)),
        assocLookup r.cableRoutes "K1")) =
      some ([(["K1"], [])], some []) ∧
    overlapCount ([] : List Cell) ([] : List Cell) < 2 :=
  ⟨by decide, by decide⟩

/-- C3 (amended): for every returned section and every cable id it
lists, the id is a key of `cableRoutes` and its route either shares at
least two distinct cells with the section's points (grouped sections) or
is exactly the section's points (fallback sections, where the route may
have fewer than two cells). -/
theorem C3_section_cable_overlap (d m rf i : Nat) (cfg : GridConfig)
    (r : RoutingResponse) (h : optimizeCablePaths d m rf i cfg = some r)
    (sec : Section) (hs : sec ∈ r.sections) (cid : String)
    (hc : cid ∈ sec.cables) :
    ∃ rt, assocLookup r.cableRoutes cid = some rt ∧
      (2 ≤ overlapCount sec.points rt ∨ sec.points = rt) := by
  obtain ⟨rp, hstep, hr⟩ := optimizeCablePaths_some_elim h
  rw [hr, optAssemble_sections] at hs
  have hs1 := (List.mem_filter.mp hs).1
  have hroutes : r.cableRoutes = optCableRoutes d m rf i cfg rp.1 := by
    rw [hr, optAssemble_cableRoutes]
  have hrp1 : rp.1 = (validCablesOf cfg).foldl
      (fun acc cb => assocUpdate acc (cableId cb)
        (step8Route rf cfg (optStF d m i cfg) cb)) [] := by
    unfold optStep8 at hstep
    exact step8Fold_routes rf cfg (optStF d m i cfg) (validCablesOf cfg)
      ([], []) rp hstep
  have hagree : ∀ cid2, (∃ c ∈ validCablesOf cfg, cableId c = cid2) →
      assocLookup r.cableRoutes cid2 = assocLookup rp.1 cid2 := by
    intro cid2 hex
    rw [hroutes]
    unfold optCableRoutes
    calc assocLookup ((validCablesOf cfg).foldl
          (fun acc cb => assocUpdate acc (cableId cb)
            (step8Route rf cfg (optStF d m i cfg) cb)) rp.1) cid2
        = assocLookup ((validCablesOf cfg).foldl
          (fun acc cb => assocUpdate acc (cableId cb)
            (step8Route rf cfg (optStF d m i cfg) cb)) []) cid2 :=
          assocLookup_foldl_update_agree (fun cb => cableId cb)
            (fun cb => step8Route rf cfg (optStF d m i cfg) cb)
            (validCablesOf cfg) rp.1 [] cid2 hex
      _ = assocLookup rp.1 cid2 := by rw [← hrp1]
  rcases optFallbackFold_mem_strong cfg _ rp.1 _ sec hs1 with h0 |
    ⟨pair, hpair, cb, hfind, he⟩
  · -- grouped section
    unfold optSections0 at h0
    obtain ⟨grp, hgrp, seg, hseg⟩ :=
      convertToSections_shape _ _ _ _ _ _ _ sec h0
    rw [hseg] at hc
    obtain ⟨c, hcgrp, hcid, hover⟩ := segUsedCables_mem _ _ _ _ _ cid hc
    have hcval : c ∈ validCablesOf cfg :=
      groupedCables_sub _ _ grp hgrp c hcgrp
    have hex : ∃ c2 ∈ validCablesOf cfg, cableId c2 = cid := ⟨c, hcval, hcid⟩
    have hCRsome : (assocLookup (cableRoutesOf rf (validCablesOf cfg)
        cfg.machines (optStF d m i cfg).mstEdges
        (optStF d m i cfg).pairRoutes) cid).isSome = true := by
      rw [← hcid]
      exact assocLookup_foldl_update_key (fun cb => cableId cb) _
        (validCablesOf cfg) [] c hcval
    obtain ⟨rt, hrt⟩ := Option.isSome_iff_exists.mp hCRsome
    have hCR : assocLookup rp.1 cid = some rt := by
      rw [hrp1]
      exact hrt
    refine ⟨rt, by rw [hagree cid hex, hCR], Or.inl ?_⟩
    rw [hseg]
    rw [hrt] at hover
    exact hover
  · -- fallback section
    rw [he] at hc
    have hcid : cid = pair.1 := List.mem_singleton.mp hc
    have hnodup : ((rp.1.map Prod.fst).Nodup) := by
      rw [hrp1]
      exact foldl_update_keys_nodup _ _ (validCablesOf cfg) [] (by simp)
    have hlook : assocLookup rp.1 pair.1 = some pair.2 :=
      assocLookup_of_mem_nodup hnodup hpair
    have hex : ∃ c2 ∈ validCablesOf cfg, cableId c2 = pair.1 := by
      have := mem_foldl_update (fun cb => cableId cb)
        (fun cb => step8Route rf cfg (optStF d m i cfg) cb)
        (validCablesOf cfg) [] pair (hrp1 ▸ hpair)
      rcases this with h2 | ⟨c2, hc2, hg2⟩
      · exact absurd h2 (List.not_mem_nil pair)
      · exact ⟨c2, hc2, hg2.symm⟩
    refine ⟨pair.2, ?_, Or.inr ?_⟩
    · rw [hcid, hagree pair.1 hex, hlook]
    · rw [he]
      rfl

/-- Witness for `C3_section_cable_overlap` on `cfgIsland`. -/
theorem C3_section_cable_overlap_witness :
    optimizeCablePaths 50 20 50 5 cfgIsland = some rIsland ∧
    (rIsland.sections.headD emptySection) ∈ rIsland.sections ∧
    "K1" ∈ (rIsland.sections.headD emptySection).cables ∧
    ∃ rt, assocLookup rIsland.cableRoutes "K1" = some rt ∧
      (2 ≤ overlapCount (rIsland.sections.headD emptySection).points rt ∨
        (rIsland.sections.headD emptySection).points = rt) :=
  ⟨by decide, by decide, by decide,
   C3_section_cable_overlap 50 20 50 5 cfgIsland rIsland (by decide)
     (rIsland.sections.headD emptySection) (by decide) "K1" (by decide)⟩

/-! ## Positivity plumbing for claim C7 -/

theorem Frac.toRat_div {a b : Frac} (ha : a.Pos) (hb : b.Pos) :
    (a.div b).toRat = a.toRat / b.toRat := by
  have hda : (a.den : ℚ) ≠ 0 := Nat.cast_ne_zero.mpr ha.ne'
  have hdb : (b.den : ℚ) ≠ 0 := Nat.cast_ne_zero.mpr hb.ne'
  rcases lt_trichotomy b.num 0 with hneg | hzero | hpos
  · rw [Frac.div, if_neg (not_le.mpr hneg)]
    unfold Frac.toRat
    have ht : (((-b.num).toNat : Nat) : ℚ) = (-b.num : ℚ) := by
      have h1 : ((-b.num).toNat : Int) = -b.num :=
        Int.toNat_of_nonneg (by omega)
      exact_mod_cast congrArg (fun z : Int => (z : ℚ)) h1
    rw [Nat.cast_mul, ht]
    have hbq : (b.num : ℚ) ≠ 0 := Int.cast_ne_zero.mpr hneg.ne
    push_cast
    field_simp
  · rw [Frac.div, if_pos (le_of_eq hzero.symm)]
    unfold Frac.toRat
    rw [hzero]
    simp
  · rw [Frac.div, if_pos (le_of_lt hpos)]
    unfold Frac.toRat
    have ht : ((b.num.toNat : Nat) : ℚ) = (b.num : ℚ) := by
      have h1 : ((b.num.toNat : Nat) : Int) = b.num :=
        Int.toNat_of_nonneg (le_of_lt hpos)
      exact_mod_cast congrArg (fun z : Int => (z : ℚ)) h1
    rw [Nat.cast_mul, ht]
    have hbq : (b.num : ℚ) ≠ 0 := Int.cast_ne_zero.mpr hpos.ne'
    push_cast
    field_simp

/-- All adjacency weights of a graph have positive denominators. -/
def GraphPos (g : Cell → Option (List (Cell × Frac))) : Prop :=
  ∀ c adj, g c = some adj → ∀ nw ∈ adj, nw.2.Pos

/-- All cached pair-route costs have positive denominators. -/
def PrPos (pr : PairRoutes) : Prop :=
  ∀ p v, pr p = some v → v.1.Pos

theorem PrPos.empty : PrPos (fun _ => none) := by
  intro p v h
  exact Option.noConfusion h

theorem PrPos.update {pr : PairRoutes} (h : PrPos pr)
    {k : Cell × Cell} {v : Frac × List Cell} (hv : v.1.Pos) :
    PrPos (prUpdate pr k v) := by
  intro p w hw
  unfold prUpdate at hw
  by_cases hp : p = k
  · rw [hp, Function.update_same] at hw
    injection hw with h2
    rw [← h2]
    exact hv
  · rw [Function.update_noteq hp] at hw
    exact h p w hw

theorem Frac.Pos.div_two {a : Frac} (ha : a.Pos) :
    (a.div (Frac.ofInt 2)).Pos := by
  unfold Frac.div Frac.ofInt Frac.Pos
  norm_num
  unfold Frac.Pos at ha
  omega

theorem computeWeight_pos (dw dt : Option Nat) {r : Frac} (hr : r.Pos) :
    (computeWeight dw dt r).Pos := by
  unfold computeWeight
  split
  · exact Frac.Pos.ofInt 0
  · have hb : (Frac.ofInt 10).Pos := Frac.Pos.ofInt 10
    match dw with
    | none => exact hb
    | some 0 => exact hb.mul (Frac.Pos.ofInt 10)
    | some 1 => exact hb.mul (by norm_num [Frac.Pos])
    | some 2 => exact (hb.mul (by norm_num [Frac.Pos])).mul hr
    | some 3 =>
      refine (hb.mul (by norm_num [Frac.Pos])).mul ?_
      split
      · exact hr
      · exact hr.div_two
    | some (n + 4) => exact hb.mul hr

theorem buildWeightedGraph_pos (width height : Nat) (walls trays : List Cell)
    {red : Frac} (hred : red.Pos) (dW dT : Cell → Option Nat) :
    GraphPos (buildWeightedGraph width height walls trays red dW dT) := by
  intro c adj hadj nw hnw
  unfold buildWeightedGraph at hadj
  split at hadj
  · injection hadj with h2
    rw [← h2] at hnw
    obtain ⟨n, _, hn⟩ := List.mem_filterMap.mp hnw
    split at hn
    · injection hn with h3
      rw [← h3]
      exact computeWeight_pos _ _ hred
    · exact Option.noConfusion hn
  · exact Option.noConfusion hadj

theorem heapPush_forall {α : Type} (P : Frac × Nat × α → Prop)
    {heap : List (Frac × Nat × α)} (hh : ∀ e ∈ heap, P e)
    {x : Frac × Nat × α} (hx : P x) : ∀ e ∈ heapPush heap x, P e := by
  induction heap with
  | nil =>
    intro e he
    rw [List.mem_singleton.mp he]
    exact hx
  | cons y ys ih =>
    intro e he
    unfold heapPush at he
    split at he
    · rcases List.mem_cons.mp he with h2 | h2
      · rw [h2]; exact hx
      · exact hh e h2
    · rcases List.mem_cons.mp he with h2 | h2
      · rw [h2]; exact hh y (List.mem_cons_self y ys)
      · exact ih (fun e2 he2 => hh e2 (List.mem_cons_of_mem y he2)) e h2

theorem dijRelax_fold_heap_pos (visited : Cell → Bool) {cost : Frac}
    (hcost : cost.Pos) (current : Cell) (adj : List (Cell × Frac)) :
    ∀ (st : DijState), (∀ nw ∈ adj, nw.2.Pos) →
      (∀ e ∈ st.heap, e.1.Pos) →
      ∀ e ∈ (adj.foldl (dijRelax visited cost current) st).heap, e.1.Pos := by
  induction adj with
  | nil => intro st _ hheap; exact hheap
  | cons nw rest ih =>
    intro st hadj hheap
    rw [List.foldl_cons]
    refine ih _ (fun x hx => hadj x (List.mem_cons_of_mem nw hx)) ?_
    unfold dijRelax
    split
    · exact hheap
    · split
      · exact heapPush_forall _ hheap
          (hcost.add (hadj nw (List.mem_cons_self nw rest)))
      · exact hheap

theorem dijkstraLoop_cost_pos {graph : Cell → Option (List (Cell × Frac))}
    (hg : GraphPos graph) (endp : Cell) :
    ∀ (fuel : Nat) (heap : List (Frac × Nat × Cell)) (counter : Nat)
      (distances : Cell → Option Frac)
      (cameFrom : Cell → Option (Option Cell)) (visited : Cell → Bool),
      (∀ e ∈ heap, e.1.Pos) →
      ∀ v, dijkstraLoop graph endp fuel heap counter distances cameFrom
        visited = some v → v.1.Pos := by
  intro fuel
  induction fuel with
  | zero =>
    intro heap counter distances cameFrom visited _ v h
    exact Option.noConfusion h
  | succ fuel ih =>
    intro heap counter distances cameFrom visited hheap v h
    cases heap with
    | nil =>
      simp only [dijkstraLoop] at h
      exact Option.noConfusion h
    | cons hd rest =>
      simp only [dijkstraLoop] at h
      obtain ⟨cost, cnt, current⟩ := hd
      split at h
      · exact ih rest counter distances cameFrom visited
          (fun e he => hheap e (List.mem_cons_of_mem _ he)) v h
      · split at h
        · injection h with h2
          rw [← h2]
          exact hheap (cost, cnt, current) (List.mem_cons_self _ _)
        · refine ih _ _ _ _ _ ?_ v h
          refine dijRelax_fold_heap_pos _
            (hheap (cost, cnt, current) (List.mem_cons_self _ _)) current _
            _ ?_ (fun e he => hheap e (List.mem_cons_of_mem _ he))
          intro nw hnw
          cases hgc : graph current with
          | none =>
            rw [hgc] at hnw
            exact absurd hnw (List.not_mem_nil nw)
          | some adj =>
            rw [hgc] at hnw
            exact hg current adj hgc nw hnw

theorem dijkstraPath_cost_pos {graph : Cell → Option (List (Cell × Frac))}
    (hg : GraphPos graph) (fuel : Nat) (start endp : Cell) {v : Frac × List Cell}
    (h : dijkstraPath fuel start endp graph = some v) : v.1.Pos := by
  unfold dijkstraPath at h
  split at h
  · exact Option.noConfusion h
  · refine dijkstraLoop_cost_pos hg endp fuel _ _ _ _ _ ?_ v h
    intro e he
    rw [List.mem_singleton.mp he]
    exact Frac.Pos.ofInt 0

theorem dijRelaxNoVis_fold_heap_pos {cost : Frac} (hcost : cost.Pos)
    (current : Cell) (adj : List (Cell × Frac)) :
    ∀ (st : DijState), (∀ nw ∈ adj, nw.2.Pos) →
      (∀ e ∈ st.heap, e.1.Pos) →
      ∀ e ∈ (adj.foldl (dijRelaxNoVis cost current) st).heap, e.1.Pos := by
  induction adj with
  | nil => intro st _ hheap; exact hheap
  | cons nw rest ih =>
    intro st hadj hheap
    rw [List.foldl_cons]
    refine ih _ (fun x hx => hadj x (List.mem_cons_of_mem nw hx)) ?_
    unfold dijRelaxNoVis
    split
    · exact heapPush_forall _ hheap
        (hcost.add (hadj nw (List.mem_cons_self nw rest)))
    · exact hheap

theorem dijkstraToTargetsLoop_pos {graph : Cell → Option (List (Cell × Frac))}
    (hg : GraphPos graph) :
    ∀ (fuel : Nat) (heap : List (Frac × Nat × Cell)) (counter : Nat)
      (distances : Cell → Option Frac)
      (cameFrom : Cell → Option (Option Cell)) (remaining : List Cell)
      (results out : List (Cell × Frac × List Cell)),
      (∀ e ∈ heap, e.1.Pos) → (∀ r ∈ results, r.2.1.Pos) →
      dijkstraToTargetsLoop graph fuel heap counter distances cameFrom
        remaining results = some out →
      ∀ r ∈ out, r.2.1.Pos := by
  intro fuel
  induction fuel with
  | zero =>
    intro heap counter distances cameFrom remaining results out _ hres hout
      r hr
    injection hout with h2
    rw [← h2] at hr
    exact hres r hr
  | succ fuel ih =>
    intro heap counter distances cameFrom remaining results out hheap hres
      hout r hr
    simp only [dijkstraToTargetsLoop] at hout
    split at hout
    · injection hout with h2
      rw [← h2] at hr
      exact hres r hr
    · split at hout
      · injection hout with h2
        rw [← h2] at hr
        exact hres r hr
      · next cost cnt current rest =>
        split at hout
        · exact ih _ _ _ _ _ _ _
            (fun e he => hheap e (List.mem_cons_of_mem _ he)) hres hout r hr
        · split at hout
          · exact ih _ _ _ _ _ _ _
              (fun e he => hheap e (List.mem_cons_of_mem _ he)) hres hout r hr
          · have hc : cost.Pos := hheap (cost, cnt, current)
              (List.mem_cons_self _ _)
            have hres2 : ∀ r2 ∈ results ++
                [(current, cost,
                  (reconstructAux (fuel + 1) cameFrom current).reverse)],
                r2.2.1.Pos := by
              intro r2 hr2
              rcases List.mem_append.mp hr2 with h2 | h2
              · exact hres r2 h2
              · rw [List.mem_singleton.mp h2]
                exact hc
            split at hout
            · split at hout
              · injection hout with h2
                rw [← h2] at hr
                exact hres2 r hr
              · cases hgc : graph current with
                | none =>
                  rw [hgc] at hout
                  exact Option.noConfusion hout
                | some adj =>
                  simp only [hgc] at hout
                  exact ih _ _ _ _ _ _ _
                    (dijRelaxNoVis_fold_heap_pos hc current _ _
                      (fun nw hnw => hg current adj hgc nw hnw)
                      (fun e he => hheap e (List.mem_cons_of_mem _ he)))
                    hres2 hout r hr
            · cases hgc : graph current with
              | none =>
                rw [hgc] at hout
                exact Option.noConfusion hout
              | some adj =>
                simp only [hgc] at hout
                exact ih _ _ _ _ _ _ _
                  (dijRelaxNoVis_fold_heap_pos hc current _ _
                    (fun nw hnw => hg current adj hgc nw hnw)
                    (fun e he => hheap e (List.mem_cons_of_mem _ he)))
                  hres hout r hr

theorem dijkstraToTargets_pos {graph : Cell → Option (List (Cell × Frac))}
    (hg : GraphPos graph) (fuel : Nat) (source : Cell) (targets : List Cell)
    {out : List (Cell × Frac × List Cell)}
    (hout : dijkstraToTargets fuel source targets graph = some out) :
    ∀ r ∈ out, r.2.1.Pos := by
  intro r hr
  unfold dijkstraToTargets at hout
  split at hout
  · injection hout with h2
    rw [← h2] at hr
    exact absurd hr (List.not_mem_nil r)
  · refine dijkstraToTargetsLoop_pos hg fuel _ _ _ _ _ _ _ ?_ ?_ hout r hr
    · intro e he
      rw [List.mem_singleton.mp he]
      exact Frac.Pos.ofInt 0
    · intro r2 hr2
      exact absurd hr2 (List.not_mem_nil r2)

theorem mstAddResults_prPos {v : Cell} {st : MstState}
    (hst : PrPos st.pairRoutes) {results : List (Cell × Frac × List Cell)}
    (hres : ∀ r ∈ results, r.2.1.Pos) :
    PrPos (mstAddResults v st results).pairRoutes := by
  unfold mstAddResults
  induction results generalizing st with
  | nil => exact hst
  | cons r rest ih =>
    rw [List.foldl_cons]
    refine ih ?_ (fun x hx => hres x (List.mem_cons_of_mem r hx))
    have hr : r.2.1.Pos := hres r (List.mem_cons_self r rest)
    exact (hst.update hr).update hr

theorem buildMstLazyLoop_prPos {dijFuel : Nat} {terminals : List Cell}
    {graph : Cell → Option (List (Cell × Frac))} (hg : GraphPos graph) :
    ∀ (fuel : Nat) (st : MstState) (out : MstState), PrPos st.pairRoutes →
      buildMstLazyLoop dijFuel terminals graph fuel st = some out →
      PrPos out.pairRoutes := by
  intro fuel
  induction fuel with
  | zero =>
    intro st out hst hout
    injection hout with h2
    rw [← h2]
    exact hst
  | succ fuel ih =>
    intro st out hst hout
    simp only [buildMstLazyLoop] at hout
    split at hout
    · split at hout
      · injection hout with h2
        rw [← h2]
        exact hst
      · split at hout
        · refine ih _ _ ?_ hout
          exact hst
        · split at hout
          · refine ih _ _ ?_ hout
            exact hst
          · split at hout
            · exact Option.noConfusion hout
            · next results hd =>
              refine ih _ _ ?_ hout
              refine mstAddResults_prPos ?_
                (dijkstraToTargets_pos hg dijFuel _ _ hd)
              exact hst
    · injection hout with h2
      rw [← h2]
      exact hst

theorem buildMstLazy_prPos {fuel dijFuel : Nat} {terminals : List Cell}
    {graph : Cell → Option (List (Cell × Frac))} (hg : GraphPos graph)
    {out : List (Cell × Cell) × PairRoutes}
    (hout : buildMstLazy fuel dijFuel terminals graph = some out) :
    PrPos out.2 := by
  cases terminals with
  | nil =>
    simp only [buildMstLazy] at hout
    injection hout with h2
    rw [← h2]
    exact PrPos.empty
  | cons start restTs =>
    simp only [buildMstLazy] at hout
    split at hout
    · exact Option.noConfusion hout
    · next results hd =>
      split at hout
      · exact Option.noConfusion hout
      · next stF hl =>
        injection hout with h2
        rw [← h2]
        exact buildMstLazyLoop_prPos hg fuel _ _
          (mstAddResults_prPos PrPos.empty
            (dijkstraToTargets_pos hg dijFuel _ _ hd)) hl

theorem mstTotalLength_pos {edges : List (Cell × Cell)} {pr : PairRoutes}
    (hpr : PrPos pr) : (mstTotalLength edges pr).Pos := by
  unfold mstTotalLength
  have key : ∀ (l : List (Cell × Cell)) (acc : Frac), acc.Pos →
      (l.foldl (fun total e =>
        total.add ((pr e).getD (Frac.ofInt 0, [])).1) acc).Pos := by
    intro l
    induction l with
    | nil => intro acc h; exact h
    | cons e rest ih =>
      intro acc h
      rw [List.foldl_cons]
      refine ih _ (h.add ?_)
      cases hp : pr e with
      | none => exact Frac.Pos.ofInt 0
      | some w => exact hpr e w hp
  exact key edges (Frac.ofInt 0) (Frac.Pos.ofInt 0)

theorem getPath_prPos {dijFuel : Nat} {graph : Cell → Option (List (Cell × Frac))}
    (hg : GraphPos graph) {pr : PairRoutes} (hpr : PrPos pr) (u v : Cell) :
    PrPos (getPath dijFuel graph pr u v).2 := by
  unfold getPath
  cases hc : pr (u, v) with
  | some r => exact hpr
  | none =>
    cases hd : dijkstraPath dijFuel u v graph with
    | some cp =>
      have hp : cp.1.Pos := dijkstraPath_cost_pos hg dijFuel u v hd
      exact (hpr.update hp).update hp
    | none => exact hpr

theorem cgConnStep_prPos {dijFuel : Nat}
    {graph : Cell → Option (List (Cell × Frac))} (hg : GraphPos graph)
    {acc : Option (List (List Cell)) × PairRoutes} (hpr : PrPos acc.2)
    (conn : Cell × Cell) : PrPos (cgConnStep dijFuel graph acc conn).2 := by
  unfold cgConnStep
  cases acc.1 with
  | none => exact hpr
  | some paths =>
    have hgp := @getPath_prPos dijFuel graph hg acc.2 hpr conn.1 conn.2
    cases hc : (getPath dijFuel graph acc.2 conn.1 conn.2).1 with
    | none =>
      simp only []
      rw [show getPath dijFuel graph acc.2 conn.1 conn.2 =
        ((getPath dijFuel graph acc.2 conn.1 conn.2).1,
         (getPath dijFuel graph acc.2 conn.1 conn.2).2) from rfl, hc]
      exact hgp
    | some cp =>
      simp only []
      rw [show getPath dijFuel graph acc.2 conn.1 conn.2 =
        ((getPath dijFuel graph acc.2 conn.1 conn.2).1,
         (getPath dijFuel graph acc.2 conn.1 conn.2).2) from rfl, hc]
      simp only []
      by_cases he : cp.2.isEmpty = true
      · rw [if_pos he]
        exact hgp
      · rw [if_neg he]
        exact hgp

theorem componentGain_prPos {dijFuel : Nat}
    {graph : Cell → Option (List (Cell × Frac))} (hg : GraphPos graph)
    (width height : Nat) (walls trays : List Cell)
    (mstEdges : List (Cell × Cell)) {pr : PairRoutes} (hpr : PrPos pr)
    (connections : List (Cell × Cell)) (groupSet : List Cell) :
    PrPos (componentGain dijFuel graph width height walls trays mstEdges pr
      connections groupSet).2.2 := by
  unfold componentGain
  have hfold : ∀ (l : List (Cell × Cell))
      (acc : Option (List (List Cell)) × PairRoutes), PrPos acc.2 →
      PrPos (l.foldl (cgConnStep dijFuel graph) acc).2 := by
    intro l
    induction l with
    | nil => intro acc h; exact h
    | cons c rest ih =>
      intro acc h
      rw [List.foldl_cons]
      exact ih _ (cgConnStep_prPos hg h c)
  have hnp := hfold connections (some [], pr) hpr
  cases hc : (connections.foldl (cgConnStep dijFuel graph) (some [], pr)).1
    with
  | none =>
    rw [show connections.foldl (cgConnStep dijFuel graph) (some [], pr) =
      ((connections.foldl (cgConnStep dijFuel graph) (some [], pr)).1,
       (connections.foldl (cgConnStep dijFuel graph) (some [], pr)).2)
      from rfl, hc]
    exact hnp
  | some newPaths =>
    rw [show connections.foldl (cgConnStep dijFuel graph) (some [], pr) =
      ((connections.foldl (cgConnStep dijFuel graph) (some [], pr)).1,
       (connections.foldl (cgConnStep dijFuel graph) (some [], pr)).2)
      from rfl, hc]
    exact hnp

theorem genQuadStep_prPos {dijFuel : Nat}
    {graph : Cell → Option (List (Cell × Frac))} (hg : GraphPos graph)
    (width height : Nat) (walls trays : List Cell)
    (mstEdges : List (Cell × Cell)) (t1 t2 t3 t4 : Cell)
    {acc : List FullComponent × PairRoutes} (hpr : PrPos acc.2)
    (pairs : (Cell × Cell) × (Cell × Cell)) :
    PrPos (genQuadStep dijFuel graph width height walls trays mstEdges
      t1 t2 t3 t4 acc pairs).2 := by
  unfold genQuadStep
  simp only []
  split
  · exact hpr
  · split
    · exact hpr
    · have hcg := @componentGain_prPos dijFuel graph hg width height walls
        trays mstEdges acc.2
        hpr [(⟨pairs.1.1.x, pairs.1.2.y⟩, pairs.1.1),
          (⟨pairs.1.1.x, pairs.1.2.y⟩, pairs.1.2),
          (⟨pairs.2.1.x, pairs.2.2.y⟩, pairs.2.1),
          (⟨pairs.2.1.x, pairs.2.2.y⟩, pairs.2.2),
          (⟨pairs.1.1.x, pairs.1.2.y⟩, ⟨pairs.2.1.x, pairs.2.2.y⟩)]
        [t1, t2, t3, t4]
      split
      · exact hcg
      · split
        · exact hcg
        · exact hcg

theorem genCompStep_prPos {dijFuel : Nat}
    {graph : Cell → Option (List (Cell × Frac))} (hg : GraphPos graph)
    (width height : Nat) (walls trays : List Cell)
    (mstEdges : List (Cell × Cell))
    {acc : List FullComponent × PairRoutes} (hpr : PrPos acc.2)
    (group : List Cell) :
    PrPos (genCompStep dijFuel graph width height walls trays mstEdges acc
      group).2 := by
  have hquadfold : ∀ (l : List ((Cell × Cell) × (Cell × Cell)))
      (t1 t2 t3 t4 : Cell) (acc2 : List FullComponent × PairRoutes),
      PrPos acc2.2 →
      PrPos (l.foldl (genQuadStep dijFuel graph width height walls trays
        mstEdges t1 t2 t3 t4) acc2).2 := by
    intro l t1 t2 t3 t4
    induction l with
    | nil => intro acc2 h; exact h
    | cons p rest ih =>
      intro acc2 h
      rw [List.foldl_cons]
      exact ih _ (genQuadStep_prPos hg width height walls trays mstEdges
        t1 t2 t3 t4 h p)
  unfold genCompStep
  split
  · next t1 t2 t3 =>
    simp only []
    split
    · exact hpr
    · split
      · exact hpr
      · split
        · exact hpr
        · have hcg := @componentGain_prPos dijFuel graph hg width height
            walls trays mstEdges acc.2 hpr
            [(⟨((sortedInts [t1.x, t2.x, t3.x]).drop 1).headD 0,
                ((sortedInts [t1.y, t2.y, t3.y]).drop 1).headD 0⟩, t1),
             (⟨((sortedInts [t1.x, t2.x, t3.x]).drop 1).headD 0,
                ((sortedInts [t1.y, t2.y, t3.y]).drop 1).headD 0⟩, t2),
             (⟨((sortedInts [t1.x, t2.x, t3.x]).drop 1).headD 0,
                ((sortedInts [t1.y, t2.y, t3.y]).drop 1).headD 0⟩, t3)]
            [t1, t2, t3]
          split
          · exact hcg
          · split
            · exact hcg
            · exact hcg
  · next t1 t2 t3 t4 =>
    simp only []
    split
    · exact hpr
    · split
      · exact hpr
      · exact hquadfold _ t1 t2 t3 t4 acc hpr
  · exact hpr

theorem generateAllComponents_prPos {dijFuel : Nat} (terminals : List Cell)
    (mstEdges : List (Cell × Cell)) {pr0 : PairRoutes} (hpr : PrPos pr0)
    {graph : Cell → Option (List (Cell × Frac))} (hg : GraphPos graph)
    (width height : Nat) (walls trays : List Cell) (cables : List Cable)
    (machines : List (String × Machine)) :
    PrPos (generateAllComponents dijFuel terminals mstEdges pr0 graph width
      height walls trays cables machines).2 := by
  unfold generateAllComponents
  have hfold : ∀ (l : List (List Cell))
      (acc : List FullComponent × PairRoutes), PrPos acc.2 →
      PrPos (l.foldl (genCompStep dijFuel graph width height walls trays
        mstEdges) acc).2 := by
    intro l
    induction l with
    | nil => intro acc h; exact h
    | cons g rest ih =>
      intro acc h
      rw [List.foldl_cons]
      exact ih _ (genCompStep_prPos hg width height walls trays mstEdges h g)
  exact hfold _ ([], pr0) hpr

theorem updateMstWithComponents_prPos {mstFuel dijFuel : Nat}
    (mstEdges : List (Cell × Cell)) (comps : List FullComponent)
    {pr : PairRoutes} (hpr : PrPos pr)
    {graph : Cell → Option (List (Cell × Frac))} (hg : GraphPos graph) :
    PrPos (updateMstWithComponents mstFuel dijFuel mstEdges comps pr
      graph).2 := by
  unfold updateMstWithComponents
  have hconn : ∀ (l : List (Cell × Cell)) (pr2 : PairRoutes), PrPos pr2 →
      PrPos (l.foldl
        (fun pr c =>
          match pr c with
          | some _ => pr
          | none =>
            match dijkstraPath dijFuel c.1 c.2 graph with
            | some cp =>
              prUpdate (prUpdate pr c cp) (c.2, c.1) (cp.1, cp.2.reverse)
            | none => pr) pr2) := by
    intro l
    induction l with
    | nil => intro pr2 h; exact h
    | cons c rest ih =>
      intro pr2 h
      rw [List.foldl_cons]
      refine ih _ ?_
      cases hc : pr2 c with
      | some v => simp only [hc]; exact h
      | none =>
        simp only [hc]
        cases hd : dijkstraPath dijFuel c.1 c.2 graph with
        | some cp =>
          simp only [hd]
          have hp : cp.1.Pos := dijkstraPath_cost_pos hg dijFuel c.1 c.2 hd
          exact (h.update hp).update hp
        | none => simp only [hd]; exact h
  have hpp : ∀ (l : List FullComponent) (acc : List Cell × PairRoutes),
      PrPos acc.2 →
      PrPos (l.foldl
        (fun (acc : List Cell × PairRoutes) comp =>
          (comp.steiner_points.foldl insertNew acc.1,
            comp.connections.foldl
              (fun pr c =>
                match pr c with
                | some _ => pr
                | none =>
                  match dijkstraPath dijFuel c.1 c.2 graph with
                  | some cp =>
                    prUpdate (prUpdate pr c cp) (c.2, c.1)
                      (cp.1, cp.2.reverse)
                  | none => pr) acc.2)) acc).2 := by
    intro l
    induction l with
    | nil => intro acc h; exact h
    | cons comp rest ih =>
      intro acc h
      rw [List.foldl_cons]
      exact ih _ (hconn comp.connections acc.2 h)
  exact hpp comps _ hpr

theorem optEvalStep_inv {dijFuel mstFuel : Nat}
    {graph : Cell → Option (List (Cell × Frac))} (hg : GraphPos graph)
    {st1 : OptState} (hlen : st1.currentLength.Pos)
    {acc : PairRoutes × Frac × Option (FullComponent × List (Cell × Cell))}
    (h1 : PrPos acc.1) (h2 : acc.2.1.Pos) (h3 : 0 ≤ acc.2.1.toRat)
    (comp : FullComponent) :
    PrPos (optEvalStep dijFuel mstFuel graph st1 acc comp).1 ∧
    (optEvalStep dijFuel mstFuel graph st1 acc comp).2.1.Pos ∧
    0 ≤ (optEvalStep dijFuel mstFuel graph st1 acc comp).2.1.toRat := by
  have hum := @updateMstWithComponents_prPos mstFuel dijFuel st1.mstEdges
    [comp] acc.1 h1 graph hg
  unfold optEvalStep
  rcases hu : updateMstWithComponents mstFuel dijFuel st1.mstEdges [comp]
    acc.1 graph with ⟨newEdges, newPr⟩
  rw [hu] at hum
  simp only [hu]
  have hmtl : (mstTotalLength newEdges newPr).Pos := mstTotalLength_pos hum
  have himp : (st1.currentLength.sub (mstTotalLength newEdges newPr)).Pos :=
    hlen.sub hmtl
  by_cases hlt : acc.2.1.ltb
      (st1.currentLength.sub (mstTotalLength newEdges newPr)) = true
  · rw [if_pos hlt]
    refine ⟨hum, himp, ?_⟩
    have := (Frac.ltb_iff h2 himp).mp hlt
    exact le_of_lt (lt_of_le_of_lt h3 this)
  · rw [if_neg hlt]
    exact ⟨hum, h2, h3⟩

theorem optEvalFold_inv {dijFuel mstFuel : Nat}
    {graph : Cell → Option (List (Cell × Frac))} (hg : GraphPos graph)
    {st1 : OptState} (hlen : st1.currentLength.Pos)
    (comps : List FullComponent) :
    ∀ (acc : PairRoutes × Frac ×
        Option (FullComponent × List (Cell × Cell))),
      PrPos acc.1 → acc.2.1.Pos → 0 ≤ acc.2.1.toRat →
      PrPos (comps.foldl (optEvalStep dijFuel mstFuel graph st1) acc).1 ∧
      (comps.foldl (optEvalStep dijFuel mstFuel graph st1) acc).2.1.Pos ∧
      0 ≤ (comps.foldl (optEvalStep dijFuel mstFuel graph st1)
        acc).2.1.toRat := by
  induction comps with
  | nil => intro acc h1 h2 h3; exact ⟨h1, h2, h3⟩
  | cons comp rest ih =>
    intro acc h1 h2 h3
    rw [List.foldl_cons]
    obtain ⟨g1, g2, g3⟩ := optEvalStep_inv hg hlen h1 h2 h3 comp
    exact ih _ g1 g2 g3

theorem optInnerLoop_inv {dijFuel mstFuel : Nat}
    {graph : Cell → Option (List (Cell × Frac))} (hg : GraphPos graph)
    (width height : Nat) (walls trays : List Cell) (cables : List Cable)
    (machines : List (String × Machine)) :
    ∀ (fuel : Nat) (st : OptState), PrPos st.pairRoutes →
      st.currentLength.Pos →
      PrPos (optInnerLoop dijFuel mstFuel graph width height walls trays
        cables machines fuel st).1.pairRoutes ∧
      (optInnerLoop dijFuel mstFuel graph width height walls trays cables
        machines fuel st).1.currentLength.Pos ∧
      (optInnerLoop dijFuel mstFuel graph width height walls trays cables
        machines fuel st).1.currentLength.toRat ≤
        st.currentLength.toRat := by
  intro fuel
  induction fuel with
  | zero => intro st h1 h2; exact ⟨h1, h2, le_refl _⟩
  | succ fuel ih =>
    intro st h1 h2
    simp only [optInnerLoop]
    rcases hgc : generateAllComponents dijFuel st.terminals st.mstEdges
      st.pairRoutes graph width height walls trays cables machines with
      ⟨comps, pr2⟩
    have hpr2 : PrPos pr2 := by
      have := @generateAllComponents_prPos dijFuel st.terminals st.mstEdges
        st.pairRoutes h1 graph hg width height walls trays cables machines
      rw [hgc] at this
      exact this
    simp only []
    split
    · exact ⟨hpr2, h2, le_refl _⟩
    · rcases hev : comps.foldl
        (optEvalStep dijFuel mstFuel graph { st with pairRoutes := pr2 })
        (pr2, Frac.ofInt 0, none) with ⟨prF, imp, bestOpt⟩
      have hfold := @optEvalFold_inv dijFuel mstFuel graph hg
        { st with pairRoutes := pr2 } h2 comps (pr2, Frac.ofInt 0, none)
        hpr2 (Frac.Pos.ofInt 0) (by rw [Frac.toRat_ofInt]; norm_num)
      rw [hev] at hfold
      obtain ⟨g1, g2, g3⟩ := hfold
      simp only []
      cases bestOpt with
      | none => exact ⟨g1, h2, le_refl _⟩
      | some best =>
        have hst2len : ((optAdopt { st with pairRoutes := pr2 }
            (prF, imp, some best) best).currentLength).Pos := h2.sub g2
        have hrec := ih (optAdopt { st with pairRoutes := pr2 }
          (prF, imp, some best) best) g1 hst2len
        refine ⟨hrec.1, hrec.2.1, ?_⟩
        refine le_trans hrec.2.2 ?_
        have : (optAdopt { st with pairRoutes := pr2 }
            (prF, imp, some best) best).currentLength.toRat =
            st.currentLength.toRat - imp.toRat := Frac.toRat_sub h2 g2
        rw [this]
        linarith

theorem optPasses_inv {dijFuel mstFuel innerFuel : Nat}
    {graph : Cell → Option (List (Cell × Frac))} (hg : GraphPos graph)
    (width height : Nat) (walls trays : List Cell) (cables : List Cable)
    (machines : List (String × Machine)) :
    ∀ (passes passId : Nat) (st : OptState), PrPos st.pairRoutes →
      st.currentLength.Pos →
      PrPos (optPasses dijFuel mstFuel innerFuel graph width height walls
        trays cables machines passes passId st).pairRoutes ∧
      (optPasses dijFuel mstFuel innerFuel graph width height walls trays
        cables machines passes passId st).currentLength.Pos ∧
      (optPasses dijFuel mstFuel innerFuel graph width height walls trays
        cables machines passes passId st).currentLength.toRat ≤
        st.currentLength.toRat := by
  intro passes
  induction passes with
  | zero => intro passId st h1 h2; exact ⟨h1, h2, le_refl _⟩
  | succ passes ih =>
    intro passId st h1 h2
    simp only [optPasses]
    rcases hr : optInnerLoop dijFuel mstFuel graph width height walls trays
      cables machines innerFuel st with ⟨st2, improved⟩
    have hinner := @optInnerLoop_inv dijFuel mstFuel graph hg width height
      walls trays cables machines innerFuel st h1 h2
    rw [hr] at hinner
    obtain ⟨g1, g2, g3⟩ := hinner
    simp only []
    split
    · have hrec := ih (passId + 1) { st2 with passesUsed := passId } g1 g2
      exact ⟨hrec.1, hrec.2.1, le_trans hrec.2.2 g3⟩
    · exact ⟨g1, g2, g3⟩

theorem optGraph_pos (cfg : GridConfig) : GraphPos (optGraph cfg) :=
  buildWeightedGraph_pos _ _ _ _ (Frac.Pos.ofInt 1) _ _

theorem optMstD_prPos (d m : Nat) (cfg : GridConfig) :
    PrPos (optMstD d m cfg).2 := by
  unfold optMstD
  cases hm : optMst d m cfg with
  | none => exact PrPos.empty
  | some p => exact buildMstLazy_prPos (optGraph_pos cfg) hm

theorem optInitLength_pos (d m : Nat) (cfg : GridConfig) :
    (optInitLength d m cfg).Pos :=
  mstTotalLength_pos (optMstD_prPos d m cfg)

theorem optStF_inv (d m i : Nat) (cfg : GridConfig) :
    PrPos (optStF d m i cfg).pairRoutes ∧
    (optStF d m i cfg).currentLength.Pos ∧
    (optStF d m i cfg).currentLength.toRat ≤
      (optInitLength d m cfg).toRat :=
  optPasses_inv (optGraph_pos cfg) cfg.width cfg.height (optWalls cfg)
    (optTrays cfg) (validCablesOf cfg) cfg.machines 5 1
    (optSt0 d m cfg) (optMstD_prPos d m cfg) (optInitLength_pos d m cfg)

theorem optAssemble_debug_init (d m rf i : Nat) (cfg : GridConfig)
    (rp : List (String × List Cell) × List ProblematicCable) :
    (optAssemble d m rf i cfg rp).debug_info.initial_mst_length =
      optInitLength d m cfg := rfl

theorem optAssemble_debug_final (d m rf i : Nat) (cfg : GridConfig)
    (rp : List (String × List Cell) × List ProblematicCable) :
    (optAssemble d m rf i cfg rp).debug_info.final_length =
      (optStF d m i cfg).currentLength := rfl

theorem optAssemble_debug_pct (d m rf i : Nat) (cfg : GridConfig)
    (rp : List (String × List Cell) × List ProblematicCable) :
    (optAssemble d m rf i cfg rp).debug_info.improvement_percentage =
      (if (Frac.ofInt 0).ltb (optInitLength d m cfg) then
        ((Frac.ofInt 100).mul ((optInitLength d m cfg).sub
          (optStF d m i cfg).currentLength)).div (optInitLength d m cfg)
      else Frac.ofInt 0) := rfl

/-- The candidate fold starts at `best_improvement = 0.0` and replaces
the best only on a strict `ltb`: a recorded best has a strictly positive
improvement. -/
theorem optEvalStep_strict {dijFuel mstFuel : Nat}
    {graph : Cell → Option (List (Cell × Frac))} (hg : GraphPos graph)
    {st1 : OptState} (hlen : st1.currentLength.Pos)
    {acc : PairRoutes × Frac × Option (FullComponent × List (Cell × Cell))}
    (h2 : acc.2.1.Pos) (h3 : 0 ≤ acc.2.1.toRat)
    (h1 : PrPos acc.1)
    (h4 : acc.2.2 = none ∨ 0 < acc.2.1.toRat) (comp : FullComponent) :
    (optEvalStep dijFuel mstFuel graph st1 acc comp).2.2 = none ∨
      0 < (optEvalStep dijFuel mstFuel graph st1 acc comp).2.1.toRat := by
  have hum := @updateMstWithComponents_prPos mstFuel dijFuel st1.mstEdges
    [comp] acc.1 h1 graph hg
  unfold optEvalStep
  rcases hu : updateMstWithComponents mstFuel dijFuel st1.mstEdges [comp]
    acc.1 graph with ⟨newEdges, newPr⟩
  rw [hu] at hum
  simp only [hu]
  have hmtl : (mstTotalLength newEdges newPr).Pos := mstTotalLength_pos hum
  have himp : (st1.currentLength.sub (mstTotalLength newEdges newPr)).Pos :=
    hlen.sub hmtl
  by_cases hlt : acc.2.1.ltb
      (st1.currentLength.sub (mstTotalLength newEdges newPr)) = true
  · rw [if_pos hlt]
    right
    have hlt2 := (Frac.ltb_iff h2 himp).mp hlt
    exact lt_of_le_of_lt h3 hlt2
  · rw [if_neg hlt]
    exact h4

theorem optEvalFold_strict {dijFuel mstFuel : Nat}
    {graph : Cell → Option (List (Cell × Frac))} (hg : GraphPos graph)
    {st1 : OptState} (hlen : st1.currentLength.Pos)
    (comps : List FullComponent) :
    ∀ (acc : PairRoutes × Frac ×
        Option (FullComponent × List (Cell × Cell))),
      PrPos acc.1 → acc.2.1.Pos → 0 ≤ acc.2.1.toRat →
      (acc.2.2 = none ∨ 0 < acc.2.1.toRat) →
      (comps.foldl (optEvalStep dijFuel mstFuel graph st1) acc).2.2 = none ∨
      0 < (comps.foldl (optEvalStep dijFuel mstFuel graph st1)
        acc).2.1.toRat := by
  induction comps with
  | nil => intro acc _ _ _ h4; exact h4
  | cons comp rest ih =>
    intro acc h1 h2 h3 h4
    rw [List.foldl_cons]
    obtain ⟨g1, g2, g3⟩ := optEvalStep_inv hg hlen h1 h2 h3 comp
    exact ih _ g1 g2 g3 (optEvalStep_strict hg hlen h2 h3 h1 h4 comp)

/-- An inner-loop round that reports an improvement adopted a component,
and the adoption strictly decreased the tracked tree length (the
accepted improvement is strictly positive). -/
theorem optInnerLoop_adopt_strict {dijFuel mstFuel : Nat}
    {graph : Cell → Option (List (Cell × Frac))} (hg : GraphPos graph)
    (width height : Nat) (walls trays : List Cell) (cables : List Cable)
    (machines : List (String × Machine)) (fuel : Nat) (st st2 : OptState)
    (h1 : PrPos st.pairRoutes) (h2 : st.currentLength.Pos)
    (h : optInnerLoop dijFuel mstFuel graph width height walls trays cables
      machines fuel st = (st2, true)) :
    st2.currentLength.toRat < st.currentLength.toRat := by
  cases fuel with
  | zero =>
    simp only [optInnerLoop] at h
    injection h with _ hb
    exact Bool.noConfusion hb
  | succ fuel =>
    simp only [optInnerLoop] at h
    rcases hgc : generateAllComponents dijFuel st.terminals st.mstEdges
      st.pairRoutes graph width height walls trays cables machines with
      ⟨comps, pr2⟩
    have hpr2 : PrPos pr2 := by
      have hga := @generateAllComponents_prPos dijFuel st.terminals
        st.mstEdges st.pairRoutes h1 graph hg width height walls trays
        cables machines
      rw [hgc] at hga
      exact hga
    simp only [hgc] at h
    split at h
    · injection h with _ hb
      exact Bool.noConfusion hb
    · rcases hev : comps.foldl
        (optEvalStep dijFuel mstFuel graph { st with pairRoutes := pr2 })
        (pr2, Frac.ofInt 0, none) with ⟨prF, imp, bestOpt⟩
      have hfold := @optEvalFold_inv dijFuel mstFuel graph hg
        { st with pairRoutes := pr2 } h2 comps (pr2, Frac.ofInt 0, none)
        hpr2 (Frac.Pos.ofInt 0) (by rw [Frac.toRat_ofInt]; norm_num)
      have hstrict := @optEvalFold_strict dijFuel mstFuel graph hg
        { st with pairRoutes := pr2 } h2 comps (pr2, Frac.ofInt 0, none)
        hpr2 (Frac.Pos.ofInt 0) (by rw [Frac.toRat_ofInt]; norm_num)
        (Or.inl rfl)
      rw [hev] at hfold hstrict
      obtain ⟨g1, g2, _⟩ := hfold
      simp only [hev] at h
      cases bestOpt with
      | none =>
        simp only [] at h
        injection h with _ hb
        exact Bool.noConfusion hb
      | some best =>
        simp only [] at h
        injection h with hst2 _
        have himp : 0 < imp.toRat := by
          rcases hstrict with hn | hp
          · exact Option.noConfusion hn
          · exact hp
        have hadopt : (optAdopt { st with pairRoutes := pr2 }
            (prF, imp, some best) best).currentLength.toRat =
            st.currentLength.toRat - imp.toRat := Frac.toRat_sub h2 g2
        have hrec := @optInnerLoop_inv dijFuel mstFuel graph hg width height
          walls trays cables machines fuel
          (optAdopt { st with pairRoutes := pr2 } (prF, imp, some best)
            best) g1 (h2.sub g2)
        rw [← hst2]
        refine lt_of_le_of_lt hrec.2.2 ?_
        rw [hadopt]
        linarith

/-! ## Claim C7: monotone tree length and the improvement percentage -/

/-- C7: every round of the optimiser's inner loop that adopts a candidate
component strictly decreases the tracked tree length (the fold keeps a
best only on a strict improvement, and adoption subtracts it);
consequently in every successful response `final_length ≤
initial_mst_length`, and when the initial length is positive,
`improvement_percentage` equals `100 · (initial − final) / initial`. -/
theorem C7_monotone_and_percentage (d m rf i : Nat) (cfg : GridConfig)
    (r : RoutingResponse) (h : optimizeCablePaths d m rf i cfg = some r) :
    (∀ (fuel : Nat) (st st2 : OptState), PrPos st.pairRoutes →
      st.currentLength.Pos →
      optInnerLoop d m (optGraph cfg) cfg.width cfg.height (optWalls cfg)
        (optTrays cfg) (validCablesOf cfg) cfg.machines fuel st =
        (st2, true) →
      st2.currentLength.toRat < st.currentLength.toRat) ∧
    r.debug_info.final_length.toRat ≤
      r.debug_info.initial_mst_length.toRat ∧
    (0 < r.debug_info.initial_mst_length.toRat →
      r.debug_info.improvement_percentage.toRat =
        100 * (r.debug_info.initial_mst_length.toRat -
          r.debug_info.final_length.toRat) /
          r.debug_info.initial_mst_length.toRat) := by
  obtain ⟨rp, _, hr⟩ := optimizeCablePaths_some_elim h
  have hinit : (optInitLength d m cfg).Pos := optInitLength_pos d m cfg
  have hstf := optStF_inv d m i cfg
  refine ⟨?_, ?_⟩
  · intro fuel st st2 h1 h2 hl
    exact optInnerLoop_adopt_strict (optGraph_pos cfg) cfg.width cfg.height
      (optWalls cfg) (optTrays cfg) (validCablesOf cfg) cfg.machines fuel
      st st2 h1 h2 hl
  · rw [hr]
    rw [optAssemble_debug_final, optAssemble_debug_init,
      optAssemble_debug_pct]
    refine ⟨hstf.2.2, ?_⟩
    intro hpos
    have hltb : (Frac.ofInt 0).ltb (optInitLength d m cfg) = true := by
      rw [Frac.ltb_iff (Frac.Pos.ofInt 0) hinit, Frac.toRat_ofInt]
      exact_mod_cast hpos
    rw [if_pos hltb]
    have hnum : ((Frac.ofInt 100).mul ((optInitLength d m cfg).sub
        (optStF d m i cfg).currentLength)).Pos :=
      (Frac.Pos.ofInt 100).mul (hinit.sub hstf.2.1)
    rw [Frac.toRat_div hnum hinit, Frac.toRat_mul, Frac.toRat_ofInt,
      Frac.toRat_sub hinit hstf.2.1]
    norm_num

/-- Witness for `C7_monotone_and_percentage` on `cfgTray`. -/
theorem C7_monotone_and_percentage_witness :
    optimizeCablePaths 50 20 50 5 cfgTray = some rTray ∧
    ((∀ (fuel : Nat) (st st2 : OptState), PrPos st.pairRoutes →
      st.currentLength.Pos →
      optInnerLoop 50 20 (optGraph cfgTray) cfgTray.width cfgTray.height
        (optWalls cfgTray) (optTrays cfgTray) (validCablesOf cfgTray)
        cfgTray.machines fuel st = (st2, true) →
      st2.currentLength.toRat < st.currentLength.toRat) ∧
    rTray.debug_info.final_length.toRat ≤
      rTray.debug_info.initial_mst_length.toRat ∧
    (0 < rTray.debug_info.initial_mst_length.toRat →
      rTray.debug_info.improvement_percentage.toRat =
        100 * (rTray.debug_info.initial_mst_length.toRat -
          rTray.debug_info.final_length.toRat) /
          rTray.debug_info.initial_mst_length.toRat)) :=
  ⟨by decide, C7_monotone_and_percentage 50 20 50 5 cfgTray rTray (by decide)⟩

/-! ## Passability plumbing for claim C6 -/

theorem mem_insertNew_iff {α : Type} [DecidableEq α] (l : List α) (a x : α) :
    x ∈ insertNew l a ↔ x ∈ l ∨ x = a := by
  unfold insertNew
  split
  · next hmem =>
    constructor
    · exact Or.inl
    · intro h
      rcases h with h | h
      · exact h
      · rw [h]; exact hmem
  · rw [List.mem_append, List.mem_singleton]

theorem mem_dedupKeepOrder {α : Type} [DecidableEq α] (l : List α) (x : α) :
    x ∈ dedupKeepOrder l ↔ x ∈ l := by
  have key : ∀ (l2 : List α) (acc : List α),
      x ∈ l2.foldl insertNew acc ↔ x ∈ acc ∨ x ∈ l2 := by
    intro l2
    induction l2 with
    | nil => intro acc; simp
    | cons a rest ih =>
      intro acc
      rw [List.foldl_cons, ih, mem_insertNew_iff, List.mem_cons]
      tauto
  unfold dedupKeepOrder
  rw [key l []]
  simp

/-- Edges of the weighted graph only reach passable cells. -/
def GraphClosed (g : Cell → Option (List (Cell × Frac))) : Prop :=
  ∀ c adj, g c = some adj → ∀ nw ∈ adj, (g nw.1).isSome = true

theorem buildWeightedGraph_closed (width height : Nat)
    (walls trays : List Cell) (red : Frac) (dW dT : Cell → Option Nat) :
    GraphClosed (buildWeightedGraph width height walls trays red dW dT) := by
  intro c adj hadj nw hnw
  unfold buildWeightedGraph at hadj ⊢
  split at hadj
  · injection hadj with h2
    rw [← h2] at hnw
    obtain ⟨n, _, hn⟩ := List.mem_filterMap.mp hnw
    split at hn
    · next hcond =>
      injection hn with h3
      rw [← h3]
      rw [if_pos hcond]
      rfl
    · exact Option.noConfusion hn
  · exact Option.noConfusion hadj

theorem buildWeightedGraph_isSome_elim {width height : Nat}
    {walls trays : List Cell} {red : Frac} {dW dT : Cell → Option Nat}
    {c : Cell}
    (h : (buildWeightedGraph width height walls trays red dW dT c).isSome =
      true) : inGrid width height c = true ∧ ¬ c ∈ walls := by
  unfold buildWeightedGraph at h
  split at h
  · next hcond => exact hcond
  · exact Bool.noConfusion h

theorem optGraph_closed (cfg : GridConfig) : GraphClosed (optGraph cfg) :=
  buildWeightedGraph_closed cfg.width cfg.height (optWalls cfg)
    (optTrays cfg) (Frac.ofInt 1) _ _

/-- Cells reached by following `came_from` from a passable start are
passable (the `came_from` map only mentions passable cells). -/
theorem reconstructAux_safe {g : Cell → Option (List (Cell × Frac))}
    {cameFrom : Cell → Option (Option Cell)}
    (hcf : ∀ c p, cameFrom c = some (some p) →
      (g p).isSome = true ∧ (g c).isSome = true) :
    ∀ (fuel : Nat) (c0 : Cell), (g c0).isSome = true →
      ∀ x ∈ reconstructAux fuel cameFrom c0, (g x).isSome = true := by
  intro fuel
  induction fuel with
  | zero => intro c0 _ x hx; exact absurd hx (List.not_mem_nil x)
  | succ fuel ih =>
    intro c0 h0 x hx
    unfold reconstructAux at hx
    rcases List.mem_cons.mp hx with he | he
    · rw [he]; exact h0
    · cases hc : cameFrom c0 with
      | none => rw [hc] at he; exact absurd he (List.not_mem_nil x)
      | some o =>
        cases o with
        | none => rw [hc] at he; exact absurd he (List.not_mem_nil x)
        | some p =>
          rw [hc] at he
          exact ih p (hcf c0 p hc).1 x he

theorem dijRelax_fold_safe {g : Cell → Option (List (Cell × Frac))}
    (visited : Cell → Bool) (cost : Frac) (current : Cell)
    (hcur : (g current).isSome = true) (adj : List (Cell × Frac)) :
    ∀ (st : DijState), (∀ nw ∈ adj, (g nw.1).isSome = true) →
      (∀ e ∈ st.heap, (g e.2.2).isSome = true) →
      (∀ c p, st.cameFrom c = some (some p) →
        (g p).isSome = true ∧ (g c).isSome = true) →
      (∀ e ∈ (adj.foldl (dijRelax visited cost current) st).heap,
        (g e.2.2).isSome = true) ∧
      (∀ c p, (adj.foldl (dijRelax visited cost current) st).cameFrom c =
          some (some p) →
        (g p).isSome = true ∧ (g c).isSome = true) := by
  induction adj with
  | nil => intro st _ hheap hcf; exact ⟨hheap, hcf⟩
  | cons nw rest ih =>
    intro st hadj hheap hcf
    rw [List.foldl_cons]
    refine ih _ (fun x hx => hadj x (List.mem_cons_of_mem nw hx)) ?_ ?_
    · unfold dijRelax
      split
      · exact hheap
      · split
        · exact heapPush_forall _ hheap
            (hadj nw (List.mem_cons_self nw rest))
        · exact hheap
    · unfold dijRelax
      split
      · exact hcf
      · split
        · intro c p hcp
          have hcp2 : Function.update st.cameFrom nw.1 (some (some current))
              c = some (some p) := hcp
          by_cases hc : c = nw.1
          · rw [hc, Function.update_same] at hcp2
            injection hcp2 with h2
            injection h2 with h3
            rw [← h3, hc]
            exact ⟨hcur, hadj nw (List.mem_cons_self nw rest)⟩
          · rw [Function.update_noteq hc] at hcp2
            exact hcf c p hcp2
        · exact hcf

theorem dijkstraLoop_route_safe {g : Cell → Option (List (Cell × Frac))}
    (hclosed : GraphClosed g) (endp : Cell) :
    ∀ (fuel : Nat) (heap : List (Frac × Nat × Cell)) (counter : Nat)
      (distances : Cell → Option Frac)
      (cameFrom : Cell → Option (Option Cell)) (visited : Cell → Bool),
      (∀ e ∈ heap, (g e.2.2).isSome = true) →
      (∀ c p, cameFrom c = some (some p) →
        (g p).isSome = true ∧ (g c).isSome = true) →
      ∀ v, dijkstraLoop g endp fuel heap counter distances cameFrom visited
        = some v → ∀ x ∈ v.2, (g x).isSome = true := by
  intro fuel
  induction fuel with
  | zero =>
    intro heap counter distances cameFrom visited _ _ v h
    exact Option.noConfusion h
  | succ fuel ih =>
    intro heap counter distances cameFrom visited hheap hcf v h
    cases heap with
    | nil =>
      simp only [dijkstraLoop] at h
      exact Option.noConfusion h
    | cons hd rest =>
      simp only [dijkstraLoop] at h
      obtain ⟨cost, cnt, current⟩ := hd
      split at h
      · exact ih rest counter distances cameFrom visited
          (fun e he => hheap e (List.mem_cons_of_mem _ he)) hcf v h
      · have hcur : (g current).isSome = true :=
          hheap (cost, cnt, current) (List.mem_cons_self _ _)
        split at h
        · injection h with h2
          rw [← h2]
          intro x hx
          rw [List.mem_reverse] at hx
          exact reconstructAux_safe hcf (fuel + 1) current hcur x hx
        · have hadj : ∀ nw ∈ (g current).getD [], (g nw.1).isSome = true := by
            intro nw hnw
            cases hgc : g current with
            | none =>
              rw [hgc] at hnw
              exact absurd hnw (List.not_mem_nil nw)
            | some adj =>
              rw [hgc] at hnw
              exact hclosed current adj hgc nw hnw
          obtain ⟨g1, g2⟩ := dijRelax_fold_safe
            (Function.update visited current true) cost current hcur
            ((g current).getD [])
            ⟨rest, counter, distances, cameFrom⟩ hadj
            (fun e he => hheap e (List.mem_cons_of_mem _ he)) hcf
          exact ih _ _ _ _ _ g1 g2 v h

theorem dijkstraPath_route_safe {g : Cell → Option (List (Cell × Frac))}
    (hclosed : GraphClosed g) (fuel : Nat) (start endp : Cell)
    {v : Frac × List Cell} (h : dijkstraPath fuel start endp g = some v) :
    ∀ x ∈ v.2, (g x).isSome = true := by
  unfold dijkstraPath at h
  split at h
  · exact Option.noConfusion h
  · next hguard =>
    have hstart : (g start).isSome = true := by
      rcases not_or.mp hguard with ⟨h1, _⟩
      cases hgs : g start with
      | none => exact absurd (by rw [hgs]; rfl) h1
      | some a => rfl
    refine dijkstraLoop_route_safe hclosed endp fuel _ _ _ _ _ ?_ ?_ v h
    · intro e he
      rw [List.mem_singleton.mp he]
      exact hstart
    · intro c p hcp
      by_cases hc : c = start
      · rw [hc, Function.update_same] at hcp
        injection hcp with h2
        exact Option.noConfusion h2
      · rw [Function.update_noteq hc] at hcp
        exact Option.noConfusion hcp

theorem dijRelaxNoVis_fold_safe {g : Cell → Option (List (Cell × Frac))}
    (source : Cell) (cost : Frac) (current : Cell)
    (hcur : (g current).isSome = true) (adj : List (Cell × Frac)) :
    ∀ (st : DijState), (∀ nw ∈ adj, (g nw.1).isSome = true) →
      (∀ e ∈ st.heap, (g e.2.2).isSome = true ∨ e.2.2 = source) →
      (∀ c p, st.cameFrom c = some (some p) →
        (g p).isSome = true ∧ (g c).isSome = true) →
      ((g source).isSome = false → st.cameFrom source = some none) →
      (∀ e ∈ (adj.foldl (dijRelaxNoVis cost current) st).heap,
        (g e.2.2).isSome = true ∨ e.2.2 = source) ∧
      (∀ c p, (adj.foldl (dijRelaxNoVis cost current) st).cameFrom c =
          some (some p) → (g p).isSome = true ∧ (g c).isSome = true) ∧
      ((g source).isSome = false →
        (adj.foldl (dijRelaxNoVis cost current) st).cameFrom source =
          some none) := by
  induction adj with
  | nil => intro st _ hheap hcf h0; exact ⟨hheap, hcf, h0⟩
  | cons nw rest ih =>
    intro st hadj hheap hcf h0
    rw [List.foldl_cons]
    have hnw : (g nw.1).isSome = true := hadj nw (List.mem_cons_self nw rest)
    refine ih _ (fun x hx => hadj x (List.mem_cons_of_mem nw hx)) ?_ ?_ ?_
    · unfold dijRelaxNoVis
      split
      · exact heapPush_forall _ hheap (Or.inl hnw)
      · exact hheap
    · unfold dijRelaxNoVis
      split
      · intro c p hcp
        have hcp2 : Function.update st.cameFrom nw.1 (some (some current))
            c = some (some p) := hcp
        by_cases hc : c = nw.1
        · rw [hc, Function.update_same] at hcp2
          injection hcp2 with h2
          injection h2 with h3
          rw [← h3, hc]
          exact ⟨hcur, hnw⟩
        · rw [Function.update_noteq hc] at hcp2
          exact hcf c p hcp2
      · exact hcf
    · unfold dijRelaxNoVis
      split
      · intro hno
        have hne : source ≠ nw.1 := by
          intro he
          rw [← he] at hnw
          rw [hnw] at hno
          exact Bool.noConfusion hno
        show Function.update st.cameFrom nw.1 (some (some current)) source =
          some none
        rw [Function.update_noteq hne]
        exact h0 hno
      · exact h0

theorem dijkstraToTargetsLoop_safe {g : Cell → Option (List (Cell × Frac))}
    (hclosed : GraphClosed g) (source : Cell) :
    ∀ (fuel : Nat) (heap : List (Frac × Nat × Cell)) (counter : Nat)
      (distances : Cell → Option Frac)
      (cameFrom : Cell → Option (Option Cell)) (remaining : List Cell)
      (results : List (Cell × Frac × List Cell)),
      (∀ e ∈ heap, (g e.2.2).isSome = true ∨ e.2.2 = source) →
      (∀ c p, cameFrom c = some (some p) →
        (g p).isSome = true ∧ (g c).isSome = true) →
      ((g source).isSome = false → cameFrom source = some none) →
      (∀ r ∈ results, (∀ x ∈ r.2.2, (g x).isSome = true) ∨ r.2.2 = [source])
      →
      ∀ (out : List (Cell × Frac × List Cell)),
      dijkstraToTargetsLoop g fuel heap counter distances cameFrom
        remaining results = some out →
      ∀ r ∈ out,
        (∀ x ∈ r.2.2, (g x).isSome = true) ∨ r.2.2 = [source] := by
  intro fuel
  induction fuel with
  | zero =>
    intro heap counter distances cameFrom remaining results _ _ _ hres out
      hout r hr
    injection hout with h2
    rw [← h2] at hr
    exact hres r hr
  | succ fuel ih =>
    intro heap counter distances cameFrom remaining results hheap hcf h0
      hres out hout r hr
    simp only [dijkstraToTargetsLoop] at hout
    split at hout
    · injection hout with h2
      rw [← h2] at hr
      exact hres r hr
    · split at hout
      · injection hout with h2
        rw [← h2] at hr
        exact hres r hr
      · next cost cnt current rest =>
        have hrec : (∀ x ∈ (reconstructAux (fuel + 1) cameFrom
            current).reverse, (g x).isSome = true) ∨
            (reconstructAux (fuel + 1) cameFrom current).reverse =
              [source] := by
          rcases hheap (cost, cnt, current) (List.mem_cons_self _ _) with
            hc | hc
          · left
            intro x hx
            rw [List.mem_reverse] at hx
            exact reconstructAux_safe hcf (fuel + 1) current hc x hx
          · have hc2 : current = source := hc
            by_cases hgs : (g source).isSome = true
            · left
              intro x hx
              rw [List.mem_reverse] at hx
              refine reconstructAux_safe hcf (fuel + 1) current ?_ x hx
              rw [hc2]
              exact hgs
            · right
              have h0e := h0 (Bool.eq_false_iff.mpr hgs)
              rw [hc2]
              unfold reconstructAux
              rw [h0e]
              rfl
        have hres2 : ∀ r2 ∈ results ++ [(current, cost,
            (reconstructAux (fuel + 1) cameFrom current).reverse)],
            (∀ x ∈ r2.2.2, (g x).isSome = true) ∨ r2.2.2 = [source] := by
          intro r2 hr2
          rcases List.mem_append.mp hr2 with h2 | h2
          · exact hres r2 h2
          · rw [List.mem_singleton.mp h2]
            exact hrec
        split at hout
        · exact ih _ _ _ _ _ _
            (fun e he => hheap e (List.mem_cons_of_mem _ he)) hcf h0 hres
            _ hout r hr
        · split at hout
          · exact ih _ _ _ _ _ _
              (fun e he => hheap e (List.mem_cons_of_mem _ he)) hcf h0 hres
              _ hout r hr
          · split at hout
            · split at hout
              · injection hout with h2
                rw [← h2] at hr
                exact hres2 r hr
              · split at hout
                · exact Option.noConfusion hout
                · next adj hgc =>
                  obtain ⟨g1, g2, g3⟩ := dijRelaxNoVis_fold_safe source cost
                    current (by rw [hgc]; rfl) adj
                    ⟨rest, counter, distances, cameFrom⟩
                    (fun nw hnw => hclosed current adj hgc nw hnw)
                    (fun e he => hheap e (List.mem_cons_of_mem _ he)) hcf h0
                  exact ih _ _ _ _ _ _ g1 g2 g3 hres2 _ hout r hr
            · split at hout
              · exact Option.noConfusion hout
              · next adj hgc =>
                obtain ⟨g1, g2, g3⟩ := dijRelaxNoVis_fold_safe source cost
                  current (by rw [hgc]; rfl) adj
                  ⟨rest, counter, distances, cameFrom⟩
                  (fun nw hnw => hclosed current adj hgc nw hnw)
                  (fun e he => hheap e (List.mem_cons_of_mem _ he)) hcf h0
                exact ih _ _ _ _ _ _ g1 g2 g3 hres _ hout r hr

theorem dijkstraToTargets_safe {g : Cell → Option (List (Cell × Frac))}
    (hclosed : GraphClosed g) (fuel : Nat) (source : Cell)
    (targets : List Cell) {out : List (Cell × Frac × List Cell)}
    (hout : dijkstraToTargets fuel source targets g = some out) :
    ∀ r ∈ out,
      (∀ x ∈ r.2.2, (g x).isSome = true) ∨ r.2.2 = [source] := by
  intro r hr
  unfold dijkstraToTargets at hout
  split at hout
  · injection hout with h2
    rw [← h2] at hr
    exact absurd hr (List.not_mem_nil r)
  · refine dijkstraToTargetsLoop_safe hclosed source fuel _ _ _ _ _ _
      ?_ ?_ ?_ ?_ _ hout r hr
    · intro e he
      rw [List.mem_singleton.mp he]
      exact Or.inr rfl
    · intro c p hcp
      by_cases hc : c = source
      · rw [hc, Function.update_same] at hcp
        injection hcp with h2
        exact Option.noConfusion h2
      · rw [Function.update_noteq hc] at hcp
        exact Option.noConfusion hcp
    · intro _
      rw [Function.update_same]
    · intro r2 hr2
      exact absurd hr2 (List.not_mem_nil r2)

/-- All cached routes consist of passable cells, or are single-cell
routes (possible only for a terminal that is its own target). -/
def PrSafe (g : Cell → Option (List (Cell × Frac))) (pr : PairRoutes) :
    Prop :=
  ∀ p v, pr p = some v → (∀ x ∈ v.2, (g x).isSome = true) ∨ ∃ z, v.2 = [z]

theorem prSafeEmpty (g : Cell → Option (List (Cell × Frac))) :
    PrSafe g (fun _ => none) := by
  intro p v h
  exact Option.noConfusion h

theorem prSafeUpdate {g : Cell → Option (List (Cell × Frac))}
    {pr : PairRoutes} (h : PrSafe g pr) {k : Cell × Cell}
    {v : Frac × List Cell}
    (hv : (∀ x ∈ v.2, (g x).isSome = true) ∨ ∃ z, v.2 = [z]) :
    PrSafe g (prUpdate pr k v) := by
  intro p w hw
  unfold prUpdate at hw
  by_cases hp : p = k
  · rw [hp, Function.update_same] at hw
    injection hw with h2
    rw [← h2]
    exact hv
  · rw [Function.update_noteq hp] at hw
    exact h p w hw

theorem routeSafe_reverse {g : Cell → Option (List (Cell × Frac))}
    {rt : List Cell}
    (h : (∀ x ∈ rt, (g x).isSome = true) ∨ ∃ z, rt = [z]) :
    (∀ x ∈ rt.reverse, (g x).isSome = true) ∨ ∃ z, rt.reverse = [z] := by
  rcases h with h | ⟨z, hz⟩
  · left
    intro x hx
    rw [List.mem_reverse] at hx
    exact h x hx
  · right
    exact ⟨z, by rw [hz]; rfl⟩

theorem mstAddResults_prSafe {g : Cell → Option (List (Cell × Frac))}
    {v : Cell} {st : MstState} (hst : PrSafe g st.pairRoutes)
    {results : List (Cell × Frac × List Cell)}
    (hres : ∀ r ∈ results,
      (∀ x ∈ r.2.2, (g x).isSome = true) ∨ ∃ z, r.2.2 = [z]) :
    PrSafe g (mstAddResults v st results).pairRoutes := by
  unfold mstAddResults
  induction results generalizing st with
  | nil => exact hst
  | cons r rest ih =>
    rw [List.foldl_cons]
    refine ih ?_ (fun x hx => hres x (List.mem_cons_of_mem r hx))
    have hr := hres r (List.mem_cons_self r rest)
    exact prSafeUpdate (prSafeUpdate hst hr) (routeSafe_reverse hr)

theorem dijkstraToTargets_safe2 {g : Cell → Option (List (Cell × Frac))}
    (hclosed : GraphClosed g) (fuel : Nat) (source : Cell)
    (targets : List Cell) {out : List (Cell × Frac × List Cell)}
    (hout : dijkstraToTargets fuel source targets g = some out) :
    ∀ r ∈ out,
      (∀ x ∈ r.2.2, (g x).isSome = true) ∨ ∃ z, r.2.2 = [z] := by
  intro r hr
  exact (dijkstraToTargets_safe hclosed fuel source targets hout r
    hr).imp_right (fun h => ⟨source, h⟩)

theorem buildMstLazyLoop_prSafe {dijFuel : Nat} {terminals : List Cell}
    {g : Cell → Option (List (Cell × Frac))} (hclosed : GraphClosed g) :
    ∀ (fuel : Nat) (st out : MstState), PrSafe g st.pairRoutes →
      buildMstLazyLoop dijFuel terminals g fuel st = some out →
      PrSafe g out.pairRoutes := by
  intro fuel
  induction fuel with
  | zero =>
    intro st out hst hout
    injection hout with h2
    rw [← h2]
    exact hst
  | succ fuel ih =>
    intro st out hst hout
    simp only [buildMstLazyLoop] at hout
    split at hout
    · split at hout
      · injection hout with h2
        rw [← h2]
        exact hst
      · split at hout
        · refine ih _ _ ?_ hout
          exact hst
        · split at hout
          · refine ih _ _ ?_ hout
            exact hst
          · split at hout
            · exact Option.noConfusion hout
            · next results hd =>
              refine ih _ _ ?_ hout
              refine mstAddResults_prSafe ?_
                (dijkstraToTargets_safe2 hclosed dijFuel _ _ hd)
              exact hst
    · injection hout with h2
      rw [← h2]
      exact hst

theorem buildMstLazy_prSafe {fuel dijFuel : Nat} {terminals : List Cell}
    {g : Cell → Option (List (Cell × Frac))} (hclosed : GraphClosed g)
    {out : List (Cell × Cell) × PairRoutes}
    (hout : buildMstLazy fuel dijFuel terminals g = some out) :
    PrSafe g out.2 := by
  cases terminals with
  | nil =>
    simp only [buildMstLazy] at hout
    injection hout with h2
    rw [← h2]
    exact prSafeEmpty g
  | cons start restTs =>
    simp only [buildMstLazy] at hout
    split at hout
    · exact Option.noConfusion hout
    · next results hd =>
      split at hout
      · exact Option.noConfusion hout
      · next stF hl =>
        injection hout with h2
        rw [← h2]
        exact buildMstLazyLoop_prSafe hclosed fuel _ _
          (mstAddResults_prSafe (prSafeEmpty g)
            (dijkstraToTargets_safe2 hclosed dijFuel _ _ hd)) hl

theorem getPath_prSafe {dijFuel : Nat}
    {g : Cell → Option (List (Cell × Frac))} (hclosed : GraphClosed g)
    {pr : PairRoutes} (hpr : PrSafe g pr) (u v : Cell) :
    PrSafe g (getPath dijFuel g pr u v).2 := by
  unfold getPath
  cases hc : pr (u, v) with
  | some r => exact hpr
  | none =>
    cases hd : dijkstraPath dijFuel u v g with
    | some cp =>
      have hp : ∀ x ∈ cp.2, (g x).isSome = true :=
        dijkstraPath_route_safe hclosed dijFuel u v hd
      exact prSafeUpdate (prSafeUpdate hpr (Or.inl hp))
        (routeSafe_reverse (Or.inl hp))
    | none => exact hpr

theorem cgConnStep_prSafe {dijFuel : Nat}
    {g : Cell → Option (List (Cell × Frac))} (hclosed : GraphClosed g)
    {acc : Option (List (List Cell)) × PairRoutes} (hpr : PrSafe g acc.2)
    (conn : Cell × Cell) : PrSafe g (cgConnStep dijFuel g acc conn).2 := by
  unfold cgConnStep
  cases acc.1 with
  | none => exact hpr
  | some paths =>
    have hgp := @getPath_prSafe dijFuel g hclosed acc.2 hpr conn.1 conn.2
    cases hc : (getPath dijFuel g acc.2 conn.1 conn.2).1 with
    | none =>
      simp only []
      rw [show getPath dijFuel g acc.2 conn.1 conn.2 =
        ((getPath dijFuel g acc.2 conn.1 conn.2).1,
         (getPath dijFuel g acc.2 conn.1 conn.2).2) from rfl, hc]
      exact hgp
    | some cp =>
      simp only []
      rw [show getPath dijFuel g acc.2 conn.1 conn.2 =
        ((getPath dijFuel g acc.2 conn.1 conn.2).1,
         (getPath dijFuel g acc.2 conn.1 conn.2).2) from rfl, hc]
      simp only []
      by_cases he : cp.2.isEmpty = true
      · rw [if_pos he]
        exact hgp
      · rw [if_neg he]
        exact hgp

theorem componentGain_prSafe {dijFuel : Nat}
    {g : Cell → Option (List (Cell × Frac))} (hclosed : GraphClosed g)
    (width height : Nat) (walls trays : List Cell)
    (mstEdges : List (Cell × Cell)) {pr : PairRoutes} (hpr : PrSafe g pr)
    (connections : List (Cell × Cell)) (groupSet : List Cell) :
    PrSafe g (componentGain dijFuel g width height walls trays mstEdges pr
      connections groupSet).2.2 := by
  unfold componentGain
  have hfold : ∀ (l : List (Cell × Cell))
      (acc : Option (List (List Cell)) × PairRoutes), PrSafe g acc.2 →
      PrSafe g (l.foldl (cgConnStep dijFuel g) acc).2 := by
    intro l
    induction l with
    | nil => intro acc h; exact h
    | cons c rest ih =>
      intro acc h
      rw [List.foldl_cons]
      exact ih _ (cgConnStep_prSafe hclosed h c)
  have hnp := hfold connections (some [], pr) hpr
  cases hc : (connections.foldl (cgConnStep dijFuel g) (some [], pr)).1 with
  | none =>
    rw [show connections.foldl (cgConnStep dijFuel g) (some [], pr) =
      ((connections.foldl (cgConnStep dijFuel g) (some [], pr)).1,
       (connections.foldl (cgConnStep dijFuel g) (some [], pr)).2)
      from rfl, hc]
    exact hnp
  | some newPaths =>
    rw [show connections.foldl (cgConnStep dijFuel g) (some [], pr) =
      ((connections.foldl (cgConnStep dijFuel g) (some [], pr)).1,
       (connections.foldl (cgConnStep dijFuel g) (some [], pr)).2)
      from rfl, hc]
    exact hnp

theorem genQuadStep_prSafe {dijFuel : Nat}
    {g : Cell → Option (List (Cell × Frac))} (hclosed : GraphClosed g)
    (width height : Nat) (walls trays : List Cell)
    (mstEdges : List (Cell × Cell)) (t1 t2 t3 t4 : Cell)
    {acc : List FullComponent × PairRoutes} (hpr : PrSafe g acc.2)
    (pairs : (Cell × Cell) × (Cell × Cell)) :
    PrSafe g (genQuadStep dijFuel g width height walls trays mstEdges
      t1 t2 t3 t4 acc pairs).2 := by
  unfold genQuadStep
  simp only []
  split
  · exact hpr
  · split
    · exact hpr
    · have hcg := @componentGain_prSafe dijFuel g hclosed width height walls
        trays mstEdges acc.2
        hpr [(⟨pairs.1.1.x, pairs.1.2.y⟩, pairs.1.1),
          (⟨pairs.1.1.x, pairs.1.2.y⟩, pairs.1.2),
          (⟨pairs.2.1.x, pairs.2.2.y⟩, pairs.2.1),
          (⟨pairs.2.1.x, pairs.2.2.y⟩, pairs.2.2),
          (⟨pairs.1.1.x, pairs.1.2.y⟩, ⟨pairs.2.1.x, pairs.2.2.y⟩)]
        [t1, t2, t3, t4]
      split
      · exact hcg
      · split
        · exact hcg
        · exact hcg

theorem genCompStep_prSafe {dijFuel : Nat}
    {g : Cell → Option (List (Cell × Frac))} (hclosed : GraphClosed g)
    (width height : Nat) (walls trays : List Cell)
    (mstEdges : List (Cell × Cell))
    {acc : List FullComponent × PairRoutes} (hpr : PrSafe g acc.2)
    (group : List Cell) :
    PrSafe g (genCompStep dijFuel g width height walls trays mstEdges acc
      group).2 := by
  have hquadfold : ∀ (l : List ((Cell × Cell) × (Cell × Cell)))
      (t1 t2 t3 t4 : Cell) (acc2 : List FullComponent × PairRoutes),
      PrSafe g acc2.2 →
      PrSafe g (l.foldl (genQuadStep dijFuel g width height walls trays
        mstEdges t1 t2 t3 t4) acc2).2 := by
    intro l t1 t2 t3 t4
    induction l with
    | nil => intro acc2 h; exact h
    | cons p rest ih =>
      intro acc2 h
      rw [List.foldl_cons]
      exact ih _ (genQuadStep_prSafe hclosed width height walls trays
        mstEdges t1 t2 t3 t4 h p)
  unfold genCompStep
  split
  · next t1 t2 t3 =>
    simp only []
    split
    · exact hpr
    · split
      · exact hpr
      · split
        · exact hpr
        · have hcg := @componentGain_prSafe dijFuel g hclosed width height
            walls trays mstEdges acc.2 hpr
            [(⟨((sortedInts [t1.x, t2.x, t3.x]).drop 1).headD 0,
                ((sortedInts [t1.y, t2.y, t3.y]).drop 1).headD 0⟩, t1),
             (⟨((sortedInts [t1.x, t2.x, t3.x]).drop 1).headD 0,
                ((sortedInts [t1.y, t2.y, t3.y]).drop 1).headD 0⟩, t2),
             (⟨((sortedInts [t1.x, t2.x, t3.x]).drop 1).headD 0,
                ((sortedInts [t1.y, t2.y, t3.y]).drop 1).headD 0⟩, t3)]
            [t1, t2, t3]
          split
          · exact hcg
          · split
            · exact hcg
            · exact hcg
  · next t1 t2 t3 t4 =>
    simp only []
    split
    · exact hpr
    · split
      · exact hpr
      · exact hquadfold _ t1 t2 t3 t4 acc hpr
  · exact hpr

theorem generateAllComponents_prSafe {dijFuel : Nat} (terminals : List Cell)
    (mstEdges : List (Cell × Cell)) {pr0 : PairRoutes}
    {g : Cell → Option (List (Cell × Frac))} (hclosed : GraphClosed g)
    (hpr : PrSafe g pr0)
    (width height : Nat) (walls trays : List Cell) (cables : List Cable)
    (machines : List (String × Machine)) :
    PrSafe g (generateAllComponents dijFuel terminals mstEdges pr0 g width
      height walls trays cables machines).2 := by
  unfold generateAllComponents
  have hfold : ∀ (l : List (List Cell))
      (acc : List FullComponent × PairRoutes), PrSafe g acc.2 →
      PrSafe g (l.foldl (genCompStep dijFuel g width height walls trays
        mstEdges) acc).2 := by
    intro l
    induction l with
    | nil => intro acc h; exact h
    | cons grp rest ih =>
      intro acc h
      rw [List.foldl_cons]
      exact ih _ (genCompStep_prSafe hclosed width height walls trays
        mstEdges h grp)
  exact hfold _ ([], pr0) hpr

theorem updateMstWithComponents_prSafe {mstFuel dijFuel : Nat}
    (mstEdges : List (Cell × Cell)) (comps : List FullComponent)
    {pr : PairRoutes} {g : Cell → Option (List (Cell × Frac))}
    (hclosed : GraphClosed g) (hpr : PrSafe g pr) :
    PrSafe g (updateMstWithComponents mstFuel dijFuel mstEdges comps pr
      g).2 := by
  unfold updateMstWithComponents
  have hconn : ∀ (l : List (Cell × Cell)) (pr2 : PairRoutes),
      PrSafe g pr2 →
      PrSafe g (l.foldl
        (fun pr c =>
          match pr c with
          | some _ => pr
          | none =>
            match dijkstraPath dijFuel c.1 c.2 g with
            | some cp =>
              prUpdate (prUpdate pr c cp) (c.2, c.1) (cp.1, cp.2.reverse)
            | none => pr) pr2) := by
    intro l
    induction l with
    | nil => intro pr2 h; exact h
    | cons c rest ih =>
      intro pr2 h
      rw [List.foldl_cons]
      refine ih _ ?_
      cases hc : pr2 c with
      | some v => simp only [hc]; exact h
      | none =>
        simp only [hc]
        cases hd : dijkstraPath dijFuel c.1 c.2 g with
        | some cp =>
          simp only [hd]
          have hp : ∀ x ∈ cp.2, (g x).isSome = true :=
            dijkstraPath_route_safe hclosed dijFuel c.1 c.2 hd
          exact prSafeUpdate (prSafeUpdate h (Or.inl hp))
            (routeSafe_reverse (Or.inl hp))
        | none => simp only [hd]; exact h
  have hpp : ∀ (l : List FullComponent) (acc : List Cell × PairRoutes),
      PrSafe g acc.2 →
      PrSafe g (l.foldl
        (fun (acc : List Cell × PairRoutes) comp =>
          (comp.steiner_points.foldl insertNew acc.1,
            comp.connections.foldl
              (fun pr c =>
                match pr c with
                | some _ => pr
                | none =>
                  match dijkstraPath dijFuel c.1 c.2 g with
                  | some cp =>
                    prUpdate (prUpdate pr c cp) (c.2, c.1)
                      (cp.1, cp.2.reverse)
                  | none => pr) acc.2)) acc).2 := by
    intro l
    induction l with
    | nil => intro acc h; exact h
    | cons comp rest ih =>
      intro acc h
      rw [List.foldl_cons]
      exact ih _ (hconn comp.connections acc.2 h)
  exact hpp comps _ hpr

theorem optEvalStep_prSafe {dijFuel mstFuel : Nat}
    {g : Cell → Option (List (Cell × Frac))} (hclosed : GraphClosed g)
    (st1 : OptState)
    {acc : PairRoutes × Frac × Option (FullComponent × List (Cell × Cell))}
    (h1 : PrSafe g acc.1) (comp : FullComponent) :
    PrSafe g (optEvalStep dijFuel mstFuel g st1 acc comp).1 := by
  have hum := @updateMstWithComponents_prSafe mstFuel dijFuel st1.mstEdges
    [comp] acc.1 g hclosed h1
  unfold optEvalStep
  rcases hu : updateMstWithComponents mstFuel dijFuel st1.mstEdges [comp]
    acc.1 g with ⟨newEdges, newPr⟩
  rw [hu] at hum
  simp only [hu]
  by_cases hlt : acc.2.1.ltb
      (st1.currentLength.sub (mstTotalLength newEdges newPr)) = true
  · rw [if_pos hlt]
    exact hum
  · rw [if_neg hlt]
    exact hum

theorem optInnerLoop_prSafe {dijFuel mstFuel : Nat}
    {g : Cell → Option (List (Cell × Frac))} (hclosed : GraphClosed g)
    (width height : Nat) (walls trays : List Cell) (cables : List Cable)
    (machines : List (String × Machine)) :
    ∀ (fuel : Nat) (st : OptState), PrSafe g st.pairRoutes →
      PrSafe g (optInnerLoop dijFuel mstFuel g width height walls trays
        cables machines fuel st).1.pairRoutes := by
  intro fuel
  induction fuel with
  | zero => intro st h1; exact h1
  | succ fuel ih =>
    intro st h1
    simp only [optInnerLoop]
    rcases hgc : generateAllComponents dijFuel st.terminals st.mstEdges
      st.pairRoutes g width height walls trays cables machines with
      ⟨comps, pr2⟩
    have hpr2 : PrSafe g pr2 := by
      have := @generateAllComponents_prSafe dijFuel st.terminals st.mstEdges
        st.pairRoutes g hclosed h1 width height walls trays cables machines
      rw [hgc] at this
      exact this
    simp only []
    split
    · exact hpr2
    · rcases hev : comps.foldl
        (optEvalStep dijFuel mstFuel g { st with pairRoutes := pr2 })
        (pr2, Frac.ofInt 0, none) with ⟨prF, imp, bestOpt⟩
      have hfold : ∀ (l : List FullComponent)
          (acc : PairRoutes × Frac ×
            Option (FullComponent × List (Cell × Cell))), PrSafe g acc.1 →
          PrSafe g (l.foldl (optEvalStep dijFuel mstFuel g
            { st with pairRoutes := pr2 }) acc).1 := by
        intro l
        induction l with
        | nil => intro acc h; exact h
        | cons comp rest ih2 =>
          intro acc h
          rw [List.foldl_cons]
          exact ih2 _ (optEvalStep_prSafe hclosed _ h comp)
      have hprF : PrSafe g prF := by
        have := hfold comps (pr2, Frac.ofInt 0, none) hpr2
        rw [hev] at this
        exact this
      simp only []
      cases bestOpt with
      | none => exact hprF
      | some best => exact ih _ hprF

theorem optPasses_prSafe {dijFuel mstFuel innerFuel : Nat}
    {g : Cell → Option (List (Cell × Frac))} (hclosed : GraphClosed g)
    (width height : Nat) (walls trays : List Cell) (cables : List Cable)
    (machines : List (String × Machine)) :
    ∀ (passes passId : Nat) (st : OptState), PrSafe g st.pairRoutes →
      PrSafe g (optPasses dijFuel mstFuel innerFuel g width height walls
        trays cables machines passes passId st).pairRoutes := by
  intro passes
  induction passes with
  | zero => intro passId st h1; exact h1
  | succ passes ih =>
    intro passId st h1
    simp only [optPasses]
    rcases hr : optInnerLoop dijFuel mstFuel g width height walls trays
      cables machines innerFuel st with ⟨st2, improved⟩
    have hinner := @optInnerLoop_prSafe dijFuel mstFuel g hclosed width
      height walls trays cables machines innerFuel st h1
    rw [hr] at hinner
    simp only []
    split
    · exact ih (passId + 1) { st2 with passesUsed := passId } hinner
    · exact hinner

theorem optMstD_prSafe (d m : Nat) (cfg : GridConfig) :
    PrSafe (optGraph cfg) (optMstD d m cfg).2 := by
  unfold optMstD
  cases hm : optMst d m cfg with
  | none => exact prSafeEmpty (optGraph cfg)
  | some p => exact buildMstLazy_prSafe (optGraph_closed cfg) hm

theorem optStF_prSafe (d m i : Nat) (cfg : GridConfig) :
    PrSafe (optGraph cfg) (optStF d m i cfg).pairRoutes :=
  optPasses_prSafe (optGraph_closed cfg) cfg.width cfg.height
    (optWalls cfg) (optTrays cfg) (validCablesOf cfg) cfg.machines 5 1
    (optSt0 d m cfg) (optMstD_prSafe d m cfg)

/-- Every node and neighbour of the adjacency map is passable. -/
def AdjSafe (g : Cell → Option (List (Cell × Frac)))
    (adj : List (Cell × List Cell)) : Prop :=
  ∀ p ∈ adj, (g p.1).isSome = true ∧ ∀ b ∈ p.2, (g b).isSome = true

theorem adjInsert_safe {g : Cell → Option (List (Cell × Frac))}
    {adj : List (Cell × List Cell)} (h : AdjSafe g adj) {a b : Cell}
    (ha : (g a).isSome = true) (hb : (g b).isSome = true) :
    AdjSafe g (adjInsert adj a b) := by
  unfold adjInsert
  split
  · intro p hp
    obtain ⟨q, hq, hpq⟩ := List.mem_map.mp hp
    by_cases hqa : q.1 = a
    · rw [if_pos hqa] at hpq
      rw [← hpq]
      refine ⟨ha, ?_⟩
      intro x hx
      rcases (mem_insertNew_iff q.2 b x).mp hx with h2 | h2
      · exact (h q hq).2 x h2
      · rw [h2]; exact hb
    · rw [if_neg hqa] at hpq
      rw [← hpq]
      exact h q hq
  · intro p hp
    rcases List.mem_append.mp hp with h2 | h2
    · exact h p h2
    · rw [List.mem_singleton.mp h2]
      exact ⟨ha, fun x hx => by rw [List.mem_singleton.mp hx]; exact hb⟩

theorem buildMstAdjacency_safe {g : Cell → Option (List (Cell × Frac))}
    {pr : PairRoutes} (hpr : PrSafe g pr)
    (mstEdges : List (Cell × Cell)) :
    AdjSafe g (buildMstAdjacency mstEdges pr) := by
  unfold buildMstAdjacency
  have hzip : ∀ (e : Cell × Cell) (pq : Cell × Cell),
      pq ∈ (((pr e).getD (Frac.ofInt 0, [])).2).zip
        (((pr e).getD (Frac.ofInt 0, [])).2).tail →
      (g pq.1).isSome = true ∧ (g pq.2).isSome = true := by
    intro e pq hpq
    cases hc : pr e with
    | none =>
      rw [hc] at hpq
      exact absurd hpq (List.not_mem_nil pq)
    | some v =>
      rw [hc, Option.getD_some] at hpq
      obtain ⟨h1, h2⟩ := List.of_mem_zip
        (show (pq.1, pq.2) ∈ _ from hpq)
      rcases hpr e v hc with hs | ⟨z, hz⟩
      · exact ⟨hs pq.1 h1, hs pq.2 (List.mem_of_mem_tail h2)⟩
      · rw [hz] at h2
        exact absurd h2 (List.not_mem_nil pq.2)
  have hinner : ∀ (e : Cell × Cell) (l : List (Cell × Cell))
      (acc : List (Cell × List Cell)),
      (∀ pq ∈ l, (g pq.1).isSome = true ∧ (g pq.2).isSome = true) →
      AdjSafe g acc →
      AdjSafe g (l.foldl
        (fun adj pq => adjInsert (adjInsert adj pq.1 pq.2) pq.2 pq.1)
        acc) := by
    intro e l
    induction l with
    | nil => intro acc _ h; exact h
    | cons pq rest ih =>
      intro acc hl h
      rw [List.foldl_cons]
      have hh := hl pq (List.mem_cons_self pq rest)
      exact ih _ (fun x hx => hl x (List.mem_cons_of_mem pq hx))
        (adjInsert_safe (adjInsert_safe h hh.1 hh.2) hh.2 hh.1)
  have houter : ∀ (l : List (Cell × Cell)) (acc : List (Cell × List Cell)),
      AdjSafe g acc →
      AdjSafe g (l.foldl
        (fun adj e =>
          ((((pr e).getD (Frac.ofInt 0, [])).2).zip
            (((pr e).getD (Frac.ofInt 0, [])).2).tail).foldl
            (fun adj pq => adjInsert (adjInsert adj pq.1 pq.2) pq.2 pq.1)
            adj) acc) := by
    intro l
    induction l with
    | nil => intro acc h; exact h
    | cons e rest ih =>
      intro acc h
      rw [List.foldl_cons]
      exact ih _ (hinner e _ acc (hzip e) h)
  exact houter mstEdges [] (fun p hp => absurd hp (List.not_mem_nil p))

theorem bfsRouteLoop_safe {g : Cell → Option (List (Cell × Frac))}
    {adjacency : List (Cell × List Cell)} (hadj : AdjSafe g adjacency)
    (dst : Cell) :
    ∀ (fuel : Nat) (queue : List Cell)
      (cameFrom : Cell → Option (Option Cell)),
      (∀ c ∈ queue, (g c).isSome = true) →
      (∀ c p, cameFrom c = some (some p) →
        (g p).isSome = true ∧ (g c).isSome = true) →
      ∀ x ∈ bfsRouteLoop adjacency dst fuel queue cameFrom,
        (g x).isSome = true := by
  intro fuel
  induction fuel with
  | zero =>
    intro queue cameFrom _ _ x hx
    exact absurd hx (List.not_mem_nil x)
  | succ fuel ih =>
    intro queue cameFrom hq hcf x hx
    simp only [bfsRouteLoop] at hx
    cases queue with
    | nil => exact absurd hx (List.not_mem_nil x)
    | cons current rest =>
      have hcur : (g current).isSome = true :=
        hq current (List.mem_cons_self current rest)
      simp only [] at hx
      split at hx
      · rw [List.mem_reverse] at hx
        exact reconstructAux_safe hcf (fuel + 1) current hcur x hx
      · have hnbrs : ∀ b ∈ (assocLookup adjacency current).getD [],
            (g b).isSome = true := by
          intro b hb
          cases hl : assocLookup adjacency current with
          | none =>
            rw [hl] at hb
            exact absurd hb (List.not_mem_nil b)
          | some l =>
            rw [hl, Option.getD_some] at hb
            exact (hadj (current, l) (assocLookup_mem hl)).2 b hb
        have hfold : ∀ (l : List Cell)
            (acc : List Cell × (Cell → Option (Option Cell))),
            (∀ b ∈ l, (g b).isSome = true) →
            (∀ c ∈ acc.1, (g c).isSome = true) →
            (∀ c p, acc.2 c = some (some p) →
              (g p).isSome = true ∧ (g c).isSome = true) →
            (∀ c ∈ (l.foldl
              (fun (acc : List Cell × (Cell → Option (Option Cell))) nbr =>
                if (acc.2 nbr).isSome then acc
                else (acc.1 ++ [nbr],
                  Function.update acc.2 nbr (some (some current)))) acc).1,
              (g c).isSome = true) ∧
            (∀ c p, (l.foldl
              (fun (acc : List Cell × (Cell → Option (Option Cell))) nbr =>
                if (acc.2 nbr).isSome then acc
                else (acc.1 ++ [nbr],
                  Function.update acc.2 nbr (some (some current)))) acc).2 c
                = some (some p) →
              (g p).isSome = true ∧ (g c).isSome = true) := by
          intro l
          induction l with
          | nil => intro acc _ h1 h2; exact ⟨h1, h2⟩
          | cons nbr rest2 ih2 =>
            intro acc hl h1 h2
            rw [List.foldl_cons]
            have hnb : (g nbr).isSome = true :=
              hl nbr (List.mem_cons_self nbr rest2)
            refine ih2 _ (fun b hb => hl b (List.mem_cons_of_mem nbr hb))
              ?_ ?_
            · split
              · exact h1
              · intro c hc
                rcases List.mem_append.mp hc with h3 | h3
                · exact h1 c h3
                · rw [List.mem_singleton.mp h3]
                  exact hnb
            · split
              · exact h2
              · intro c p hcp
                have hcp2 : Function.update acc.2 nbr
                    (some (some current)) c = some (some p) := hcp
                by_cases hcn : c = nbr
                · rw [hcn, Function.update_same] at hcp2
                  injection hcp2 with h3
                  injection h3 with h4
                  rw [← h4, hcn]
                  exact ⟨hcur, hnb⟩
                · rw [Function.update_noteq hcn] at hcp2
                  exact h2 c p hcp2
        obtain ⟨g1, g2⟩ := hfold _ (rest, cameFrom) hnbrs
          (fun c hc => hq c (List.mem_cons_of_mem current hc)) hcf
        exact ih _ _ g1 g2 x hx

theorem findCableRoute_safe {g : Cell → Option (List (Cell × Frac))}
    {pr : PairRoutes} (hpr : PrSafe g pr) (fuel : Nat) (src dst : Cell)
    (mstEdges : List (Cell × Cell)) :
    ∀ x ∈ findCableRoute fuel src dst mstEdges pr, (g x).isSome = true := by
  intro x hx
  unfold findCableRoute at hx
  simp only [] at hx
  split at hx
  · exact absurd hx (List.not_mem_nil x)
  · next hguard =>
    have hadj : AdjSafe g (buildMstAdjacency mstEdges pr) :=
      buildMstAdjacency_safe hpr mstEdges
    have hsrc : (g src).isSome = true := by
      rcases not_or.mp hguard with ⟨h1, _⟩
      cases hl : assocLookup (buildMstAdjacency mstEdges pr) src with
      | none => exact absurd (by rw [hl]; rfl) h1
      | some l => exact (hadj (src, l) (assocLookup_mem hl)).1
    refine bfsRouteLoop_safe hadj dst fuel [src] _ ?_ ?_ x hx
    · intro c hc
      rw [List.mem_singleton.mp hc]
      exact hsrc
    · intro c p hcp
      by_cases hc : c = src
      · rw [hc, Function.update_same] at hcp
        injection hcp with h2
        exact Option.noConfusion h2
      · rw [Function.update_noteq hc] at hcp
        exact Option.noConfusion hcp

theorem splitPath_subset (path : List Cell) (sps : List Cell) :
    ∀ seg ∈ splitPathAtSteinerPoints path sps, ∀ x ∈ seg, x ∈ path := by
  unfold splitPathAtSteinerPoints
  have key : ∀ (l : List Cell)
      (acc : List (List Cell) × List Cell × Nat),
      (∀ p2 ∈ l, p2 ∈ path) →
      (∀ s ∈ acc.1, ∀ x ∈ s, x ∈ path) →
      (∀ x ∈ acc.2.1, x ∈ path) →
      ∀ s ∈ (l.foldl
        (fun (acc : List (List Cell) × List Cell × Nat) p =>
          if acc.2.2 < path.length - 1 then
            if p ∈ sps ∧ acc.2.2 ≠ 0 then
              (acc.1 ++ [acc.2.1 ++ [p]], [p], acc.2.2 + 1)
            else (acc.1, acc.2.1 ++ [p], acc.2.2 + 1)
          else (acc.1 ++ [acc.2.1 ++ [p]], acc.2.1 ++ [p], acc.2.2 + 1))
        acc).1, ∀ x ∈ s, x ∈ path := by
    intro l
    induction l with
    | nil => intro acc _ h1 _; exact h1
    | cons p rest ih =>
      intro acc hl h1 h2
      rw [List.foldl_cons]
      have hp : p ∈ path := hl p (List.mem_cons_self p rest)
      have hcur : ∀ x ∈ acc.2.1 ++ [p], x ∈ path := by
        intro x hx
        rcases List.mem_append.mp hx with h3 | h3
        · exact h2 x h3
        · rw [List.mem_singleton.mp h3]
          exact hp
      have hseg : ∀ s ∈ acc.1 ++ [acc.2.1 ++ [p]], ∀ x ∈ s, x ∈ path := by
        intro s hs
        rcases List.mem_append.mp hs with h3 | h3
        · exact h1 s h3
        · rw [List.mem_singleton.mp h3]
          exact hcur
      refine ih _ (fun p2 hp2 => hl p2 (List.mem_cons_of_mem p hp2)) ?_ ?_
      · split
        · split
          · exact hseg
          · exact h1
        · exact hseg
      · split
        · split
          · intro x hx
            rw [List.mem_singleton.mp hx]
            exact hp
          · exact hcur
        · exact hcur
  intro seg hseg
  refine key path ([], [], 0) (fun p2 hp2 => hp2) ?_ ?_ seg hseg
  · intro s hs
    exact absurd hs (List.not_mem_nil s)
  · intro x hx
    exact absurd hx (List.not_mem_nil x)

theorem splitPath_nil (sps : List Cell) :
    splitPathAtSteinerPoints [] sps = [] := rfl

theorem splitPath_singleton (z : Cell) (sps : List Cell) :
    splitPathAtSteinerPoints [z] sps = [[z]] := rfl

theorem convertToSections_points_safe {g : Cell → Option (List (Cell × Frac))}
    {pr : PairRoutes} (hpr : PrSafe g pr) (routeFuel : Nat) (res : Frac)
    (finalMst : List (Cell × Cell)) (cables : List Cable)
    (machines : List (String × Machine)) (networks : List Network) :
    ∀ sec ∈ convertToSections routeFuel res finalMst cables machines networks
      pr, ∀ x ∈ sec.points, (g x).isSome = true := by
  intro sec hsec
  unfold convertToSections at hsec
  simp only [] at hsec
  refine (mem_foldl_or _
    (fun s : Section => ∀ x ∈ s.points, (g x).isSome = true) ?_ _ _ sec
    hsec).resolve_left (List.not_mem_nil sec)
  intro acc pair s hs
  simp only [] at hs
  refine mem_foldl_or _
    (fun s2 : Section => ∀ x ∈ s2.points, (g x).isSome = true) ?_ finalMst acc
    s hs
  intro acc2 e s2 hs2
  simp only [] at hs2
  split at hs2
  · exact Or.inl hs2
  · refine (mem_foldl_or_mem _
      (fun (seg : List Cell) (s3 : Section) =>
        s3.points = seg ∧ 2 ≤ seg.length) _ ?_ acc2 s2 hs2).imp id ?_
    · intro acc3 seg s3 _ hs3
      simp only [] at hs3
      by_cases hl2 : seg.length < 2
      · rw [if_pos hl2] at hs3
        exact Or.inl hs3
      · rw [if_neg hl2] at hs3
        split at hs3
        · exact Or.inl hs3
        · rcases List.mem_append.mp hs3 with h4 | h4
          · exact Or.inl h4
          · rw [List.mem_singleton.mp h4]
            exact Or.inr ⟨rfl, Nat.le_of_not_lt hl2⟩
    · rintro ⟨seg, hsegmem, hpts, hlen⟩
      intro x hx
      rw [hpts] at hx
      cases hc : pr e with
      | none =>
        rw [hc] at hsegmem
        exact absurd hsegmem (List.not_mem_nil seg)
      | some v =>
        rw [hc, Option.getD_some] at hsegmem
        rcases hpr e v hc with hsafe | ⟨z, hz⟩
        · exact hsafe x (splitPath_subset v.2 _ seg hsegmem x hx)
        · rw [hz, splitPath_singleton] at hsegmem
          rw [List.mem_singleton.mp hsegmem] at hlen
          simp at hlen

theorem mem_foldl_update_val {α β γ : Type} [DecidableEq α]
    (g : γ → α) (v : γ → β) (l : List γ) :
    ∀ (init : List (α × β)) (p : α × β),
      p ∈ l.foldl (fun acc x => assocUpdate acc (g x) (v x)) init →
      p ∈ init ∨ ∃ c ∈ l, p = (g c, v c) := by
  intro init p h
  refine mem_foldl_or_mem _ (fun c p2 => p2 = (g c, v c)) l ?_ init p h
  intro acc a s _ hs
  rcases mem_assocUpdate hs with h2 | h2
  · exact Or.inr h2
  · exact Or.inl h2

theorem step8Route_not_blocked (d m rf i : Nat) (cfg : GridConfig)
    (cb : Cable) :
    ∀ x ∈ step8Route rf cfg (optStF d m i cfg) cb, ¬ x ∈ optWalls cfg := by
  intro x hx
  unfold step8Route at hx
  have h2 := findCableRoute_safe (optStF_prSafe d m i cfg) rf
    (cableSrcPt cfg cb) (cableTgtPt cfg cb) (optStF d m i cfg).mstEdges x hx
  unfold optGraph at h2
  exact (buildWeightedGraph_isSome_elim h2).2

theorem optStep8_routes_not_blocked {d m rf i : Nat} {cfg : GridConfig}
    {rp : List (String × List Cell) × List ProblematicCable}
    (h : optStep8 d m rf i cfg = some rp) :
    ∀ p ∈ rp.1, ∀ x ∈ p.2, ¬ x ∈ optWalls cfg := by
  intro p hp x hx
  unfold optStep8 at h
  have hr := step8Fold_routes rf cfg (optStF d m i cfg) (validCablesOf cfg)
    ([], []) rp h
  rw [hr] at hp
  rcases mem_foldl_update_val cableId
      (fun cb => step8Route rf cfg (optStF d m i cfg) cb)
      (validCablesOf cfg) ([], []).1 p hp with h2 | ⟨cb, _, h3⟩
  · exact absurd h2 (List.not_mem_nil p)
  · rw [h3] at hx
    exact step8Route_not_blocked d m rf i cfg cb x hx

/-! ## Claim C6: perforation override and no blocked cells in the output -/

/-- C6: a cell listed both as a wall and as a perforation is not in the
effective wall set and is passable in the routing graph whenever it lies
inside the grid; moreover no route of the returned `cableRoutes` mapping
and no section's points list visits a blocked cell (a cell of the
effective wall set, i.e. a wall not cancelled by a perforation). -/
theorem C6_no_blocked_cells (d m rf i : Nat) (cfg : GridConfig)
    (r : RoutingResponse) (h : optimizeCablePaths d m rf i cfg = some r) :
    (∀ c : Cell, c ∈ cfg.walls → c ∈ cfg.perforations →
      ¬ c ∈ optWalls cfg ∧
        (inGrid cfg.width cfg.height c = true →
          (optGraph cfg c).isSome = true)) ∧
    (∀ p ∈ r.cableRoutes, ∀ x ∈ p.2, ¬ x ∈ optWalls cfg) ∧
    (∀ sec ∈ r.sections, ∀ x ∈ sec.points, ¬ x ∈ optWalls cfg) := by
  obtain ⟨rp, hrp, hr⟩ := optimizeCablePaths_some_elim h
  refine ⟨?_, ?_, ?_⟩
  · intro c _ hperf
    have hnw : ¬ c ∈ optWalls cfg := by
      intro hcw
      unfold optWalls at hcw
      rw [List.mem_filter] at hcw
      have h2 := hcw.2
      simp only [decide_eq_true_eq] at h2
      exact h2 ((mem_dedupKeepOrder cfg.perforations c).mpr hperf)
    refine ⟨hnw, fun hin => ?_⟩
    unfold optGraph buildWeightedGraph
    rw [if_pos ⟨hin, hnw⟩]
    rfl
  · intro p hp x hx
    rw [hr, optAssemble_cableRoutes] at hp
    unfold optCableRoutes at hp
    rcases mem_foldl_update_val cableId
        (fun cb => step8Route rf cfg (optStF d m i cfg) cb)
        (validCablesOf cfg) rp.1 p hp with h2 | ⟨cb, _, h3⟩
    · exact optStep8_routes_not_blocked hrp p h2 x hx
    · rw [h3] at hx
      exact step8Route_not_blocked d m rf i cfg cb x hx
  · intro sec hsec x hx
    rw [hr, optAssemble_sections] at hsec
    have hsec2 := (List.mem_filter.mp hsec).1
    unfold optFallbackFold at hsec2
    refine (mem_foldl_or_mem _
      (fun (pair : String × List Cell) (s : Section) =>
        ∃ cb, s = fallbackSection cfg cb pair.1 pair.2) rp.1 ?_ _ sec
      hsec2).elim ?_ ?_
    · intro acc a s _ hs
      simp only [] at hs
      split at hs
      · exact Or.inl hs
      · split at hs
        · exact Or.inl hs
        · rcases List.mem_append.mp hs with h4 | h4
          · exact Or.inl h4
          · exact Or.inr ⟨_, List.mem_singleton.mp h4⟩
    · intro hgrp
      unfold optSections0 at hgrp
      have h4 := convertToSections_points_safe (optStF_prSafe d m i cfg) rf
        cfg.gridResolution (optStF d m i cfg).mstEdges (validCablesOf cfg)
        cfg.machines cfg.networks sec hgrp x hx
      unfold optGraph at h4
      exact (buildWeightedGraph_isSome_elim h4).2
    · rintro ⟨pair, hpmem, cb, hfb⟩
      rw [hfb] at hx
      have hx2 : x ∈ pair.2 := hx
      exact optStep8_routes_not_blocked hrp pair hpmem x hx2

theorem C6_no_blocked_cells_witness :
    optimizeCablePaths 50 20 50 5 cfgTray = some rTray ∧
    ((∀ c : Cell, c ∈ cfgTray.walls → c ∈ cfgTray.perforations →
      ¬ c ∈ optWalls cfgTray ∧
        (inGrid cfgTray.width cfgTray.height c = true →
          (optGraph cfgTray c).isSome = true)) ∧
    (∀ p ∈ rTray.cableRoutes, ∀ x ∈ p.2, ¬ x ∈ optWalls cfgTray) ∧
    (∀ sec ∈ rTray.sections, ∀ x ∈ sec.points, ¬ x ∈ optWalls cfgTray)) :=
  ⟨by decide, C6_no_blocked_cells 50 20 50 5 cfgTray rTray (by decide)⟩

/-! ## Claim C4: unreachable cables, `cableRoutes`, and the `KeyError` -/

theorem isEmpty_false_of_ne_nil {α : Type} {l : List α} (h : l ≠ []) :
    l.isEmpty = false := by
  cases l with
  | nil => exact absurd rfl h
  | cons a rest => rfl

theorem dedupKeepOrder_isEmpty_false {α : Type} [DecidableEq α]
    {l : List α} (h : l ≠ []) : (dedupKeepOrder l).isEmpty = false := by
  cases l with
  | nil => exact absurd rfl h
  | cons a rest =>
    have hmem : a ∈ dedupKeepOrder (a :: rest) :=
      (mem_dedupKeepOrder _ a).mpr (List.mem_cons_self a rest)
    cases hdk : dedupKeepOrder (a :: rest) with
    | nil =>
      rw [hdk] at hmem
      exact absurd hmem (List.not_mem_nil a)
    | cons b rest2 => rfl

/-- The first pop of `_dijkstra_to_targets` is the source; when the
source is not a graph key and is not itself the last remaining target,
the neighbour scan `graph[current]` raises (`none`). -/
theorem dijkstraToTargetsLoop_source_missing
    {graph : Cell → Option (List (Cell × Frac))} {t : Cell}
    (hg : graph t = none) (fuel : Nat) (remaining : List Cell)
    (hne : remaining.isEmpty = false) (hmem : ¬ t ∈ remaining) :
    dijkstraToTargetsLoop graph (fuel + 1) [(Frac.ofInt 0, 0, t)] 1
      (Function.update (fun _ => none) t (some (Frac.ofInt 0)))
      (Function.update (fun _ => none) t (some none))
      remaining [] = none := by
  cases remaining with
  | nil => exact absurd hne (by decide)
  | cons r rs =>
    simp +decide [dijkstraToTargetsLoop, Function.update_same, hmem, hg]

theorem dijkstraToTargets_source_missing
    {graph : Cell → Option (List (Cell × Frac))} {t : Cell}
    (hg : graph t = none) (fuel : Nat) (targets : List Cell)
    (hne : targets.isEmpty = false) (hmem : ¬ t ∈ targets) :
    dijkstraToTargets (fuel + 1) t targets graph = none := by
  unfold dijkstraToTargets
  rw [if_neg (by rw [hne]; exact Bool.false_ne_true)]
  exact dijkstraToTargetsLoop_source_missing hg fuel targets hne hmem

/-- `build_mst_lazy` raises the `KeyError` when the first terminal is
off-graph and at least one other (distinct) terminal exists. -/
theorem buildMstLazy_source_missing
    {graph : Cell → Option (List (Cell × Frac))} {t : Cell}
    (hg : graph t = none) (fuel dijFuel : Nat) (ts : List Cell)
    (hne : ts ≠ []) (hmem : ¬ t ∈ ts) :
    buildMstLazy fuel (dijFuel + 1) (t :: ts) graph = none := by
  have hd := dijkstraToTargets_source_missing hg dijFuel (dedupKeepOrder ts)
    (dedupKeepOrder_isEmpty_false hne)
    (fun h2 => hmem ((mem_dedupKeepOrder ts t).mp h2))
  simp only [buildMstLazy, hd]

/-- C4 (amended): every valid cable — reachable or not — has its id
present as a key of the returned `cableRoutes` of a successful response;
an unreachable cable maps to the empty route (see the counterexample for
the concrete `[]`).  But an endpoints-cannot-be-connected request does
not always complete: when the first machine point sits on a blocked cell
(absent from the routing graph) and a distinct second machine exists,
`_dijkstra_to_targets` raises an uncaught `KeyError` at `graph[current]`
and the endpoint fails with HTTP 500 (`none`). -/
theorem C4_cableRoutes_key_present (d m rf i : Nat) (cfg : GridConfig)
    (r : RoutingResponse)
    (h : optimizeCablePaths d m rf i cfg = some r)
    (cb : Cable) (hcb : cb ∈ validCablesOf cfg) :
    (assocLookup r.cableRoutes (cableId cb)).isSome = true ∧
    (∀ (d2 m2 rf2 i2 : Nat) (cfg2 : GridConfig) (t : Cell) (ts : List Cell),
      0 < d2 → optTerminals cfg2 = t :: ts → ts ≠ [] → ¬ t ∈ ts →
      optGraph cfg2 t = none →
      optimizeCablePaths d2 m2 rf2 i2 cfg2 = none) := by
  constructor
  · obtain ⟨rp, _, hr⟩ := optimizeCablePaths_some_elim h
    rw [hr, optAssemble_cableRoutes]
    unfold optCableRoutes
    exact assocLookup_foldl_update_key (fun cb => cableId cb)
      (fun cb => step8Route rf cfg (optStF d m i cfg) cb)
      (validCablesOf cfg) rp.1 cb hcb
  · intro d2 m2 rf2 i2 cfg2 t ts hd2 hterm hne hmem hgn
    have hmst : optMst d2 m2 cfg2 = none := by
      unfold optMst
      rw [hterm]
      cases d2 with
      | zero => exact absurd hd2 (lt_irrefl 0)
      | succ k => exact buildMstLazy_source_missing hgn m2 k ts hne hmem
    unfold optimizeCablePaths
    rw [hmst]

/-- Witness for `C4_cableRoutes_key_present`: the unreachable `K1` of
`cfgIsland` keeps its key in a successful response, and `cfgBlocked`
(first machine on a wall) makes the endpoint fail with `none`. -/
theorem C4_cableRoutes_key_present_witness :
    optimizeCablePaths 50 20 50 5 cfgIsland = some rIsland ∧
    islandCable ∈ validCablesOf cfgIsland ∧
    (assocLookup rIsland.cableRoutes (cableId islandCable)).isSome = true ∧
    optimizeCablePaths 50 20 50 5 cfgBlocked = none :=
  ⟨by decide, by decide,
   (C4_cableRoutes_key_present 50 20 50 5 cfgIsland rIsland (by decide)
     islandCable (by decide)).1,
   (C4_cableRoutes_key_present 50 20 50 5 cfgIsland rIsland (by decide)
     islandCable (by decide)).2 50 20 50 5 cfgBlocked ⟨0, 0⟩ [⟨1, 0⟩]
     (by decide) (by decide) (by decide) (by decide) (by decide)⟩
